import Mathlib

/-!
# Entity capabilities, the archive query and the session configuration

A shallow embedding of the four source files of the repository:

* `disco/caps.go`: `Info.Hash`, `Info.AppendHash` and
  `CapsHandler.HandlePresence`, together with the parts of the libraries they
  run on (`sort.Slice`, `sort.Strings`, `hash.Hash`, `base64.StdEncoding`,
  `sync.Mutex`, the iterator `xmlstream.Iter` and the token decoder of
  `encoding/xml`);
* `history/history.go` and `history/query.go`: `Fetch` and `FetchIQ`;
* `config.go`: `NewClientConfig`, `NewServerConfig` and `Config.connType`.

Conventions of the embedding

* a Go `string` is a Lean `String`; Go orders strings bytewise, which on UTF-8
  text is the order of the code points, compared here character by character;
* a Go `byte` is a `Nat` below 256 and a `[]byte` is a `List Nat`;
* a Go `error` is an `Option Error`, `none` being `nil`;
* a run-time panic is the value `none` of an `Option` result (or the
  constructor `panicked` of an outcome type);
* a loop over a slice that writes to the digest is a left fold that passes the
  digest along;
* concurrent calls are a list of tasks that take their actions in the order of
  a schedule; an action is what a call does between two points at which
  another call can see or change the cache or the mutex.
-/

namespace Xmpp

/-! ## Strings -/

/-- Lexicographic comparison of two character sequences, the way Go evaluates
`a < b` on strings: the first differing position decides, and a proper
beginning of a string is smaller than the string. -/
def ltChars : List Char → List Char → Bool
  | _, [] => false
  | [], _ :: _ => true
  | a :: as, b :: bs =>
    if a.toNat < b.toNat then true
    else if b.toNat < a.toNat then false
    else ltChars as bs

/-- Go's `a < b` on strings. -/
def strLess (a b : String) : Bool := ltChars a.data b.data

/-- Concatenation of a list of strings, first element first. -/
def concat : List String → String
  | [] => ""
  | s :: ss => s ++ concat ss

/-- Go's conversion `[]byte(s)` for a string of ASCII characters. -/
def bytesOf (s : String) : List Nat := s.data.map Char.toNat

/-- Go's conversion `string(b)` for a slice of ASCII bytes. -/
def stringOf (b : List Nat) : String := String.mk (b.map Char.ofNat)

/-! ## Package sort -/

namespace sort

/-- One pass of the inner loop of the library's insertion sort,
`for j := i; j > a && less(j, j-1); j-- { swap(j, j-1) }`: the element `x`
moves left past every element it is less than. The sorted part of the slice is
held last element first. -/
def insertLeft {α : Type} (less : α → α → Bool) (x : α) : List α → List α
  | [] => [x]
  | p :: ps => if less x p then p :: insertLeft less x ps else x :: p :: ps

/-- Go's `sort.Slice(x, less)`, as the insertion sort that the library runs on
short slices (of at most 6 elements in every release of the library, of at
most 12 since Go 1.19): the elements are taken left to right and each is moved
left into the sorted part. On longer slices the library runs a quicksort,
which also returns a permutation sorted by `less` but may order elements that
tie under `less` differently. -/
def Slice {α : Type} (less : α → α → Bool) (x : List α) : List α :=
  (x.foldl (fun sorted e => insertLeft less e sorted) []).reverse

/-- Go's `sort.Strings(x)`: sorts in increasing order. -/
def Strings (x : List String) : List String := Slice strLess x

end sort

/-! ## Package hash -/

/-- Go's `hash.Hash`: a digest algorithm together with the input written to it
so far. `digest` maps a whole input to its checksum bytes. -/
structure Digest where
  digest : String → List Nat
  written : String

namespace Digest

/-- A digest to which nothing has been written yet. -/
def fresh (d : String → List Nat) : Digest := { digest := d, written := "" }

/-- The method `Write` (also `io.WriteString` and `fmt.Fprintf` with the
digest as writer): adds more data to the running hash. -/
def Write (h : Digest) (s : String) : Digest := { h with written := h.written ++ s }

/-- The method `Sum(b)`: appends the current hash to `b` and returns the
resulting slice. -/
def Sum (h : Digest) (b : List Nat) : List Nat := b ++ h.digest h.written

end Digest

/-! ## Package encoding/base64 -/

namespace base64

/-- The standard base64 alphabet of RFC 4648. -/
def encodeStd : String := "ABCDEFGHIJKLMNOPQRSTUVWXYZabcdefghijklmnopqrstuvwxyz0123456789+/"

/-- The byte `enc.encode[v]` of the standard alphabet. -/
def encode (v : Nat) : Nat := (encodeStd.data.getD v 'A').toNat

/-- The padding character `=`. -/
def StdPadding : Nat := 61

namespace StdEncoding

/-- The method `EncodedLen(n)`: the length in bytes of the base64 encoding of
an input of length `n`. -/
def EncodedLen (n : Nat) : Nat := (n + 2) / 3 * 4

/-- The method `Encode(dst, src)`, returning what it writes to `dst`: every
three bytes give a 24 bit value that is written as four characters; a
remainder of one or two bytes is written as two or three characters followed
by padding. -/
def Encode : List Nat → List Nat
  | [] => []
  | [a] =>
    let val := a % 256 * 65536
    [encode (val / 262144 % 64), encode (val / 4096 % 64), StdPadding, StdPadding]
  | [a, b] =>
    let val := a % 256 * 65536 + b % 256 * 256
    [encode (val / 262144 % 64), encode (val / 4096 % 64), encode (val / 64 % 64), StdPadding]
  | a :: b :: c :: rest =>
    let val := a % 256 * 65536 + b % 256 * 256 + c % 256
    encode (val / 262144 % 64) :: encode (val / 4096 % 64) :: encode (val / 64 % 64)
      :: encode (val % 64) :: Encode rest

end StdEncoding

end base64

/-! ## Package form -/

namespace form

/-- Modelled from the spec: one field of a data form, a key with its list of
string values (the type `form.FieldData` is declared outside `caps.go`). -/
structure FieldData where
  Var : String
  Raw : List String
deriving DecidableEq

/-- Modelled from the spec: an already parsed data form, "an opaque key to
list-of-string-values" structure whose fields are kept in the order they were
parsed (the type `form.Data` is declared outside `caps.go`). -/
structure Data where
  fields : List FieldData
deriving DecidableEq

namespace Data

/-- Modelled from the spec: `Len` is the number of fields on the form. -/
def Len (d : Data) : Int := (d.fields.length : Int)

/-- Modelled from the spec: `Raw(id)` looks up the values of the field called
`id` as they appeared in the form; the flag tells whether the field exists. -/
def Raw (d : Data) (id : String) : List String × Bool :=
  match d.fields.find? (fun f => f.Var == id) with
  | some f => (f.Raw, true)
  | none => ([], false)

/-- Modelled from the spec: `GetString(id)` is the value of a single-valued
field, the first value of the field called `id`; the flag tells whether there
is one. -/
def GetString (d : Data) (id : String) : String × Bool :=
  match (d.Raw id).1 with
  | v :: _ => (v, true)
  | [] => ("", false)

end Data

end form

/-! ## Package disco: the verification string -/

/-- The type `disco.Identity` (declared outside `caps.go`): the four strings
that the verification string reads. The field `Type` is written `Type_`. -/
structure Identity where
  Category : String
  Type_ : String
  Lang : String
  Name : String
deriving DecidableEq

/-- The type `disco.Feature` (declared outside `caps.go`). -/
structure Feature where
  Var : String
deriving DecidableEq

/-- The type `disco.Info` (declared outside `caps.go`): the three slices that
`AppendHash` reads. -/
structure Info where
  Identity : List Xmpp.Identity
  Features : List Feature
  Form : List form.Data
deriving DecidableEq

/-- The `less` function that `AppendHash` hands to `sort.Slice` for the
identities: Category, then Type, then Lang; identities that agree on all three
are not less than one another. -/
def identityLess (identI identJ : Identity) : Bool :=
  if identI.Category != identJ.Category then strLess identI.Category identJ.Category
  else if identI.Type_ != identJ.Type_ then strLess identI.Type_ identJ.Type_
  else if identI.Lang != identJ.Lang then strLess identI.Lang identJ.Lang
  else false

/-- The `less` function that `AppendHash` hands to `sort.Slice` for the
features. -/
def featureLess (a b : Feature) : Bool := strLess a.Var b.Var

/-- What `fmt.Fprintf(h, "%s/%s/%s/%s<", ...)` writes for one identity. -/
def identityText (ident : Identity) : String :=
  ident.Category ++ "/" ++ ident.Type_ ++ "/" ++ ident.Lang ++ "/" ++ ident.Name ++ "<"

/-- The loop `for _, ident := range i.Identity` of `AppendHash`. -/
def writeIdentities (idents : List Identity) (h : Digest) : Digest :=
  idents.foldl (fun h ident => h.Write (identityText ident)) h

/-- The loop `for _, f := range i.Features` of `AppendHash`. -/
def writeFeatures (features : List Feature) (h : Digest) : Digest :=
  features.foldl (fun h f => (h.Write f.Var).Write "<") h

/-- The callback that `AppendHash` hands to `ForFields`, as a step on the pair
of the variables `formType` and `fields`. -/
def collectField (infoForm : form.Data) (acc : String × List String) (f : form.FieldData) :
    String × List String :=
  if f.Var == "FORM_TYPE" then ((infoForm.GetString "FORM_TYPE").1, acc.2)
  else (acc.1, acc.2 ++ [f.Var])

/-- The loop `for _, val := range vals` of `AppendHash`. -/
def writeValues (vals : List String) (h : Digest) : Digest :=
  vals.foldl (fun h val => (h.Write val).Write "<") h

/-- The loop `for _, f := range fields` of `AppendHash`. -/
def writeFields (infoForm : form.Data) (fields : List String) (h : Digest) : Digest :=
  fields.foldl (fun h f => writeValues (sort.Strings (infoForm.Raw f).1) ((h.Write f).Write "<")) h

/-- The body of the loop `for _, infoForm := range i.Form` of `AppendHash`.
`make([]string, 0, infoForm.Len()-1)` panics when the capacity is negative. -/
def writeForm (infoForm : form.Data) (h : Digest) : Option Digest :=
  if infoForm.Len - 1 < 0 then none
  else
    let collected := infoForm.fields.foldl (collectField infoForm) ("", [])
    let formType := collected.1
    let fields := sort.Strings collected.2
    some (writeFields infoForm fields ((h.Write formType).Write "<"))

/-- The loop `for _, infoForm := range i.Form` of `AppendHash`. -/
def writeForms : List form.Data → Digest → Option Digest
  | [], h => some h
  | infoForm :: rest, h =>
    match writeForm infoForm h with
    | none => none
    | some h1 => writeForms rest h1

/-- What a call of `AppendHash` leaves behind: the returned slice, the digest
with everything written to it, and the identity and feature slices of the
caller's `Info`, which `sort.Slice` has sorted in place. -/
structure AppendHashResult where
  out : List Nat
  h : Digest
  Identity : List Xmpp.Identity
  Features : List Feature

/-- The method `Info.AppendHash(dst, h)`; `none` is a panic. -/
def Info.AppendHash (i : Info) (dst : List Nat) (h : Digest) : Option AppendHashResult :=
  let idents := sort.Slice identityLess i.Identity
  let h1 := writeIdentities idents h
  let features := sort.Slice featureLess i.Features
  let h2 := writeFeatures features h1
  match writeForms i.Form h2 with
  | none => none
  | some h3 =>
    let dst1 := h3.Sum dst
    let out := base64.StdEncoding.Encode dst1
    some { out := out, h := h3, Identity := idents, Features := features }

/-- The method `Info.Hash(h)`: `string(i.AppendHash(nil, h))`; `none` is a
panic. -/
def Info.Hash (i : Info) (h : Digest) : Option String :=
  (i.AppendHash [] h).map (fun r => stringOf r.out)

/-- The bytes that `AppendHash` has written to the digest when it returns. -/
def Info.written (i : Info) (h : Digest) : Option String :=
  (i.AppendHash [] h).map (fun r => r.h.written)

/-! ## Package disco: the presence handler -/

/-- A Go `error` value that is not `nil`, by its message. -/
structure Error where
  msg : String
deriving DecidableEq

/-- The type `jid.JID` (declared outside `caps.go`): an address, by its three
parts. -/
structure JID where
  Localpart : String
  Domainpart : String
  Resourcepart : String
deriving DecidableEq

/-- The type `stanza.Presence` (declared outside `caps.go`): the field that
`HandlePresence` reads. -/
structure Presence where
  From : JID
deriving DecidableEq

/-- The namespace of the capabilities element, as the tag of `Caps.XMLName`
gives it. -/
def NSCaps : String := "http://jabber.org/protocol/caps"

/-- The type `Caps`; `Hash` is the number of a `crypto.Hash`. -/
structure Caps where
  Hash : Nat
  Node : String
  Ver : String
deriving DecidableEq

/-- The type `xml.Name`: a name with its name space, as the decoder of the
session has resolved it. -/
structure XMLName where
  Space : String
  Local : String
deriving DecidableEq

/-- The type `xml.Attr`. -/
structure Attr where
  Name : XMLName
  Value : String
deriving DecidableEq

/-- The type `xml.StartElement`. -/
structure StartElement where
  Name : XMLName
  Attr : List Attr
deriving DecidableEq

/-- One token of the content of an element, as far as a decoder that looks
for an element tells them apart: the start of a child element (the content and
the end of the child, which are well formed and which the decoder skips, are
left out), or a token that is neither the start nor the end of an element
(character data, a comment, a processing instruction, a directive). -/
inductive Content where
  | child (start : StartElement)
  | other (text : String)
deriving DecidableEq

/-- One child of the presence as `iter.Current()` yields it. For an element,
`start` is a pointer to its start element and `r` reads its content and then
its end element; for any other token (character data, a comment) `start` is
nil. -/
inductive Child where
  | element (start : StartElement) (content : List Content)
  | nonElement (text : String)
deriving DecidableEq

/-- The payload of a presence as the iterator `xmlstream.NewIter(e)` reads it:
the children in order, and the error that `iter.Err()` reports when the
iteration ran to its end (`none` when the payload ended cleanly). -/
structure Payload where
  children : List Child
  err : Option Error

/-- The error value of the decoder for a token stream that is not well
formed. A decoder made by `xml.NewTokenDecoder` counts no lines. -/
def syntaxError (msg : String) : Error := { msg := "XML syntax error on line 1: " ++ msg }

/-- The function `unicode.IsSpace` on a character. -/
def isSpace (ch : Char) : Bool :=
  decide (ch.toNat ∈ [9, 10, 11, 12, 13, 32, 133, 160, 5760, 8232, 8233, 8239, 8287, 12288])
    || (decide (8192 ≤ ch.toNat) && decide (ch.toNat ≤ 8202))

/-- The function `strings.TrimSpace`. -/
def TrimSpace (s : String) : String :=
  String.mk ((s.data.dropWhile isSpace).reverse.dropWhile isSpace).reverse

/-- The value of a character as a decimal digit. -/
def digit (ch : Char) : Option Nat :=
  if 48 ≤ ch.toNat ∧ ch.toNat ≤ 57 then some (ch.toNat - 48) else none

/-- The number that a list of decimal digits writes, after the number `acc` of
the digits before; `none` when a character is not a digit. -/
def digitsValue : List Char → Nat → Option Nat
  | [], acc => some acc
  | ch :: rest, acc =>
    match digit ch with
    | none => none
    | some v => digitsValue rest (acc * 10 + v)

/-- The function `strconv.ParseUint(s, 10, 64)`, the size of a `uint` taken as
64 bits: a string of decimal digits that is not empty and writes a number
below 2^64. The message names the function and quotes the string (here
between two quotation marks, without the escapes of `strconv.Quote`). -/
def ParseUint (s : String) : Except Error Nat :=
  let quoted := String.mk [Char.ofNat 34] ++ s ++ String.mk [Char.ofNat 34]
  match s.data with
  | [] => Except.error { msg := "strconv.ParseUint: parsing " ++ quoted ++ ": invalid syntax" }
  | ch :: rest =>
    match digitsValue (ch :: rest) 0 with
    | none => Except.error { msg := "strconv.ParseUint: parsing " ++ quoted ++ ": invalid syntax" }
    | some v =>
      if v < 2 ^ 64 then Except.ok v
      else Except.error
        { msg := "strconv.ParseUint: parsing " ++ quoted ++ ": value out of range" }

/-- The loop "assign attributes" of the decoder for the type `Caps`: every
attribute called hash, node or ver is copied into its field, a later one over
an earlier one; the value of hash is a number, the empty value giving 0. -/
def assignAttrs : List Attr → Caps → Except Error Caps
  | [], c => Except.ok c
  | a :: rest, c =>
    if a.Name.Local == "hash" then
      if a.Value == "" then assignAttrs rest { c with Hash := 0 }
      else
        match ParseUint (TrimSpace a.Value) with
        | Except.error err => Except.error err
        | Except.ok v => assignAttrs rest { c with Hash := v }
    else if a.Name.Local == "node" then assignAttrs rest { c with Node := a.Value }
    else if a.Name.Local == "ver" then assignAttrs rest { c with Ver := a.Value }
    else assignAttrs rest c

/-- The first start element in the content of an element. -/
def firstChild : List Content → Option StartElement
  | [] => none
  | Content.child start :: _ => some start
  | Content.other _ :: rest => firstChild rest

/-- The table `d.ns` of a decoder that has read nothing but the attributes of
one start element: an attribute `xmlns:p` binds the prefix p and an attribute
`xmlns` binds the empty prefix, a later attribute over an earlier one. -/
def bindings : List Attr → String → Option String
  | [], _ => none
  | a :: rest, k =>
    match bindings rest k with
    | some v => some v
    | none =>
      if a.Name.Space == "xmlns" && a.Name.Local == k then some a.Value
      else if a.Name.Space == "" && a.Name.Local == "xmlns" && k == "" then some a.Value
      else none

/-- The method `translate` of the decoder on the name of an element, with the
table `ns` and no default name space: a name space that is bound in the table
is replaced by what it is bound to. The names come from the decoder of the
session, which has resolved them already, so this changes a name only when its
name space is again the prefix of a binding. -/
def translate (ns : String → Option String) (n : XMLName) : XMLName :=
  if n.Space == "xmlns" then n
  else if n.Space == "" && n.Local == "xmlns" then n
  else
    let space := if n.Space == "xml" then "http://www.w3.org/XML/1998/namespace" else n.Space
    match ns space with
    | some v => { Space := v, Local := n.Local }
    | none => { Space := space, Local := n.Local }

/-- The lines `d := xml.NewTokenDecoder(xmlstream.MultiReader(xmlstream.Token(start), r))`
and `d.Decode(&c)`. The decoder (package `encoding/xml`, outside `caps.go`)
reads the pointer `start`, which is no start element to it, then the content
of the element, then its end element. It passes over every token until it
meets a start element, so it decodes the first child element of the element
`start` points to; when there is none it meets the end element with no element
open, which is a syntax error. The child must have the name and the name
space of the tag of `Caps.XMLName`. -/
def Decode (start : StartElement) (content : List Content) : Except Error Caps :=
  match firstChild content with
  | none => Except.error (syntaxError ("unexpected end element </" ++ start.Name.Local ++ ">"))
  | some inner =>
    let name := translate (bindings inner.Attr) inner.Name
    if name.Local != "c" then
      Except.error { msg := "expected element type <c> but have <" ++ name.Local ++ ">" }
    else if name.Space != NSCaps then
      Except.error
        { msg := "expected element <c> in name space " ++ NSCaps ++ " but have "
            ++ (if name.Space == "" then "no name space" else name.Space) }
    else assignAttrs inner.Attr { Hash := 0, Node := "", Ver := "" }

/-- Go's `map[string]Info`: the nil map, or a made map with its entries. -/
inductive InfoMap where
  | nilMap
  | made (entries : String → Option Info)

namespace InfoMap

/-- The read `m[key]`: also a nil map can be read, it has no entries. -/
def lookup : InfoMap → String → Option Info
  | nilMap, _ => none
  | made entries, key => entries key

/-- The assignment `m[key] = info`; `none` is the panic "assignment to entry
in nil map". -/
def store : InfoMap → String → Info → Option InfoMap
  | nilMap, _, _ => none
  | made entries, key, info => some (made (fun k => if k = key then some info else entries k))

end InfoMap

/-- The state of a `CapsHandler` that `HandlePresence` reads and writes. The
mutex is held for the whole of the call from the lookup on, so calls act on
the cache one after the other. -/
structure CapsHandler where
  cache : InfoMap

/-- One call of `GetInfo(ctx, node, to, session)`: the node and the address
asked. -/
structure Request where
  node : String
  dest : JID
deriving DecidableEq

/-- How the `for iter.Next()` loop of `HandlePresence` ends: with the error of
`d.Decode`, at the `break` with the decoded element, because the iterator has
no further child, or with the panic of `start.Name.Local` on a nil `start`. -/
inductive Scan where
  | failed (err : Error)
  | broke (c : Caps)
  | finished
  | panicked

/-- The loop `for iter.Next()` of `HandlePresence`. For a child that is not
an element `start` is nil and the condition `start.Name.Local == "c"`
dereferences it. -/
def scanChildren : List Child → Scan
  | [] => Scan.finished
  | Child.nonElement _ :: _ => Scan.panicked
  | Child.element start content :: rest =>
    if start.Name.Local == "c" && start.Name.Space == NSCaps then
      match Decode start content with
      | Except.error err => Scan.failed err
      | Except.ok c => Scan.broke c
    else scanChildren rest

/-- What a call of `HandlePresence` does: it returns an error value and leaves
the handler in a state, or it panics; either way it has made the listed calls
of `GetInfo`. -/
inductive Outcome where
  | returned (err : Option Error) (h : CapsHandler) (requests : List Request)
  | panicked (requests : List Request)

/-- The part of `HandlePresence` from `h.cacheM.Lock()` on, for the value `c`
that the loop left. `GetInfo` is the service discovery request (declared
outside `caps.go`), by its reply to a node and an address. -/
def resolve (GetInfo : String → JID → Except Error Info) (h : CapsHandler) (p : Presence)
    (c : Caps) : Outcome :=
  let key := c.Node ++ "#" ++ c.Ver
  match h.cache.lookup key with
  | some _ => Outcome.returned none h []
  | none =>
    match GetInfo key p.From with
    | Except.error err => Outcome.returned (some err) h [{ node := key, dest := p.From }]
    | Except.ok info =>
      match h.cache.store key info with
      | none => Outcome.panicked [{ node := key, dest := p.From }]
      | some cache => Outcome.returned none { cache := cache } [{ node := key, dest := p.From }]

/-- The method `CapsHandler.HandlePresence(p, e)`. The variable `c` starts as
the zero `Caps` and keeps that value when the loop finds no capabilities
element. -/
def CapsHandler.HandlePresence (GetInfo : String → JID → Except Error Info) (h : CapsHandler)
    (p : Presence) (e : Payload) : Outcome :=
  match scanChildren e.children with
  | Scan.panicked => Outcome.panicked []
  | Scan.failed err => Outcome.returned (some err) h []
  | Scan.broke c => resolve GetInfo h p c
  | Scan.finished =>
    match e.err with
    | some err => Outcome.returned (some err) h []
    | none => resolve GetInfo h p { Hash := 0, Node := "", Ver := "" }

/-! ## Definitions for the statements: orders, texts and sample values -/

/-- The contract that `sort.Slice` asks of its `less` function: it is
asymmetric, and its negation is transitive, so that "neither is less" groups
the elements into classes that are ordered in a line. -/
structure StrictWeak {α : Type} (less : α → α → Bool) : Prop where
  asymm : ∀ a b, less a b = true → less b a = false
  negTrans : ∀ a b c, less a b = false → less b c = false → less a c = false

/-- What the loop over the sorted field names writes for one field: its name
and its sorted values, each followed by the delimiter. -/
def fieldText (infoForm : form.Data) (f : String) : String :=
  f ++ "<" ++ concat ((sort.Strings (infoForm.Raw f).1).map (fun v => v ++ "<"))

/-- The order of the claim's words: `a` comes strictly before `b` when the
triples (Category, Type, Lang) compare so lexicographically. -/
def tripleLess (a b : Identity) : Prop :=
  strLess a.Category b.Category = true ∨
    (a.Category = b.Category ∧
      (strLess a.Type_ b.Type_ = true ∨ (a.Type_ = b.Type_ ∧ strLess a.Lang b.Lang = true)))

/-- A stand-in for a digest that separates short ASCII inputs: the checksum
is the input, character by character, reduced to bytes. -/
def echoDigest (s : String) : List Nat := (bytesOf s).map (fun b => b % 256)

/-- Two identities that agree on Category, Type and Lang and differ in Name. -/
def tiedA : Info :=
  { Identity := [{ Category := "client", Type_ := "bot", Lang := "", Name := "x" },
                 { Category := "client", Type_ := "bot", Lang := "", Name := "y" }],
    Features := [], Form := [] }

/-- The identities of `tiedA` in the other order. -/
def tiedB : Info :=
  { Identity := [{ Category := "client", Type_ := "bot", Lang := "", Name := "y" },
                 { Category := "client", Type_ := "bot", Lang := "", Name := "x" }],
    Features := [], Form := [] }

/-- The canonicalization scenario of the specification. -/
def pingBot : Info :=
  { Identity := [{ Category := "client", Type_ := "bot", Lang := "", Name := "" },
                 { Category := "client", Type_ := "pc", Lang := "en", Name := "Psi" }],
    Features := [{ Var := "urn:xmpp:ping" }, { Var := "http://jabber.org/protocol/caps" }],
    Form := [] }

/-- The record `pingBot` with its identity list reversed. -/
def pingBotIdentityReversed : Info := { pingBot with Identity := pingBot.Identity.reverse }

/-- The record `pingBot` with its feature list reversed. -/
def pingBotFeaturesReversed : Info := { pingBot with Features := pingBot.Features.reverse }

/-- The record without identities, features and forms. -/
def emptyInfo : Info := { Identity := [], Features := [], Form := [] }

/-- The names that the callback of `ForFields` appends to `fields`: the Var of
every field that is not called FORM_TYPE, in the order of the form. -/
def fieldNames (fields : List form.FieldData) : List String :=
  (fields.filter (fun f => f.Var != "FORM_TYPE")).map (fun f => f.Var)

/-- What the body of the loop over the forms writes for a form: the FORM_TYPE
value and the delimiter, then the text of every other field, the names in
increasing order. -/
def formText (infoForm : form.Data) : String :=
  (infoForm.GetString "FORM_TYPE").1 ++ "<"
    ++ concat ((sort.Strings (fieldNames infoForm.fields)).map (fieldText infoForm))

/-- The bytes that `AppendHash` writes for a record: the identities in sorted
order, the features in sorted order, the forms in the order of the record. -/
def canonicalText (i : Info) : String :=
  concat ((sort.Slice identityLess i.Identity).map identityText)
    ++ (concat ((sort.Slice featureLess i.Features).map (fun f => f.Var ++ "<"))
      ++ concat (i.Form.map formText))

/-- A record whose only form has no fields. -/
def emptyFormInfo : Info := { Identity := [], Features := [], Form := [{ fields := [] }] }

/-- A record with one feature and a form without fields. -/
def pingWithEmptyForm : Info :=
  { Identity := [], Features := [{ Var := "urn:xmpp:ping" }], Form := [{ fields := [] }] }

/-- A record with one form: a FORM_TYPE field, a field with two values and a
field without values. -/
def softwareInfo : Info :=
  { Identity := [], Features := [{ Var := "urn:xmpp:ping" }],
    Form := [{ fields := [{ Var := "os", Raw := ["Mac", "Linux"] },
                          { Var := "FORM_TYPE", Raw := ["urn:xmpp:dataforms:softwareinfo"] },
                          { Var := "ip_version", Raw := [] }] }] }

/-- The position of a byte in the standard alphabet. -/
def base64.decodeChar (c : Nat) : Nat := (base64.encodeStd.data.map Char.toNat).indexOf c

/-- The character that ends every token of the canonical text. -/
def delimiter : Char := '<'

/-- The character that separates the four strings of an identity. -/
def slash : Char := '/'

/-- The string `s` does not contain the character `c`. -/
def free (c : Char) (s : String) : Bool := !(s.data.contains c)

/-- The four strings of the identity are free of the delimiter, and Category,
Type and Lang are free of the slash. -/
def Identity.delimiterFree (x : Identity) : Bool :=
  free delimiter x.Category && free delimiter x.Type_ && free delimiter x.Lang
    && free delimiter x.Name && free slash x.Category && free slash x.Type_ && free slash x.Lang

/-- Every identity of the record is free of delimiters, and every feature Var
is free of the delimiter. -/
def Info.delimiterFree (i : Info) : Bool :=
  i.Identity.all Identity.delimiterFree && i.Features.all (fun f => free delimiter f.Var)

/-- The text of an identity without its closing delimiter. -/
def identityToken (x : Identity) : String :=
  x.Category ++ "/" ++ x.Type_ ++ "/" ++ x.Lang ++ "/" ++ x.Name

/-- The tokens of the canonical text of a record without forms. -/
def tokens (i : Info) : List String :=
  (sort.Slice identityLess i.Identity).map identityToken
    ++ (sort.Slice featureLess i.Features).map (fun f => f.Var)

/-- One feature whose Var holds the delimiter. -/
def angleA : Info := { Identity := [], Features := [{ Var := "a<b" }], Form := [] }

/-- Two features, the two halves of the Var of `angleA`. -/
def angleB : Info := { Identity := [], Features := [{ Var := "a" }, { Var := "b" }], Form := [] }

/-- An identity with a slash in its Category. -/
def slashA : Info :=
  { Identity := [{ Category := "a/b", Type_ := "c", Lang := "", Name := "" }],
    Features := [], Form := [] }

/-- The identity of `slashA` with the slash moved into its Type. -/
def slashB : Info :=
  { Identity := [{ Category := "a", Type_ := "b/c", Lang := "", Name := "" }],
    Features := [], Form := [] }

/-- An identity and no feature. -/
def oneIdentity : Info :=
  { Identity := [{ Category := "a", Type_ := "b", Lang := "c", Name := "d" }],
    Features := [], Form := [] }

/-- A feature that reads like the identity of `oneIdentity`, and no
identity. -/
def oneFeature : Info := { Identity := [], Features := [{ Var := "a/b/c/d" }], Form := [] }

/-- A form with a field that has one value. -/
def valueForm : Info :=
  { Identity := [], Features := [],
    Form := [{ fields := [{ Var := "FORM_TYPE", Raw := ["x"] }, { Var := "y", Raw := ["z"] }] }] }

/-- A form with two fields that have no value. -/
def namesForm : Info :=
  { Identity := [], Features := [],
    Form := [{ fields := [{ Var := "FORM_TYPE", Raw := ["x"] }, { Var := "y", Raw := [] },
                          { Var := "z", Raw := [] }] }] }

/-- The record `pingBot` with another second feature. -/
def pingBotOtherFeature : Info :=
  { pingBot with Features := [{ Var := "urn:xmpp:ping" }, { Var := "urn:xmpp:time" }] }

/-- The address of the peer in the scenarios. -/
def juliet : JID :=
  { Localpart := "juliet", Domainpart := "example.com", Resourcepart := "balcony" }

/-- A presence from `juliet`. -/
def julietPresence : Presence := { From := juliet }

/-- A child element that is not a capabilities element: `<show/>`. -/
def showElement : Child :=
  Child.element { Name := { Space := "jabber:client", Local := "show" }, Attr := [] } []

/-- An attribute without name space. -/
def plainAttr (name value : String) : Attr :=
  { Name := { Space := "", Local := name }, Value := value }

/-- The capabilities element of the end-to-end scenario of the specification,
as a client sends it: an empty element
`<c xmlns="http://jabber.org/protocol/caps" hash="sha-256" node="https://example/client" ver="ABC123=="/>`. -/
def plainCaps : Child :=
  Child.element
    { Name := { Space := NSCaps, Local := "c" },
      Attr := [plainAttr "xmlns" NSCaps, plainAttr "hash" "sha-256",
               plainAttr "node" "https://example/client", plainAttr "ver" "ABC123=="] }
    []

/-- The error that `d.Decode` returns for an empty element called c. -/
def unexpectedEnd : Error := syntaxError "unexpected end element </c>"

/-- The error of `strconv.ParseUint` for a string that is no number. -/
def invalidHash (s : String) : Error :=
  { msg := "strconv.ParseUint: parsing " ++ String.mk [Char.ofNat 34] ++ s
      ++ String.mk [Char.ofNat 34] ++ ": invalid syntax" }

/-- Character data between the children of a presence: a line break. -/
def lineBreak : Child := Child.nonElement (String.mk [Char.ofNat 10])

/-- A made cache without entries. -/
def emptyCache : CapsHandler := { cache := InfoMap.made (fun _ => none) }

/-- A peer that answers every service discovery request with `pingBot`. -/
def answerPingBot (_ : String) (_ : JID) : Except Error Info := Except.ok pingBot

/-! ## Definitions for the statements on the presence handler -/

/-- The key that `HandlePresence` computes from the decoded element:
`c.Node + "#" + c.Ver`. -/
def Caps.key (c : Caps) : String := c.Node ++ "#" ++ c.Ver

/-- The child is an element that the loop of `HandlePresence` passes over:
its name is not that of a capabilities element. -/
def Child.passed : Child → Bool
  | Child.element start _ => !(start.Name.Local == "c" && start.Name.Space == NSCaps)
  | Child.nonElement _ => false

/-- The payload carries a capabilities element after children that are all
elements, and `d.Decode` fills `caps` from the first such element. -/
def Payload.advertises (e : Payload) (caps : Caps) : Prop :=
  ∃ before start content rest, e.children = before ++ Child.element start content :: rest ∧
    (∀ x ∈ before, x.passed = true) ∧
    (start.Name.Local = "c" ∧ start.Name.Space = NSCaps) ∧
    Decode start content = Except.ok caps

/-- The calls of `GetInfo` that a call of `HandlePresence` has made. -/
def Outcome.requests : Outcome → List Request
  | Outcome.returned _ _ requests => requests
  | Outcome.panicked requests => requests

/-- The handler after a call of `HandlePresence` on the handler `h`. A panic
comes from a nil `start`, before the map is touched, or from the assignment to
a nil map; both leave the map as it was. -/
def Outcome.handler (h : CapsHandler) : Outcome → CapsHandler
  | Outcome.returned _ h1 _ => h1
  | Outcome.panicked _ => h

/-- One call of `HandlePresence` as a caller makes it: the presence, its
payload, and the reply that the peer gives to a service discovery request
during this call. -/
structure Call where
  GetInfo : String → JID → Except Error Info
  p : Presence
  e : Payload

/-- A caller that hands the calls to `HandlePresence` one after the other, as
long as none panics, whatever error value a call returns: the result has the
handler that the last call left and all service discovery requests made on
the way. -/
def CapsHandler.HandleAll : CapsHandler → List Call → Outcome
  | h, [] => Outcome.returned none h []
  | h, call :: calls =>
    match h.HandlePresence call.GetInfo call.p call.e with
    | Outcome.panicked requests => Outcome.panicked requests
    | Outcome.returned _ h1 requests =>
      match HandleAll h1 calls with
      | Outcome.panicked more => Outcome.panicked (requests ++ more)
      | Outcome.returned err h2 more => Outcome.returned err h2 (requests ++ more)

/-- The advertisement of the end-to-end scenario of the specification. -/
def exampleCaps : Caps := { Hash := 5, Node := "https://example/client", Ver := "ABC123==" }

/-- A capabilities element whose content is again a capabilities element,
`<c xmlns="http://jabber.org/protocol/caps"><c xmlns="http://jabber.org/protocol/caps" hash="5" node="https://example/client" ver="ABC123=="/></c>`:
the decoder fills `exampleCaps` from the inner element. -/
def nestedCaps : Child :=
  Child.element
    { Name := { Space := NSCaps, Local := "c" }, Attr := [plainAttr "xmlns" NSCaps] }
    [Content.child
      { Name := { Space := NSCaps, Local := "c" },
        Attr := [plainAttr "xmlns" NSCaps, plainAttr "hash" "5",
                 plainAttr "node" "https://example/client", plainAttr "ver" "ABC123=="] }]

/-- A payload with `nestedCaps` after a child that is not a capabilities
element. -/
def examplePayload : Payload := { children := [showElement, nestedCaps], err := none }

/-- The presence of the end-to-end scenario of the specification: a child that
is not a capabilities element, then the advertisement `plainCaps`. -/
def plainPayload : Payload := { children := [showElement, plainCaps], err := none }

/-- A handler whose cache is the nil map, as the composite literal
`CapsHandler{Session: s}` gives it. -/
def zeroHandler : CapsHandler := { cache := InfoMap.nilMap }

/-- A made cache with the entry of the end-to-end scenario. -/
def knownCache : CapsHandler :=
  { cache := InfoMap.made
      (fun k => if k = "https://example/client#ABC123==" then some pingBot else none) }

/-- A peer that fails every service discovery request. -/
def answerTimeout (_ : String) (_ : JID) : Except Error Info :=
  Except.error { msg := "context deadline exceeded" }

/-! ## Definitions for the statements on the in-place sorting -/

/-- The field `f1` is the field `f` with its values in some order; the values
of a field called FORM_TYPE, which `AppendHash` never sorts, are as they
were. -/
def form.FieldData.reordered (f f1 : form.FieldData) : Prop :=
  f1.Var = f.Var ∧ f1.Raw.Perm f.Raw ∧ (f.Var = "FORM_TYPE" → f1.Raw = f.Raw)

/-- The form `d1` is the form `d` with the values of its fields in some
order. -/
def form.Data.reordered (d d1 : form.Data) : Prop :=
  List.Forall₂ form.FieldData.reordered d.fields d1.fields

/-- The form with the values of every field that is not called FORM_TYPE
sorted: what `sort.Strings(vals)` leaves when the slice that `Raw` returns is
the storage of the field. -/
def form.Data.sortedValues (d : form.Data) : form.Data :=
  { fields := d.fields.map
      (fun f => if f.Var = "FORM_TYPE" then f else { f with Raw := sort.Strings f.Raw }) }

/-- The record `softwareInfo` as a first call of `AppendHash` leaves it when
also the values of the form fields are sorted in place. -/
def softwareInfoAfter : Info :=
  { Identity := sort.Slice identityLess softwareInfo.Identity,
    Features := sort.Slice featureLess softwareInfo.Features,
    Form := softwareInfo.Form.map form.Data.sortedValues }

/-! ## Concurrent calls of the presence handler -/

/-- Where a call of `HandlePresence` stands after its loop over the children
has left the value `c`: at `h.cacheM.Lock()` without the mutex; with the mutex
before the lookup; with the mutex while `GetInfo` has been called and has not
returned; returned, the deferred `Unlock` done; or panicked, the deferred
`Unlock` done. -/
inductive Pc where
  | waiting (c : Caps)
  | locked (c : Caps)
  | fetching (key : String)
  | returned (err : Option Error)
  | panicked
deriving DecidableEq

/-- The call holds the mutex. -/
def Pc.critical : Pc → Bool
  | Pc.locked _ => true
  | Pc.fetching _ => true
  | _ => false

/-- One of the concurrent calls of `HandlePresence` on a handler: the
presence, the reply that `GetInfo` gives to this call, and where the call
stands. -/
structure Task where
  p : Presence
  reply : Except Error Info
  pc : Pc

/-- The handler with its concurrent calls: the cache, whether the mutex
`cacheM` is locked, the calls, and the service discovery requests sent so
far. -/
structure World where
  cache : InfoMap
  mutex : Bool
  tasks : List Task
  requests : List Request

/-- The next action of the call number `i`. `Lock` goes through only when the
mutex is free; the lookup, the call of `GetInfo` and the assignment with the
return happen with the mutex held; a call that has returned or panicked does
nothing more. -/
def World.step (w : World) (i : Nat) : World :=
  match w.tasks[i]? with
  | none => w
  | some t =>
    match t.pc with
    | Pc.waiting c =>
      if w.mutex then w
      else { w with mutex := true, tasks := w.tasks.set i { t with pc := Pc.locked c } }
    | Pc.locked c =>
      match w.cache.lookup (c.Node ++ "#" ++ c.Ver) with
      | some _ => { w with mutex := false, tasks := w.tasks.set i { t with pc := Pc.returned none } }
      | none =>
        { w with
          tasks := w.tasks.set i { t with pc := Pc.fetching (c.Node ++ "#" ++ c.Ver) },
          requests := w.requests ++ [{ node := c.Node ++ "#" ++ c.Ver, dest := t.p.From }] }
    | Pc.fetching key =>
      match t.reply with
      | Except.error err =>
        { w with mutex := false, tasks := w.tasks.set i { t with pc := Pc.returned (some err) } }
      | Except.ok info =>
        match w.cache.store key info with
        | none => { w with mutex := false, tasks := w.tasks.set i { t with pc := Pc.panicked } }
        | some cache =>
          { w with cache := cache, mutex := false,
                   tasks := w.tasks.set i { t with pc := Pc.returned none } }
    | Pc.returned _ => w
    | Pc.panicked => w

/-- The calls take their actions in the order of the schedule, a list of call
numbers. -/
def World.run (w : World) : List Nat → World
  | [] => w
  | i :: rest => (w.step i).run rest

/-- The handler with the given cache when the calls have been made and none
has the mutex yet. -/
def World.start (cache : InfoMap) (tasks : List Task) : World :=
  { cache := cache, mutex := false, tasks := tasks, requests := [] }

/-- A call that advertises the example capabilities, from `juliet`, with the
given reply of the peer. -/
def exampleTask (reply : Except Error Info) : Task :=
  { p := julietPresence, reply := reply, pc := Pc.waiting exampleCaps }

/-- The call acts on the key `k`, has not panicked, and has returned nil if it
has returned. -/
def Pc.good (k : String) : Pc → Bool
  | Pc.waiting c => c.Node ++ "#" ++ c.Ver == k
  | Pc.locked c => c.Node ++ "#" ++ c.Ver == k
  | Pc.fetching key => key == k
  | Pc.returned err => err.isNone
  | Pc.panicked => false

/-- The call has not yet looked the key up. -/
def Pc.early : Pc → Bool
  | Pc.waiting _ => true
  | Pc.locked _ => true
  | _ => false

/-- The call has returned or panicked. -/
def Pc.finished : Pc → Bool
  | Pc.returned _ => true
  | Pc.panicked => true
  | _ => false

/-- What holds of the handler and its concurrent calls at every moment, when
all calls act on the key `k`, the cache has been made and the peer answers
every request: at most one call holds the mutex, and the mutex is locked
exactly when a call holds it; at most one request has been sent; as long as none has been sent the
key has no entry and no call is past the lookup; as long as the key has no
entry no call has returned; and when a request has been sent and the key has
no entry yet, a call is waiting for the reply. -/
structure Safe (k : String) (w : World) : Prop where
  excl : ∀ (i j : Nat) (ti tj : Task), w.tasks[i]? = some ti → w.tasks[j]? = some tj →
    ti.pc.critical = true → tj.pc.critical = true → i = j
  held : ∀ (i : Nat) (t : Task), w.tasks[i]? = some t → t.pc.critical = true → w.mutex = true
  owner : w.mutex = true → ∃ (i : Nat) (t : Task), w.tasks[i]? = some t ∧ t.pc.critical = true
  made : ∃ entries, w.cache = InfoMap.made entries
  good : ∀ (j : Nat) (t : Task), w.tasks[j]? = some t →
    (∃ x, t.reply = Except.ok x) ∧ t.pc.good k = true
  atMost : w.requests.length ≤ 1
  early : w.requests = [] →
    w.cache.lookup k = none ∧ ∀ (j : Nat) (t : Task), w.tasks[j]? = some t → t.pc.early = true
  notYet : w.cache.lookup k = none →
    ∀ (j : Nat) (t : Task), w.tasks[j]? = some t → t.pc.finished = false
  inFlight : w.requests ≠ [] → w.cache.lookup k = none →
    ∃ (i : Nat) (t : Task), w.tasks[i]? = some t ∧ t.pc = Pc.fetching k

/-- How many actions a call has still to take at most. -/
def Pc.rank : Pc → Nat
  | Pc.waiting _ => 3
  | Pc.locked _ => 2
  | Pc.fetching _ => 1
  | Pc.returned _ => 0
  | Pc.panicked => 0

/-- The schedule that lets the calls with the listed numbers act one after
the other, three actions each. -/
def serial : List Nat → List Nat
  | [] => []
  | i :: rest => i :: i :: i :: serial rest

/-- What holds of the handler and its concurrent calls at every moment,
whatever the calls advertise and whatever the peer replies: at most one call
holds the mutex, and then the mutex is locked. -/
structure Exclusive (w : World) : Prop where
  excl : ∀ (i j : Nat) (ti tj : Task), w.tasks[i]? = some ti → w.tasks[j]? = some tj →
    ti.pc.critical = true → tj.pc.critical = true → i = j
  held : ∀ (i : Nat) (t : Task), w.tasks[i]? = some t → t.pc.critical = true → w.mutex = true

/-! ## Package history: the archive query -/

/-- The type `stanza.IQ` (declared outside `history.go`): the attributes of an
IQ stanza. The field `Type` is written `Type_`; an IQ type is the string of
its wire form. -/
structure IQ where
  ID : String
  To : JID
  From : JID
  Lang : String
  Type_ : String
deriving DecidableEq

/-- The constant `stanza.SetIQ`. -/
def SetIQ : String := "set"

/-- The zero value of `jid.JID`. -/
def zeroJID : JID := { Localpart := "", Domainpart := "", Resourcepart := "" }

/-- The type `Query` of `query.go`; an instant of `time.Time` is a number of
nanoseconds, `Limit` is a `uint64`. -/
structure Query where
  ID : String
  With : JID
  Start : Int
  End : Int
  BeforeID : String
  AfterID : String
  IDs : List String
  Limit : Nat
  Last : Bool
  Reverse : Bool
deriving DecidableEq

/-- The argument `iq.Wrap(filter.TokenReader())` of `s.UnmarshalIQ`: the IQ
stanza and the query that its payload is read from. -/
structure Sent where
  iq : IQ
  payload : Query
deriving DecidableEq

/-- The function `FetchIQ(ctx, filter, iq, s)`. `RandomID` is the value that
`attr.RandomID()` draws in this call, and `UnmarshalIQ` is the session: what
it decodes from the reply to a request (a `paging.Set`, a type declared
outside `history.go`), and its error. The result is the request handed to the
session together with the returned pair. -/
def FetchIQ {PagingSet : Type} (RandomID : String) (UnmarshalIQ : Sent → PagingSet × Option Error)
    (filter : Query) (iq : IQ) : Sent × (PagingSet × Option Error) :=
  let filter1 := if filter.ID == "" then { filter with ID := RandomID } else filter
  let iq1 := { iq with Type_ := SetIQ }
  let sent : Sent := { iq := iq1, payload := filter1 }
  (sent, UnmarshalIQ sent)

/-- The function `Fetch(ctx, filter, to, s)`. -/
def Fetch {PagingSet : Type} (RandomID : String) (UnmarshalIQ : Sent → PagingSet × Option Error)
    (filter : Query) (dest : JID) : Sent × (PagingSet × Option Error) :=
  FetchIQ RandomID UnmarshalIQ filter
    { ID := "", To := dest, From := zeroJID, Lang := "", Type_ := "" }

/-! ## Package xmpp: the session configuration -/

/-- The type `internal.Version` (declared outside `config.go`). -/
structure Version where
  Major : Nat
  Minor : Nat
deriving DecidableEq

/-- The type `Config` of `config.go`. A pointer is an `Option`, `none` being
nil; the map `Features` is `none` when nil and otherwise the list of its
entries; `Lang` is a language tag by its string; `StreamFeature` and the TLS
configuration are types declared outside `config.go`. -/
structure Config (StreamFeature TLS : Type) where
  Location : Option JID
  Origin : Option JID
  Features : Option (List (XMLName × StreamFeature))
  Lang : String
  S2S : Bool
  TLSConfig : Option TLS
  Version : Version

/-- The function `NewClientConfig(origin)`. `Domain` is the method
`origin.Domain()` and `DefaultVersion` the constant `internal.DefaultVersion`,
both declared outside `config.go`. -/
def NewClientConfig {StreamFeature TLS : Type} (Domain : Option JID → Option JID)
    (DefaultVersion : Version) (origin : Option JID) : Config StreamFeature TLS :=
  { Location := Domain origin,
    Origin := origin,
    Version := DefaultVersion,
    Features := some [],
    Lang := "", S2S := false, TLSConfig := none }

/-- The function `NewServerConfig(location, origin)`. -/
def NewServerConfig {StreamFeature TLS : Type} (DefaultVersion : Version)
    (location origin : Option JID) : Config StreamFeature TLS :=
  { Location := location,
    Origin := origin,
    S2S := true,
    Version := DefaultVersion,
    Features := some [],
    Lang := "", TLSConfig := none }

/-- The method `Config.connType()`. -/
def Config.connType {StreamFeature TLS : Type} (config : Config StreamFeature TLS) : String :=
  if config.S2S then "xmpp-server" else "xmpp-client"

/-! ## Definitions for the statement on the cache key -/

/-- The character between Node and Ver in the cache key. -/
def keySeparator : Char := '#'

/-- An advertisement whose Node holds the separator. -/
def fragmentCaps : Caps := { Hash := 5, Node := "https://example/client#beta", Ver := "ABC123==" }

/-- The advertisement `fragmentCaps` under another hash algorithm. -/
def fragmentCapsOther : Caps :=
  { Hash := 3, Node := "https://example/client#beta", Ver := "ABC123==" }

/-! ## The order on strings -/

theorem charToNat_inj {a b : Char} (h : a.toNat = b.toNat) : a = b := by
  rw [← Char.ofNat_toNat a, ← Char.ofNat_toNat b, h]

theorem ltChars_irrefl (a : List Char) : ltChars a a = false := by
  induction a with
  | nil => rfl
  | cons x xs ih => simp [ltChars, ih]

theorem ltChars_trichotomy (a b : List Char) :
    ltChars a b = true ∨ a = b ∨ ltChars b a = true := by
  induction a generalizing b with
  | nil =>
    cases b with
    | nil => exact Or.inr (Or.inl rfl)
    | cons y ys => exact Or.inl rfl
  | cons x xs ih =>
    cases b with
    | nil => exact Or.inr (Or.inr rfl)
    | cons y ys =>
      rcases Nat.lt_trichotomy x.toNat y.toNat with hlt | heq | hgt
      · left; simp [ltChars, hlt]
      · have hxy : x = y := charToNat_inj heq
        subst hxy
        rcases ih ys with h | h | h
        · left; simp [ltChars, h]
        · right; left; rw [h]
        · right; right; simp [ltChars, h]
      · right; right; simp [ltChars, hgt]

theorem ltChars_trans {a b c : List Char} (hab : ltChars a b = true) (hbc : ltChars b c = true) :
    ltChars a c = true := by
  induction a generalizing b c with
  | nil =>
    cases c with
    | nil => cases b <;> simp [ltChars] at hbc
    | cons z zs => rfl
  | cons x xs ih =>
    cases b with
    | nil => simp [ltChars] at hab
    | cons y ys =>
      cases c with
      | nil => simp [ltChars] at hbc
      | cons z zs =>
        simp only [ltChars] at hab hbc ⊢
        by_cases hxy : x.toNat < y.toNat
        · by_cases hyz : y.toNat < z.toNat
          · have : x.toNat < z.toNat := by omega
            simp [this]
          · simp only [hyz, if_false] at hbc
            by_cases hzy : z.toNat < y.toNat
            · simp [hzy] at hbc
            · have : x.toNat < z.toNat := by omega
              simp [this]
        · simp only [hxy, if_false] at hab
          by_cases hyx : y.toNat < x.toNat
          · simp [hyx] at hab
          · simp only [hyx, if_false] at hab
            have hxy2 : x.toNat = y.toNat := by omega
            by_cases hyz : y.toNat < z.toNat
            · have : x.toNat < z.toNat := by omega
              simp [this]
            · simp only [hyz, if_false] at hbc
              by_cases hzy : z.toNat < y.toNat
              · simp [hzy] at hbc
              · simp only [hzy, if_false] at hbc
                have h1 : ¬ x.toNat < z.toNat := by omega
                have h2 : ¬ z.toNat < x.toNat := by omega
                simp only [h1, h2, if_false]
                exact ih hab hbc

theorem ltChars_asymm {a b : List Char} (hab : ltChars a b = true) : ltChars b a = false := by
  cases h : ltChars b a with
  | false => rfl
  | true =>
    have := ltChars_trans hab h
    rw [ltChars_irrefl] at this
    exact absurd this (by simp)

theorem strLess_irrefl (a : String) : strLess a a = false := ltChars_irrefl a.data

theorem strLess_trichotomy (a b : String) : strLess a b = true ∨ a = b ∨ strLess b a = true := by
  rcases ltChars_trichotomy a.data b.data with h | h | h
  · exact Or.inl h
  · exact Or.inr (Or.inl (String.ext h))
  · exact Or.inr (Or.inr h)

theorem strLess_trans {a b c : String} (hab : strLess a b = true) (hbc : strLess b c = true) :
    strLess a c = true := ltChars_trans hab hbc

theorem strLess_asymm {a b : String} (hab : strLess a b = true) : strLess b a = false :=
  ltChars_asymm hab

/-! ## Strict weak orders -/

theorem strLess_strictWeak : StrictWeak strLess := by
  constructor
  · intro a b h
    exact strLess_asymm h
  · intro a b c hab hbc
    cases hac : strLess a c with
    | false => rfl
    | true =>
      rcases strLess_trichotomy a b with h | h | h
      · rw [h] at hab; exact absurd hab (by simp)
      · subst h; rw [hac] at hbc; exact absurd hbc (by simp)
      · rcases strLess_trichotomy b c with h2 | h2 | h2
        · rw [h2] at hbc; exact absurd hbc (by simp)
        · subst h2; rw [strLess_asymm h] at hac; exact absurd hac (by simp)
        · have := strLess_trans h2 h
          rw [strLess_asymm this] at hac
          exact absurd hac (by simp)

/-- Comparing by a string key first and by `rest` among equal keys is a
strict weak order when `rest` is one. -/
theorem strictWeak_byKey {α : Type} (key : α → String) (rest : α → α → Bool)
    (hrest : StrictWeak rest) :
    StrictWeak (fun a b => if key a != key b then strLess (key a) (key b) else rest a b) := by
  have heq : ∀ a b, key a = key b →
      (if key a != key b then strLess (key a) (key b) else rest a b) = rest a b := by
    intro a b h
    simp [h]
  have hne : ∀ a b, key a ≠ key b →
      (if key a != key b then strLess (key a) (key b) else rest a b)
        = strLess (key a) (key b) := by
    intro a b h
    simp [h]
  constructor
  · intro a b h
    show (if key b != key a then strLess (key b) (key a) else rest b a) = false
    by_cases hk : key a = key b
    · rw [heq a b hk] at h
      rw [heq b a hk.symm]
      exact hrest.asymm a b h
    · rw [hne a b hk] at h
      rw [hne b a (fun e => hk e.symm)]
      exact strLess_asymm h
  · intro a b c hab hbc
    show (if key a != key c then strLess (key a) (key c) else rest a c) = false
    by_cases h1 : key a = key b
    · by_cases h2 : key b = key c
      · rw [heq a b h1] at hab
        rw [heq b c h2] at hbc
        rw [heq a c (h1.trans h2)]
        exact hrest.negTrans a b c hab hbc
      · rw [hne b c h2] at hbc
        have h3 : key a ≠ key c := fun e => h2 (h1.symm.trans e)
        rw [hne a c h3, h1]
        exact hbc
    · rw [hne a b h1] at hab
      by_cases h2 : key b = key c
      · have h3 : key a ≠ key c := fun e => h1 (e.trans h2.symm)
        rw [hne a c h3, ← h2]
        exact hab
      · rw [hne b c h2] at hbc
        by_cases h3 : key a = key c
        · exfalso
          rw [h3] at hab
          rcases strLess_trichotomy (key b) (key c) with h | h | h
          · rw [h] at hbc; exact absurd hbc (by simp)
          · exact h2 h
          · rw [h] at hab; exact absurd hab (by simp)
        · rw [hne a c h3]
          exact strLess_strictWeak.negTrans _ _ _ hab hbc

theorem strictWeak_none {α : Type} : StrictWeak (fun (_ _ : α) => false) :=
  ⟨fun _ _ h => by simp at h, fun _ _ _ _ _ => rfl⟩

theorem identityLess_strictWeak : StrictWeak identityLess := by
  have h3 := strictWeak_byKey Identity.Lang (fun _ _ => false) strictWeak_none
  have h2 := strictWeak_byKey Identity.Type_ _ h3
  have h1 := strictWeak_byKey Identity.Category _ h2
  exact h1

theorem featureLess_strictWeak : StrictWeak featureLess :=
  ⟨fun _ _ h => strLess_asymm h, fun a b c h1 h2 => strLess_strictWeak.negTrans a.Var b.Var c.Var h1 h2⟩

/-! ## What `sort.Slice` returns -/

theorem insertLeft_perm {α : Type} (less : α → α → Bool) (x : α) (l : List α) :
    (sort.insertLeft less x l).Perm (x :: l) := by
  induction l with
  | nil => exact List.Perm.refl _
  | cons p ps ih =>
    unfold sort.insertLeft
    split
    · exact (List.Perm.cons p ih).trans (List.Perm.swap x p ps)
    · exact List.Perm.refl _

theorem insertLeft_descending {α : Type} {less : α → α → Bool} (hw : StrictWeak less) (x : α)
    (l : List α) (hl : l.Pairwise (fun a b => less a b = false)) :
    (sort.insertLeft less x l).Pairwise (fun a b => less a b = false) := by
  induction l with
  | nil => simp [sort.insertLeft]
  | cons p ps ih =>
    rw [List.pairwise_cons] at hl
    unfold sort.insertLeft
    by_cases hxp : less x p = true
    · rw [if_pos hxp, List.pairwise_cons]
      refine ⟨?_, ih hl.2⟩
      intro y hy
      rcases List.mem_cons.mp ((insertLeft_perm less x ps).subset hy) with h | h
      · rw [h]; exact hw.asymm x p hxp
      · exact hl.1 y h
    · have hxp2 : less x p = false := by simpa using hxp
      rw [if_neg hxp, List.pairwise_cons, List.pairwise_cons]
      refine ⟨?_, hl.1, hl.2⟩
      intro y hy
      rcases List.mem_cons.mp hy with h | h
      · rw [h]; exact hxp2
      · exact hw.negTrans x p y hxp2 (hl.1 y h)

theorem foldl_insertLeft_perm {α : Type} (less : α → α → Bool) (x acc : List α) :
    (x.foldl (fun sorted e => sort.insertLeft less e sorted) acc).Perm (x ++ acc) := by
  induction x generalizing acc with
  | nil => exact List.Perm.refl _
  | cons e es ih =>
    rw [List.foldl_cons]
    refine (ih _).trans ?_
    refine (List.Perm.append_left es (insertLeft_perm less e acc)).trans ?_
    exact List.perm_middle

theorem foldl_insertLeft_descending {α : Type} {less : α → α → Bool} (hw : StrictWeak less)
    (x acc : List α) (hacc : acc.Pairwise (fun a b => less a b = false)) :
    (x.foldl (fun sorted e => sort.insertLeft less e sorted) acc).Pairwise
      (fun a b => less a b = false) := by
  induction x generalizing acc with
  | nil => exact hacc
  | cons e es ih =>
    rw [List.foldl_cons]
    exact ih _ (insertLeft_descending hw e acc hacc)

/-- The result of `sort.Slice` is a rearrangement of its input. -/
theorem Slice_perm {α : Type} (less : α → α → Bool) (x : List α) :
    (sort.Slice less x).Perm x := by
  unfold sort.Slice
  refine (List.reverse_perm _).trans ?_
  simpa using foldl_insertLeft_perm less x []

/-- The result of `sort.Slice` is non-decreasing: no element is less than an
element before it. -/
theorem Slice_sorted {α : Type} {less : α → α → Bool} (hw : StrictWeak less) (x : List α) :
    (sort.Slice less x).Pairwise (fun a b => less b a = false) := by
  unfold sort.Slice
  rw [List.pairwise_reverse]
  exact foldl_insertLeft_descending hw x [] List.Pairwise.nil

/-- Two non-decreasing rearrangements of one another are the same list when
elements of the list that tie under `less` are equal. -/
theorem sorted_perm_unique {α : Type} {less : α → α → Bool} (l1 l2 : List α)
    (hp : l1.Perm l2)
    (h1 : l1.Pairwise (fun a b => less b a = false))
    (h2 : l2.Pairwise (fun a b => less b a = false))
    (hties : ∀ a ∈ l1, ∀ b ∈ l1, less a b = false → less b a = false → a = b) :
    l1 = l2 := by
  induction l1 generalizing l2 with
  | nil => exact (List.Perm.nil_eq hp)
  | cons a t1 ih =>
    cases l2 with
    | nil => exact absurd hp.symm (List.Perm.nil_eq · |> fun h => by simp at h)
    | cons b t2 =>
      rw [List.pairwise_cons] at h1 h2
      have ha2 : a ∈ b :: t2 := hp.subset (List.mem_cons_self a t1)
      have hb1 : b ∈ a :: t1 := hp.symm.subset (List.mem_cons_self b t2)
      have hab : a = b := by
        rcases List.mem_cons.mp ha2 with h | h
        · exact h
        · rcases List.mem_cons.mp hb1 with h3 | h3
          · exact h3.symm
          · exact hties a (List.mem_cons_self a t1) b hb1 (h2.1 a h) (h1.1 b h3)
      subst hab
      have hpt : t1.Perm t2 := List.Perm.cons_inv hp
      have := ih t2 hpt h1.2 h2.2
        (fun x hx y hy => hties x (List.mem_cons_of_mem _ hx) y (List.mem_cons_of_mem _ hy))
      rw [this]

/-- The function `sort.Slice` returns the same list for two rearrangements of a
list in which elements that tie under `less` are equal. -/
theorem Slice_eq_of_perm {α : Type} {less : α → α → Bool} (hw : StrictWeak less)
    (l1 l2 : List α) (hp : l1.Perm l2)
    (hties : ∀ a ∈ l1, ∀ b ∈ l1, less a b = false → less b a = false → a = b) :
    sort.Slice less l1 = sort.Slice less l2 := by
  apply sorted_perm_unique _ _ _ (Slice_sorted hw l1) (Slice_sorted hw l2)
  · intro a ha b hb
    exact hties a ((Slice_perm less l1).subset ha) b ((Slice_perm less l1).subset hb)
  · exact ((Slice_perm less l1).trans hp).trans (Slice_perm less l2).symm

theorem strLess_ties (a b : String) (h1 : strLess a b = false) (h2 : strLess b a = false) :
    a = b := by
  rcases strLess_trichotomy a b with h | h | h
  · rw [h] at h1; exact absurd h1 (by simp)
  · exact h
  · rw [h] at h2; exact absurd h2 (by simp)

theorem featureLess_ties (a b : Feature) (h1 : featureLess a b = false)
    (h2 : featureLess b a = false) : a = b := by
  cases a; cases b
  simp only [featureLess] at h1 h2
  simp [strLess_ties _ _ h1 h2]

/-- The function `sort.Strings` returns the same list for two rearrangements of
a list. -/
theorem Strings_eq_of_perm (l1 l2 : List String) (hp : l1.Perm l2) :
    sort.Strings l1 = sort.Strings l2 :=
  Slice_eq_of_perm strLess_strictWeak l1 l2 hp (fun a _ b _ => strLess_ties a b)

theorem sortFeatures_eq_of_perm (l1 l2 : List Feature) (hp : l1.Perm l2) :
    sort.Slice featureLess l1 = sort.Slice featureLess l2 :=
  Slice_eq_of_perm featureLess_strictWeak l1 l2 hp (fun a _ b _ => featureLess_ties a b)

/-! ## What the loops write to the digest -/

theorem Digest.Write_empty (h : Digest) : h.Write "" = h := by
  cases h
  simp [Digest.Write]

theorem Digest.Write_Write (h : Digest) (a b : String) :
    (h.Write a).Write b = h.Write (a ++ b) := by
  simp [Digest.Write, String.append_assoc]

theorem writeIdentities_eq (idents : List Identity) (h : Digest) :
    writeIdentities idents h = h.Write (concat (idents.map identityText)) := by
  induction idents generalizing h with
  | nil => simp [writeIdentities, concat, Digest.Write_empty]
  | cons x xs ih =>
    have step : writeIdentities (x :: xs) h = writeIdentities xs (h.Write (identityText x)) := rfl
    rw [step, ih, Digest.Write_Write]
    rfl

theorem writeFeatures_eq (features : List Feature) (h : Digest) :
    writeFeatures features h = h.Write (concat (features.map (fun f => f.Var ++ "<"))) := by
  induction features generalizing h with
  | nil => simp [writeFeatures, concat, Digest.Write_empty]
  | cons x xs ih =>
    have step : writeFeatures (x :: xs) h = writeFeatures xs ((h.Write x.Var).Write "<") := rfl
    rw [step, ih, Digest.Write_Write, Digest.Write_Write]
    simp [concat, String.append_assoc]

theorem writeValues_eq (vals : List String) (h : Digest) :
    writeValues vals h = h.Write (concat (vals.map (fun v => v ++ "<"))) := by
  induction vals generalizing h with
  | nil => simp [writeValues, concat, Digest.Write_empty]
  | cons x xs ih =>
    have step : writeValues (x :: xs) h = writeValues xs ((h.Write x).Write "<") := rfl
    rw [step, ih, Digest.Write_Write, Digest.Write_Write]
    simp [concat, String.append_assoc]

theorem writeFields_eq (infoForm : form.Data) (fields : List String) (h : Digest) :
    writeFields infoForm fields h = h.Write (concat (fields.map (fieldText infoForm))) := by
  induction fields generalizing h with
  | nil => simp [writeFields, concat, Digest.Write_empty]
  | cons x xs ih =>
    have step : writeFields infoForm (x :: xs) h
        = writeFields infoForm xs
            (writeValues (sort.Strings (infoForm.Raw x).1) ((h.Write x).Write "<")) := rfl
    rw [step, ih, writeValues_eq, Digest.Write_Write, Digest.Write_Write, Digest.Write_Write]
    simp [concat, fieldText, String.append_assoc]

/-! ## Ties of the identity order -/

theorem identityLess_iff_tripleLess (a b : Identity) :
    identityLess a b = true ↔ tripleLess a b := by
  unfold identityLess tripleLess
  by_cases hc : a.Category = b.Category
  · by_cases ht : a.Type_ = b.Type_
    · by_cases hl : a.Lang = b.Lang
      · simp [hc, ht, hl, strLess_irrefl]
      · simp [hc, ht, hl, strLess_irrefl]
    · simp [hc, ht, strLess_irrefl]
  · simp [hc]

theorem identityLess_ties (a b : Identity) (h1 : identityLess a b = false)
    (h2 : identityLess b a = false) :
    a.Category = b.Category ∧ a.Type_ = b.Type_ ∧ a.Lang = b.Lang := by
  unfold identityLess at h1 h2
  by_cases hc : a.Category = b.Category
  · by_cases ht : a.Type_ = b.Type_
    · by_cases hl : a.Lang = b.Lang
      · exact ⟨hc, ht, hl⟩
      · have hl2 : ¬ b.Lang = a.Lang := fun e => hl e.symm
        simp [hc, ht, hl, hl2] at h1 h2
        exact absurd (strLess_ties _ _ h1 h2) hl
    · have ht2 : ¬ b.Type_ = a.Type_ := fun e => ht e.symm
      simp [hc, ht, ht2] at h1 h2
      exact absurd (strLess_ties _ _ h1 h2) ht
  · have hc2 : ¬ b.Category = a.Category := fun e => hc e.symm
    simp [hc, hc2] at h1 h2
    exact absurd (strLess_ties _ _ h1 h2) hc

/-! ## Reordered identities and features -/

/-- C1, as stated, fails: `tiedA` and `tiedB` hold the same two identities in
different order, they tie under the order of `AppendHash` and differ in Name,
and `AppendHash` writes different bytes for them, so that a digest that
separates the two inputs gives two different fingerprints. -/
theorem C1_tied_names_hash_differently :
    tiedA.Identity.Perm tiedB.Identity ∧ tiedA.Features = tiedB.Features ∧
      tiedA.Form = tiedB.Form ∧
      tiedA.written (Digest.fresh echoDigest) = some "client/bot//x<client/bot//y<" ∧
      tiedB.written (Digest.fresh echoDigest) = some "client/bot//y<client/bot//x<" ∧
      tiedA.Hash (Digest.fresh echoDigest) ≠ tiedB.Hash (Digest.fresh echoDigest) := by
  refine ⟨?_, rfl, rfl, by decide, by decide, by decide⟩
  exact List.Perm.swap _ _ _

/-- C1, amended: for two records whose identity lists are permutations of each
other (features and forms equal) and in which identities that agree on
Category, Type and Lang also agree on Name, `AppendHash` does the same on
every digest and with every destination: same returned bytes, same bytes
written to the digest; and `Hash` returns the same fingerprint. -/
theorem C1_permuted_identities_same_hash (A B : Info) (dst : List Nat) (h : Digest)
    (hperm : A.Identity.Perm B.Identity)
    (hname : ∀ a ∈ A.Identity, ∀ b ∈ A.Identity,
      a.Category = b.Category → a.Type_ = b.Type_ → a.Lang = b.Lang → a.Name = b.Name)
    (hfeat : A.Features = B.Features) (hform : A.Form = B.Form) :
    A.AppendHash dst h = B.AppendHash dst h ∧ A.Hash h = B.Hash h := by
  have hs : sort.Slice identityLess A.Identity = sort.Slice identityLess B.Identity := by
    apply Slice_eq_of_perm identityLess_strictWeak _ _ hperm
    intro a ha b hb h1 h2
    obtain ⟨hc, ht, hl⟩ := identityLess_ties a b h1 h2
    have hn := hname a ha b hb hc ht hl
    cases a; cases b
    simp_all
  have key : ∀ d, A.AppendHash d h = B.AppendHash d h := by
    intro d
    simp only [Info.AppendHash, hs, hfeat, hform]
  exact ⟨key dst, by simp only [Info.Hash, key []]⟩

/-- C1, amended, at an input: the record `pingBot` and the same record with
its identity list reversed. -/
theorem C1_permuted_identities_same_hash_witness :
    pingBot.Identity.Perm pingBotIdentityReversed.Identity ∧
      pingBot.Hash (Digest.fresh echoDigest)
        = pingBotIdentityReversed.Hash (Digest.fresh echoDigest) :=
  ⟨(List.reverse_perm _).symm,
    (C1_permuted_identities_same_hash pingBot pingBotIdentityReversed [] (Digest.fresh echoDigest)
      (List.reverse_perm _).symm (by decide) rfl rfl).2⟩

/-- C2: for two records whose feature lists are permutations of each other
(identities and forms equal), `AppendHash` does the same on every digest and
with every destination, so the bytes written to the digest are identical, and
`Hash` returns the same fingerprint. -/
theorem C2_permuted_features_same_hash (A B : Info) (dst : List Nat) (h : Digest)
    (hperm : A.Features.Perm B.Features)
    (hident : A.Identity = B.Identity) (hform : A.Form = B.Form) :
    A.AppendHash dst h = B.AppendHash dst h ∧ A.written h = B.written h ∧
      A.Hash h = B.Hash h := by
  have hs := sortFeatures_eq_of_perm A.Features B.Features hperm
  have key : ∀ d, A.AppendHash d h = B.AppendHash d h := by
    intro d
    simp only [Info.AppendHash, hs, hident, hform]
  exact ⟨key dst, by simp only [Info.written, key []], by simp only [Info.Hash, key []]⟩

/-- C2 at an input: the record `pingBot` and the same record with its feature
list reversed. -/
theorem C2_permuted_features_same_hash_witness :
    pingBot.Features.Perm pingBotFeaturesReversed.Features ∧
      pingBot.written (Digest.fresh echoDigest)
        = pingBotFeaturesReversed.written (Digest.fresh echoDigest) :=
  ⟨(List.reverse_perm _).symm,
    (C2_permuted_features_same_hash pingBot pingBotFeaturesReversed [] (Digest.fresh echoDigest)
      (List.reverse_perm _).symm rfl rfl).2.1⟩

/-! ## The returned bytes -/

theorem Slice_nil {α : Type} (less : α → α → Bool) : sort.Slice less [] = [] := rfl

/-- What `AppendHash` returns for a record without forms. -/
theorem AppendHash_no_forms (i : Info) (dst : List Nat) (h : Digest) (hform : i.Form = []) :
    i.AppendHash dst h = some
      { out := base64.StdEncoding.Encode (dst ++ h.digest (h.written
          ++ (concat ((sort.Slice identityLess i.Identity).map identityText)
            ++ concat ((sort.Slice featureLess i.Features).map (fun f => f.Var ++ "<"))))),
        h := h.Write (concat ((sort.Slice identityLess i.Identity).map identityText)
            ++ concat ((sort.Slice featureLess i.Features).map (fun f => f.Var ++ "<"))),
        Identity := sort.Slice identityLess i.Identity,
        Features := sort.Slice featureLess i.Features } := by
  simp only [Info.AppendHash, hform, writeForms, writeIdentities_eq, writeFeatures_eq,
    Digest.Write_Write, Digest.Sum]
  rfl

/-- The first character of the encoding of a slice that starts with the byte
120 (the letter x) is the letter e, whatever follows. -/
theorem Encode_head_x (b : List Nat) :
    (base64.StdEncoding.Encode (120 :: b)).head? = some 101 := by
  have he : base64.encode 30 = 101 := by decide
  match b with
  | [] => simp [base64.StdEncoding.Encode, he]
  | [b1] =>
    have h1 : (120 % 256 * 65536 + b1 % 256 * 256) / 262144 % 64 = 30 := by omega
    simp only [base64.StdEncoding.Encode, h1, he, List.head?_cons]
  | b1 :: b2 :: rest =>
    have h1 : (120 % 256 * 65536 + b1 % 256 * 256 + b2 % 256) / 262144 % 64 = 30 := by omega
    simp only [base64.StdEncoding.Encode, h1, he, List.head?_cons]

/-- C3 fails on the code at the destination `[120]` (the text "x"), for the
empty record and every fresh digest: `AppendHash` returns the base64 encoding
of the destination followed by the checksum, which starts with the letter e
(101), and not the destination followed by the bytes of the string that
`Hash` returns. -/
theorem C3_appendHash_encodes_destination (d : String → List Nat) :
    ∃ r s, emptyInfo.AppendHash [120] (Digest.fresh d) = some r ∧
      emptyInfo.Hash (Digest.fresh d) = some s ∧
      r.out = base64.StdEncoding.Encode ([120] ++ d "") ∧
      s = stringOf (base64.StdEncoding.Encode (d "")) ∧
      r.out.head? = some 101 ∧ r.out ≠ [120] ++ bytesOf s := by
  refine ⟨_, _, AppendHash_no_forms emptyInfo [120] (Digest.fresh d) rfl, ?_, rfl, rfl, ?_, ?_⟩
  · simp only [Info.Hash, AppendHash_no_forms emptyInfo [] (Digest.fresh d) rfl]
    rfl
  · exact Encode_head_x _
  · intro hcon
    have h1 := Encode_head_x (d "")
    have h2 : (base64.StdEncoding.Encode ([120] ++ d "")).head? = some 120 := by
      have h3 : (base64.StdEncoding.Encode ([120] ++ d ""))
          = [120] ++ bytesOf (stringOf (base64.StdEncoding.Encode (d ""))) := hcon
      rw [h3]
      rfl
    rw [show [120] ++ d "" = 120 :: d "" from rfl] at h2
    rw [h1] at h2
    exact absurd h2 (by decide)

/-- C4: for a record without forms and a fresh digest, there are a
rearrangement of the identity list that is non-decreasing in (Category, Type,
Lang) and a rearrangement of the feature list that is non-decreasing in Var
such that the bytes written to the digest are the texts
Category/Type/Lang/Name followed by `<` of the identities in that order, then
Var followed by `<` of the features in that order; and `Hash` returns the
standard base64 encoding of the digest of exactly these bytes. -/
theorem C4_bytes_without_forms (i : Info) (d : String → List Nat) (hform : i.Form = []) :
    ∃ (idents : List Identity) (features : List Feature),
      idents.Perm i.Identity ∧ idents.Pairwise (fun a b => ¬ tripleLess b a) ∧
      features.Perm i.Features ∧ features.Pairwise (fun a b => strLess b.Var a.Var = false) ∧
      i.written (Digest.fresh d)
        = some (concat (idents.map (fun x =>
              x.Category ++ "/" ++ x.Type_ ++ "/" ++ x.Lang ++ "/" ++ x.Name ++ "<"))
            ++ concat (features.map (fun f => f.Var ++ "<"))) ∧
      i.Hash (Digest.fresh d)
        = some (stringOf (base64.StdEncoding.Encode (d
            (concat (idents.map (fun x =>
              x.Category ++ "/" ++ x.Type_ ++ "/" ++ x.Lang ++ "/" ++ x.Name ++ "<"))
            ++ concat (features.map (fun f => f.Var ++ "<")))))) := by
  refine ⟨sort.Slice identityLess i.Identity, sort.Slice featureLess i.Features,
    Slice_perm _ _, ?_, Slice_perm _ _, Slice_sorted featureLess_strictWeak _, ?_, ?_⟩
  · refine (Slice_sorted identityLess_strictWeak i.Identity).imp ?_
    intro a b hab hlt
    rw [(identityLess_iff_tripleLess b a).mpr hlt] at hab
    exact absurd hab (by simp)
  · simp only [Info.written, AppendHash_no_forms i [] (Digest.fresh d) hform]
    rfl
  · simp only [Info.Hash, AppendHash_no_forms i [] (Digest.fresh d) hform]
    rfl

/-- C4 at an input: the record `pingBot`, which has no forms. -/
theorem C4_bytes_without_forms_witness :
    pingBot.Form = [] ∧
      pingBot.written (Digest.fresh echoDigest)
        = some "client/bot//<client/pc/en/Psi<http://jabber.org/protocol/caps<urn:xmpp:ping<" ∧
      ∃ (idents : List Identity) (features : List Feature),
        idents.Perm pingBot.Identity ∧ idents.Pairwise (fun a b => ¬ tripleLess b a) ∧
        features.Perm pingBot.Features ∧
        features.Pairwise (fun a b => strLess b.Var a.Var = false) ∧
        pingBot.written (Digest.fresh echoDigest)
          = some (concat (idents.map (fun x =>
                x.Category ++ "/" ++ x.Type_ ++ "/" ++ x.Lang ++ "/" ++ x.Name ++ "<"))
              ++ concat (features.map (fun f => f.Var ++ "<"))) ∧
        pingBot.Hash (Digest.fresh echoDigest)
          = some (stringOf (base64.StdEncoding.Encode (echoDigest
              (concat (idents.map (fun x =>
                x.Category ++ "/" ++ x.Type_ ++ "/" ++ x.Lang ++ "/" ++ x.Name ++ "<"))
              ++ concat (features.map (fun f => f.Var ++ "<")))))) :=
  ⟨rfl, by decide, C4_bytes_without_forms pingBot echoDigest rfl⟩

/-- C8: for the empty record `AppendHash` writes nothing to the digest, and on
a fresh digest `Hash` returns the standard base64 encoding of the digest of
the empty input. -/
theorem C8_empty_info_writes_nothing (h : Digest) (d : String → List Nat) :
    emptyInfo.written h = some h.written ∧
      emptyInfo.written (Digest.fresh d) = some "" ∧
      emptyInfo.Hash (Digest.fresh d)
        = some (stringOf (base64.StdEncoding.Encode (d ""))) := by
  refine ⟨?_, ?_, ?_⟩
  · simp only [Info.written, AppendHash_no_forms emptyInfo [] h rfl]
    show some (h.Write "").written = some h.written
    rw [Digest.Write_empty]
  · simp only [Info.written, AppendHash_no_forms emptyInfo [] (Digest.fresh d) rfl]
    rfl
  · simp only [Info.Hash, AppendHash_no_forms emptyInfo [] (Digest.fresh d) rfl]
    rfl

/-! ## Forms -/

theorem collectField_foldl (infoForm : form.Data) (fields : List form.FieldData)
    (acc : String × List String) :
    fields.foldl (collectField infoForm) acc
      = (if fields.any (fun f => f.Var == "FORM_TYPE") then (infoForm.GetString "FORM_TYPE").1
          else acc.1, acc.2 ++ fieldNames fields) := by
  induction fields generalizing acc with
  | nil => simp [fieldNames]
  | cons f fs ih =>
    rw [List.foldl_cons, ih]
    by_cases hf : f.Var = "FORM_TYPE"
    · simp [collectField, hf, fieldNames]
    · simp [collectField, hf, fieldNames]

/-- A form without a field called FORM_TYPE has the empty string as its
FORM_TYPE value. -/
theorem GetString_absent (infoForm : form.Data)
    (h : infoForm.fields.any (fun f => f.Var == "FORM_TYPE") = false) :
    (infoForm.GetString "FORM_TYPE").1 = "" := by
  have hfind : infoForm.fields.find? (fun f => f.Var == "FORM_TYPE") = none := by
    rw [List.find?_eq_none]
    intro x hx hv
    have : infoForm.fields.any (fun f => f.Var == "FORM_TYPE") = true :=
      List.any_eq_true.mpr ⟨x, hx, hv⟩
    rw [h] at this
    exact absurd this (by simp)
  simp [form.Data.GetString, form.Data.Raw, hfind]

/-- The body of the loop over the forms panics on a form without fields and
otherwise writes the text of the form. -/
theorem writeForm_eq (infoForm : form.Data) (h : Digest) :
    writeForm infoForm h
      = if infoForm.fields = [] then none else some (h.Write (formText infoForm)) := by
  unfold writeForm
  by_cases he : infoForm.fields = []
  · simp [he, form.Data.Len]
  · have hlen : ¬ (infoForm.Len - 1 < 0) := by
      have : 0 < infoForm.fields.length := List.length_pos.mpr he
      simp only [form.Data.Len]
      omega
    rw [if_neg hlen, if_neg he, collectField_foldl]
    dsimp only
    rw [writeFields_eq, Digest.Write_Write, Digest.Write_Write, List.nil_append]
    congr 2
    by_cases hany : infoForm.fields.any (fun f => f.Var == "FORM_TYPE") = true
    · simp [hany, formText, String.append_assoc]
    · have hany2 : infoForm.fields.any (fun f => f.Var == "FORM_TYPE") = false := by
        simpa using hany
      simp only [hany2, formText, GetString_absent infoForm hany2]
      simp [String.append_assoc]

/-- The loop over the forms panics when a form has no fields and otherwise
writes the texts of the forms in the order of the slice. -/
theorem writeForms_eq (forms : List form.Data) (h : Digest) :
    writeForms forms h
      = if ∀ f ∈ forms, f.fields ≠ [] then some (h.Write (concat (forms.map formText)))
        else none := by
  induction forms generalizing h with
  | nil => simp [writeForms, concat, Digest.Write_empty]
  | cons f fs ih =>
    unfold writeForms
    rw [writeForm_eq]
    by_cases he : f.fields = []
    · simp [he]
    · simp only [he, if_false, ih]
      by_cases hall : ∀ g ∈ fs, g.fields ≠ []
      · have hall2 : ∀ g ∈ f :: fs, g.fields ≠ [] := by
          intro g hg
          rcases List.mem_cons.mp hg with h1 | h1
          · rw [h1]; exact he
          · exact hall g h1
        rw [if_pos hall, if_pos hall2, Digest.Write_Write]
        rfl
      · have hall2 : ¬ ∀ g ∈ f :: fs, g.fields ≠ [] :=
          fun hc => hall (fun g hg => hc g (List.mem_cons_of_mem _ hg))
        rw [if_neg hall, if_neg hall2]

/-- What `AppendHash` does, in one equation: it panics when a form has no
fields; otherwise it writes the canonical text of the record to the digest
and returns the base64 encoding of the destination followed by the
checksum. -/
theorem AppendHash_eq (i : Info) (dst : List Nat) (h : Digest) :
    i.AppendHash dst h
      = if ∀ f ∈ i.Form, f.fields ≠ [] then some
          { out := base64.StdEncoding.Encode (dst ++ h.digest (h.written ++ canonicalText i)),
            h := h.Write (canonicalText i),
            Identity := sort.Slice identityLess i.Identity,
            Features := sort.Slice featureLess i.Features }
        else none := by
  simp only [Info.AppendHash, writeForms_eq, writeIdentities_eq, writeFeatures_eq,
    Digest.Write_Write]
  by_cases hall : ∀ f ∈ i.Form, f.fields ≠ []
  · simp only [if_pos hall, canonicalText, Digest.Sum, Digest.Write, String.append_assoc]
  · simp only [if_neg hall]

/-- The bytes written for `softwareInfo`: the form follows the features, its
FORM_TYPE value comes first and FORM_TYPE is not among the names, the names
and the values are in increasing order, and the field without values gives
its name and the delimiter only. -/
theorem softwareInfo_written :
    softwareInfo.written (Digest.fresh echoDigest)
      = some "urn:xmpp:ping<urn:xmpp:dataforms:softwareinfo<ip_version<os<Linux<Mac<" := by
  decide

/-- C5 fails on the code for a record that holds a form without fields: the
claim has such a form contribute the empty FORM_TYPE value and the delimiter
after the features, and `AppendHash` panics instead and returns nothing,
whatever the destination and the digest. -/
theorem C5_form_without_fields_is_not_written (dst : List Nat) (h : Digest) :
    pingWithEmptyForm.AppendHash dst h = none ∧ pingWithEmptyForm.written h = none := by
  have key : ∀ d, pingWithEmptyForm.AppendHash d h = none := by
    intro d
    rw [AppendHash_eq, if_neg]
    intro hall
    exact hall { fields := [] } (List.mem_singleton.mpr rfl) rfl
  exact ⟨key dst, by simp only [Info.written, key []]; rfl⟩

/-- C7 fails on the code for a record whose form has no fields: `Len()` is 0,
the capacity `Len()-1` is negative, `make` panics, and neither `AppendHash`
nor `Hash` returns, whatever the destination and the digest. -/
theorem C7_form_without_fields_panics (dst : List Nat) (h : Digest) :
    (form.Data.mk []).Len - 1 < 0 ∧ writeForm (form.Data.mk []) h = none ∧
      emptyFormInfo.AppendHash dst h = none ∧ emptyFormInfo.Hash h = none := by
  have key : ∀ d, emptyFormInfo.AppendHash d h = none := by
    intro d
    rw [AppendHash_eq, if_neg]
    intro hall
    exact hall { fields := [] } (List.mem_singleton.mpr rfl) rfl
  refine ⟨by decide, ?_, key dst, by simp only [Info.Hash, key []]; rfl⟩
  rw [writeForm_eq]
  rfl

/-! ## The base64 encoding loses nothing -/

/-- The method `Encode` fills a slice of `EncodedLen` bytes. -/
theorem base64.Encode_length : ∀ (x : List Nat),
    (base64.StdEncoding.Encode x).length = base64.StdEncoding.EncodedLen x.length
  | [] => rfl
  | [_] => by simp [base64.StdEncoding.Encode, base64.StdEncoding.EncodedLen]
  | [_, _] => by simp [base64.StdEncoding.Encode, base64.StdEncoding.EncodedLen]
  | _ :: _ :: _ :: rest => by
    have ih := base64.Encode_length rest
    simp only [base64.StdEncoding.Encode, List.length_cons, ih, base64.StdEncoding.EncodedLen]
    omega


theorem base64.decodeChar_encode : ∀ v < 64, base64.decodeChar (base64.encode v) = v := by
  decide

theorem base64.encode_ne_padding : ∀ v < 64, base64.encode v ≠ base64.StdPadding := by
  decide

theorem base64.encode_lt : ∀ v < 64, base64.encode v < 128 := by
  decide

theorem base64.encode_inj {u v : Nat} (hu : u < 64) (hv : v < 64)
    (h : base64.encode u = base64.encode v) : u = v := by
  rw [← base64.decodeChar_encode u hu, ← base64.decodeChar_encode v hv, h]

theorem base64.encode_mod_inj {u v : Nat} (h : base64.encode (u % 64) = base64.encode (v % 64)) :
    u % 64 = v % 64 :=
  base64.encode_inj (Nat.mod_lt _ (by decide)) (Nat.mod_lt _ (by decide)) h

theorem base64.padding_ne_encode_mod {u : Nat} (h : base64.StdPadding = base64.encode (u % 64)) :
    False :=
  base64.encode_ne_padding (u % 64) (Nat.mod_lt _ (by decide)) h.symm

/-- Two slices of bytes with the same standard base64 encoding are equal. -/
theorem base64.Encode_inj : ∀ (x y : List Nat), (∀ b ∈ x, b < 256) → (∀ b ∈ y, b < 256) →
    base64.StdEncoding.Encode x = base64.StdEncoding.Encode y → x = y
  | [], [], _, _, _ => rfl
  | [], [_], _, _, h => by simp [base64.StdEncoding.Encode] at h
  | [], [_, _], _, _, h => by simp [base64.StdEncoding.Encode] at h
  | [], _ :: _ :: _ :: _, _, _, h => by simp [base64.StdEncoding.Encode] at h
  | [_], [], _, _, h => by simp [base64.StdEncoding.Encode] at h
  | [_, _], [], _, _, h => by simp [base64.StdEncoding.Encode] at h
  | _ :: _ :: _ :: _, [], _, _, h => by simp [base64.StdEncoding.Encode] at h
  | [a], [a1], hx, hy, h => by
    simp only [base64.StdEncoding.Encode, List.cons.injEq] at h
    have ha := hx a (by simp)
    have ha1 := hy a1 (by simp)
    have h1 := base64.encode_mod_inj h.1
    have h2 := base64.encode_mod_inj h.2.1
    have : a = a1 := by omega
    rw [this]
  | [a], [_, _], _, _, h => by
    simp only [base64.StdEncoding.Encode, List.cons.injEq] at h
    exact (base64.padding_ne_encode_mod h.2.2.1).elim
  | [a], _ :: _ :: _ :: _, _, _, h => by
    simp only [base64.StdEncoding.Encode, List.cons.injEq] at h
    exact (base64.padding_ne_encode_mod h.2.2.1).elim
  | [_, _], [_], _, _, h => by
    simp only [base64.StdEncoding.Encode, List.cons.injEq] at h
    exact (base64.padding_ne_encode_mod h.2.2.1.symm).elim
  | _ :: _ :: _ :: _, [_], _, _, h => by
    simp only [base64.StdEncoding.Encode, List.cons.injEq] at h
    exact (base64.padding_ne_encode_mod h.2.2.1.symm).elim
  | [a, b], [a1, b1], hx, hy, h => by
    simp only [base64.StdEncoding.Encode, List.cons.injEq] at h
    have ha := hx a (by simp)
    have hb := hx b (by simp)
    have ha1 := hy a1 (by simp)
    have hb1 := hy b1 (by simp)
    have h1 := base64.encode_mod_inj h.1
    have h2 := base64.encode_mod_inj h.2.1
    have h3 := base64.encode_mod_inj h.2.2.1
    have e1 : a = a1 := by omega
    have e2 : b = b1 := by omega
    rw [e1, e2]
  | [_, _], _ :: _ :: _ :: _, _, _, h => by
    simp only [base64.StdEncoding.Encode, List.cons.injEq] at h
    exact (base64.padding_ne_encode_mod h.2.2.2.1).elim
  | _ :: _ :: _ :: _, [_, _], _, _, h => by
    simp only [base64.StdEncoding.Encode, List.cons.injEq] at h
    exact (base64.padding_ne_encode_mod h.2.2.2.1.symm).elim
  | a :: b :: c :: rest, a1 :: b1 :: c1 :: rest1, hx, hy, h => by
    simp only [base64.StdEncoding.Encode, List.cons.injEq] at h
    have ha := hx a (by simp)
    have hb := hx b (by simp)
    have hc := hx c (by simp)
    have ha1 := hy a1 (by simp)
    have hb1 := hy b1 (by simp)
    have hc1 := hy c1 (by simp)
    have h1 := base64.encode_mod_inj h.1
    have h2 := base64.encode_mod_inj h.2.1
    have h3 := base64.encode_mod_inj h.2.2.1
    have h4 := base64.encode_mod_inj h.2.2.2.1
    have e1 : a = a1 := by omega
    have e2 : b = b1 := by omega
    have e3 : c = c1 := by omega
    have e4 : rest = rest1 :=
      base64.Encode_inj rest rest1 (fun x hm => hx x (by simp [hm]))
        (fun x hm => hy x (by simp [hm])) h.2.2.2.2
    rw [e1, e2, e3, e4]

/-- The bytes of a standard base64 encoding are ASCII characters. -/
theorem base64.Encode_ascii : ∀ (x : List Nat), ∀ b ∈ base64.StdEncoding.Encode x, b < 128
  | [], b, hb => by simp [base64.StdEncoding.Encode] at hb
  | [a], b, hb => by
    simp only [base64.StdEncoding.Encode, List.mem_cons, List.mem_singleton,
      List.not_mem_nil, or_false] at hb
    rcases hb with h | h | h | h
    · rw [h]; exact base64.encode_lt _ (Nat.mod_lt _ (by decide))
    · rw [h]; exact base64.encode_lt _ (Nat.mod_lt _ (by decide))
    · rw [h]; decide
    · rw [h]; decide
  | [a, c], b, hb => by
    simp only [base64.StdEncoding.Encode, List.mem_cons, List.mem_singleton,
      List.not_mem_nil, or_false] at hb
    rcases hb with h | h | h | h
    · rw [h]; exact base64.encode_lt _ (Nat.mod_lt _ (by decide))
    · rw [h]; exact base64.encode_lt _ (Nat.mod_lt _ (by decide))
    · rw [h]; exact base64.encode_lt _ (Nat.mod_lt _ (by decide))
    · rw [h]; decide
  | a :: c :: e :: rest, b, hb => by
    simp only [base64.StdEncoding.Encode, List.mem_cons] at hb
    rcases hb with h | h | h | h | h
    · rw [h]; exact base64.encode_lt _ (Nat.mod_lt _ (by decide))
    · rw [h]; exact base64.encode_lt _ (Nat.mod_lt _ (by decide))
    · rw [h]; exact base64.encode_lt _ (Nat.mod_lt _ (by decide))
    · rw [h]; exact base64.encode_lt _ (Nat.mod_lt _ (by decide))
    · exact base64.Encode_ascii rest b h

theorem charOfNat_inj {m n : Nat} (hm : m < 128) (hn : n < 128)
    (h : Char.ofNat m = Char.ofNat n) : m = n := by
  have key : ∀ k, k < 128 → (Char.ofNat k).toNat = k := by decide
  rw [← key m hm, ← key n hn, h]

theorem map_charOfNat_inj : ∀ (x y : List Nat), (∀ b ∈ x, b < 128) → (∀ b ∈ y, b < 128) →
    x.map Char.ofNat = y.map Char.ofNat → x = y
  | [], [], _, _, _ => rfl
  | [], _ :: _, _, _, h => by simp at h
  | _ :: _, [], _, _, h => by simp at h
  | a :: x, b :: y, hx, hy, h => by
    simp only [List.map_cons, List.cons.injEq] at h
    have e1 : a = b := charOfNat_inj (hx a (by simp)) (hy b (by simp)) h.1
    have e2 : x = y :=
      map_charOfNat_inj x y (fun c hc => hx c (by simp [hc])) (fun c hc => hy c (by simp [hc])) h.2
    rw [e1, e2]

/-- The conversion `string(b)` loses nothing on slices of ASCII bytes. -/
theorem stringOf_inj (x y : List Nat) (hx : ∀ b ∈ x, b < 128) (hy : ∀ b ∈ y, b < 128)
    (h : stringOf x = stringOf y) : x = y :=
  map_charOfNat_inj x y hx hy (congrArg String.data h)

/-- Two slices of bytes whose base64 encodings read the same as strings are
equal. -/
theorem fingerprint_inj (x y : List Nat) (hx : ∀ b ∈ x, b < 256) (hy : ∀ b ∈ y, b < 256)
    (h : stringOf (base64.StdEncoding.Encode x) = stringOf (base64.StdEncoding.Encode y)) :
    x = y :=
  base64.Encode_inj x y hx hy
    (stringOf_inj _ _ (base64.Encode_ascii x) (base64.Encode_ascii y) h)

/-! ## Reading the canonical text back -/

theorem free_iff (c : Char) (s : String) : free c s = true ↔ c ∉ s.data := by
  simp [free]

theorem split_at_char (c : Char) : ∀ (x y r r1 : List Char), c ∉ x → c ∉ y →
    x ++ c :: r = y ++ c :: r1 → x = y ∧ r = r1
  | [], [], _, _, _, _, h => by simpa using h
  | [], d :: y, _, _, _, hy, h => by
    simp only [List.nil_append, List.cons_append, List.cons.injEq] at h
    exact absurd (by rw [h.1]; exact List.mem_cons_self d y) hy
  | a :: x, [], _, _, hx, _, h => by
    simp only [List.nil_append, List.cons_append, List.cons.injEq] at h
    exact absurd (by rw [← h.1]; exact List.mem_cons_self a x) hx
  | a :: x, d :: y, r, r1, hx, hy, h => by
    simp only [List.cons_append, List.cons.injEq] at h
    have ih := split_at_char c x y r r1 (fun hm => hx (List.mem_cons_of_mem _ hm))
      (fun hm => hy (List.mem_cons_of_mem _ hm)) h.2
    exact ⟨by rw [h.1, ih.1], ih.2⟩

theorem concat_append (a b : List String) : concat (a ++ b) = concat a ++ concat b := by
  induction a with
  | nil => simp [concat]
  | cons x xs ih => simp [concat, ih, String.append_assoc]

/-- A text of tokens that each end with the delimiter and are otherwise free of
it can be split into its tokens in one way only. -/
theorem concat_delimited_inj : ∀ (xs ys : List String),
    (∀ x ∈ xs, delimiter ∉ x.data) → (∀ y ∈ ys, delimiter ∉ y.data) →
    concat (xs.map (fun t => t ++ "<")) = concat (ys.map (fun t => t ++ "<")) → xs = ys
  | [], [], _, _, _ => rfl
  | [], y :: ys, _, _, h => by
    have hd := congrArg String.data h
    simp [concat] at hd
  | x :: xs, [], _, _, h => by
    have hd := congrArg String.data h
    simp [concat] at hd
  | x :: xs, y :: ys, hx, hy, h => by
    have hd := congrArg String.data h
    simp only [List.map_cons, concat, String.data_append, List.append_assoc] at hd
    have hd2 : x.data ++ delimiter :: (concat (xs.map (fun t => t ++ "<"))).data
        = y.data ++ delimiter :: (concat (ys.map (fun t => t ++ "<"))).data := hd
    have hsplit := split_at_char delimiter _ _ _ _ (hx x (List.mem_cons_self x xs))
      (hy y (List.mem_cons_self y ys)) hd2
    have e1 : x = y := String.ext hsplit.1
    have e2 : xs = ys :=
      concat_delimited_inj xs ys (fun t ht => hx t (List.mem_cons_of_mem _ ht))
        (fun t ht => hy t (List.mem_cons_of_mem _ ht)) (String.ext hsplit.2)
    rw [e1, e2]

theorem identityToken_data (x : Identity) :
    (identityToken x).data
      = x.Category.data ++ slash :: (x.Type_.data ++ slash :: (x.Lang.data ++ slash :: x.Name.data)) := by
  simp only [identityToken, String.data_append, List.append_assoc]
  rfl

theorem identityToken_free (x : Identity) (hx : x.delimiterFree = true) :
    delimiter ∉ (identityToken x).data := by
  simp only [Identity.delimiterFree, Bool.and_eq_true, free_iff] at hx
  obtain ⟨⟨⟨⟨⟨⟨h1, h2⟩, h3⟩, h4⟩, _⟩, _⟩, _⟩ := hx
  have hne : ¬ delimiter = slash := by decide
  rw [identityToken_data]
  simp [h1, h2, h3, h4, hne]

theorem identityToken_inj (x y : Identity) (hx : x.delimiterFree = true)
    (hy : y.delimiterFree = true) (h : identityToken x = identityToken y) : x = y := by
  simp only [Identity.delimiterFree, Bool.and_eq_true, free_iff] at hx hy
  obtain ⟨⟨⟨⟨⟨⟨_, _⟩, _⟩, _⟩, x1⟩, x2⟩, x3⟩ := hx
  obtain ⟨⟨⟨⟨⟨⟨_, _⟩, _⟩, _⟩, y1⟩, y2⟩, y3⟩ := hy
  have hd := congrArg String.data h
  rw [identityToken_data, identityToken_data] at hd
  have s1 := split_at_char slash _ _ _ _ x1 y1 hd
  have s2 := split_at_char slash _ _ _ _ x2 y2 s1.2
  have s3 := split_at_char slash _ _ _ _ x3 y3 s2.2
  cases x; cases y
  simp only [Identity.mk.injEq]
  exact ⟨String.ext s1.1, String.ext s2.1, String.ext s3.1, String.ext s3.2⟩

theorem map_inj_of_mem {α β : Type} (f : α → β) : ∀ (l1 l2 : List α),
    (∀ a ∈ l1, ∀ b ∈ l2, f a = f b → a = b) → l1.map f = l2.map f → l1 = l2
  | [], [], _, _ => rfl
  | [], _ :: _, _, h => by simp at h
  | _ :: _, [], _, h => by simp at h
  | a :: l1, b :: l2, hf, h => by
    simp only [List.map_cons, List.cons.injEq] at h
    have e1 : a = b := hf a (List.mem_cons_self a l1) b (List.mem_cons_self b l2) h.1
    have e2 : l1 = l2 :=
      map_inj_of_mem f l1 l2
        (fun x hx y hy => hf x (List.mem_cons_of_mem _ hx) y (List.mem_cons_of_mem _ hy)) h.2
    rw [e1, e2]

theorem canonicalText_no_forms (i : Info) (hform : i.Form = []) :
    canonicalText i = concat ((tokens i).map (fun t => t ++ "<")) := by
  simp only [canonicalText, hform, tokens, List.map_append, List.map_map, concat_append,
    List.map_nil, concat, String.append_empty]
  rfl

/-- Records without forms that are free of delimiters and have equally many
identities have the same canonical text only if their sorted identity lists
and their sorted feature lists are the same. -/
theorem canonicalText_inj (A B : Info) (hformA : A.Form = []) (hformB : B.Form = [])
    (hA : A.delimiterFree = true) (hB : B.delimiterFree = true)
    (hcount : A.Identity.length = B.Identity.length)
    (h : canonicalText A = canonicalText B) :
    sort.Slice identityLess A.Identity = sort.Slice identityLess B.Identity ∧
      sort.Slice featureLess A.Features = sort.Slice featureLess B.Features := by
  simp only [Info.delimiterFree, Bool.and_eq_true, List.all_eq_true] at hA hB
  have memA := fun x (hx : x ∈ sort.Slice identityLess A.Identity) =>
    hA.1 x ((Slice_perm identityLess A.Identity).subset hx)
  have memB := fun x (hx : x ∈ sort.Slice identityLess B.Identity) =>
    hB.1 x ((Slice_perm identityLess B.Identity).subset hx)
  have fmemA := fun x (hx : x ∈ sort.Slice featureLess A.Features) =>
    (free_iff _ _).mp (hA.2 x ((Slice_perm featureLess A.Features).subset hx))
  have fmemB := fun x (hx : x ∈ sort.Slice featureLess B.Features) =>
    (free_iff _ _).mp (hB.2 x ((Slice_perm featureLess B.Features).subset hx))
  rw [canonicalText_no_forms A hformA, canonicalText_no_forms B hformB] at h
  have htok : tokens A = tokens B := by
    apply concat_delimited_inj _ _ _ _ h
    · intro t ht
      rcases List.mem_append.mp ht with h1 | h1
      · obtain ⟨x, hx, rfl⟩ := List.mem_map.mp h1
        exact identityToken_free x (memA x hx)
      · obtain ⟨x, hx, rfl⟩ := List.mem_map.mp h1
        exact fmemA x hx
    · intro t ht
      rcases List.mem_append.mp ht with h1 | h1
      · obtain ⟨x, hx, rfl⟩ := List.mem_map.mp h1
        exact identityToken_free x (memB x hx)
      · obtain ⟨x, hx, rfl⟩ := List.mem_map.mp h1
        exact fmemB x hx
  have hlen : ((sort.Slice identityLess A.Identity).map identityToken).length
      = ((sort.Slice identityLess B.Identity).map identityToken).length := by
    rw [List.length_map, List.length_map, (Slice_perm identityLess A.Identity).length_eq,
      (Slice_perm identityLess B.Identity).length_eq, hcount]
  have hparts := List.append_inj htok hlen
  refine ⟨map_inj_of_mem identityToken _ _ ?_ hparts.1, map_inj_of_mem _ _ _ ?_ hparts.2⟩
  · intro a ha b hb hab
    exact identityToken_inj a b (memA a ha) (memB b hb) hab
  · intro a _ b _ hab
    cases a; cases b
    simpa using hab

/-! ## Records that differ -/

/-- The bytes written by `AppendHash` when no form is without fields. -/
theorem written_eq (i : Info) (h : Digest) (hall : ∀ f ∈ i.Form, f.fields ≠ []) :
    i.written h = some (h.written ++ canonicalText i) := by
  simp only [Info.written, AppendHash_eq, if_pos hall]
  rfl

/-- The fingerprint returned by `Hash` when no form is without fields. -/
theorem Hash_eq (i : Info) (h : Digest) (hall : ∀ f ∈ i.Form, f.fields ≠ []) :
    i.Hash h
      = some (stringOf (base64.StdEncoding.Encode (h.digest (h.written ++ canonicalText i)))) := by
  simp only [Info.Hash, AppendHash_eq, if_pos hall]
  rfl

theorem no_forms_all (i : Info) (hform : i.Form = []) : ∀ f ∈ i.Form, f.fields ≠ [] := by
  intro f hf
  rw [hform] at hf
  exact absurd hf (List.not_mem_nil f)

theorem same_text_same_hash (A B : Info) (hA : ∀ f ∈ A.Form, f.fields ≠ [])
    (hB : ∀ f ∈ B.Form, f.fields ≠ []) (htext : canonicalText A = canonicalText B) (h : Digest) :
    A.written h = B.written h ∧ A.Hash h = B.Hash h := by
  rw [written_eq A h hA, written_eq B h hB, Hash_eq A h hA, Hash_eq B h hB, htext]
  exact ⟨rfl, rfl⟩

/-- C6, as stated, fails: the records `angleA` and `angleB` differ in their
feature Vars, the records `slashA` and `slashB` in their identity tuple, the
records `oneIdentity` and `oneFeature` in both, the records `valueForm` and
`namesForm` in a form field value, and in each pair `AppendHash` writes the
same bytes to the digest, so that `Hash` returns the same fingerprint for
both, on every digest. -/
theorem C6_different_records_same_bytes :
    (¬ angleA.Features.Perm angleB.Features ∧
      angleA.written (Digest.fresh echoDigest) = some "a<b<" ∧
      (∀ h, angleA.written h = angleB.written h ∧ angleA.Hash h = angleB.Hash h)) ∧
    (¬ slashA.Identity.Perm slashB.Identity ∧
      slashA.written (Digest.fresh echoDigest) = some "a/b/c//<" ∧
      (∀ h, slashA.written h = slashB.written h ∧ slashA.Hash h = slashB.Hash h)) ∧
    (¬ oneIdentity.Identity.Perm oneFeature.Identity ∧
      oneIdentity.written (Digest.fresh echoDigest) = some "a/b/c/d<" ∧
      (∀ h, oneIdentity.written h = oneFeature.written h
        ∧ oneIdentity.Hash h = oneFeature.Hash h)) ∧
    (valueForm.Form ≠ namesForm.Form ∧
      valueForm.written (Digest.fresh echoDigest) = some "x<y<z<" ∧
      (∀ h, valueForm.written h = namesForm.written h ∧ valueForm.Hash h = namesForm.Hash h)) := by
  refine ⟨⟨?_, by decide, ?_⟩, ⟨?_, by decide, ?_⟩, ⟨?_, by decide, ?_⟩, ⟨by decide, by decide, ?_⟩⟩
  · intro hp
    exact absurd hp.length_eq (by decide)
  · exact same_text_same_hash angleA angleB (by decide) (by decide) (by decide)
  · intro hp
    exact absurd (List.perm_singleton.mp hp) (by decide)
  · exact same_text_same_hash slashA slashB (by decide) (by decide) (by decide)
  · intro hp
    exact absurd hp.length_eq (by decide)
  · exact same_text_same_hash oneIdentity oneFeature (by decide) (by decide) (by decide)
  · exact same_text_same_hash valueForm namesForm (by decide) (by decide) (by decide)

theorem string_append_left_cancel {p a b : String} (h : p ++ a = p ++ b) : a = b := by
  have hd := congrArg String.data h
  simp only [String.data_append] at hd
  exact String.ext (List.append_cancel_left hd)

/-- C6, amended: for records without forms that have equally many identities
and in which no Category, Type, Lang, Name or Var holds the delimiter `<` and
no Category, Type or Lang holds a slash, if the records differ in an identity
tuple or in a feature Var (the identity lists or the feature lists are not
permutations of each other) then `AppendHash` writes different bytes to the
digest; and `Hash` returns different fingerprints whenever the digest yields
bytes and gives the two byte sequences different checksums. -/
theorem C6_different_records_different_bytes (A B : Info) (h : Digest)
    (hformA : A.Form = []) (hformB : B.Form = [])
    (hA : A.delimiterFree = true) (hB : B.delimiterFree = true)
    (hcount : A.Identity.length = B.Identity.length)
    (hdiff : ¬ A.Identity.Perm B.Identity ∨ ¬ A.Features.Perm B.Features) :
    A.written h ≠ B.written h ∧
      ((∀ s, ∀ b ∈ h.digest s, b < 256) →
        h.digest (h.written ++ canonicalText A) ≠ h.digest (h.written ++ canonicalText B) →
        A.Hash h ≠ B.Hash h) := by
  have hallA := no_forms_all A hformA
  have hallB := no_forms_all B hformB
  constructor
  · rw [written_eq A h hallA, written_eq B h hallB]
    intro hw
    have htext : canonicalText A = canonicalText B :=
      string_append_left_cancel (Option.some.inj hw)
    obtain ⟨h1, h2⟩ := canonicalText_inj A B hformA hformB hA hB hcount htext
    rcases hdiff with hd | hd
    · apply hd
      have := (Slice_perm identityLess A.Identity).symm.trans
        (h1 ▸ Slice_perm identityLess B.Identity)
      exact this
    · apply hd
      have := (Slice_perm featureLess A.Features).symm.trans
        (h2 ▸ Slice_perm featureLess B.Features)
      exact this
  · intro hbytes hsep
    rw [Hash_eq A h hallA, Hash_eq B h hallB]
    intro hf
    exact hsep (fingerprint_inj _ _ (hbytes _) (hbytes _) (Option.some.inj hf))

theorem echoDigest_bytes (s : String) : ∀ b ∈ echoDigest s, b < 256 := by
  intro b hb
  simp only [echoDigest, List.mem_map] at hb
  obtain ⟨a, _, rfl⟩ := hb
  exact Nat.mod_lt _ (by decide)

/-- C6, amended, at an input: the record `pingBot` and the same record with
another second feature. -/
theorem C6_different_records_different_bytes_witness :
    ¬ pingBot.Features.Perm pingBotOtherFeature.Features ∧
      pingBot.written (Digest.fresh echoDigest)
        ≠ pingBotOtherFeature.written (Digest.fresh echoDigest) ∧
      pingBot.Hash (Digest.fresh echoDigest)
        ≠ pingBotOtherFeature.Hash (Digest.fresh echoDigest) := by
  have hd : ¬ pingBot.Features.Perm pingBotOtherFeature.Features := by decide
  have key := C6_different_records_different_bytes pingBot pingBotOtherFeature
    (Digest.fresh echoDigest) rfl rfl (by decide) (by decide) rfl (Or.inr hd)
  exact ⟨hd, key.1, key.2 echoDigest_bytes (by decide)⟩

/-! ## The presence handler -/

/-- The loop over the children passes over every element that is not a
capabilities element. -/
theorem scanChildren_skip (before tail : List Child)
    (hbefore : ∀ x ∈ before, x.passed = true) :
    scanChildren (before ++ tail) = scanChildren tail := by
  induction before with
  | nil => rfl
  | cons x xs ih =>
    have hx := hbefore x (List.mem_cons_self x xs)
    cases x with
    | nonElement text => simp [Child.passed] at hx
    | element start content =>
      have hx2 : (start.Name.Local == "c" && start.Name.Space == NSCaps) = false := by
        cases hb : (start.Name.Local == "c" && start.Name.Space == NSCaps) with
        | false => rfl
        | true => simp [Child.passed, hb] at hx
      simp only [List.cons_append, scanChildren, hx2]
      exact ih (fun y hy => hbefore y (List.mem_cons_of_mem _ hy))

/-- The loop over the children runs to the end of a payload whose children
are all elements and none of them a capabilities element. -/
theorem scanChildren_finished (children : List Child)
    (hnone : ∀ x ∈ children, x.passed = true) :
    scanChildren children = Scan.finished := by
  have := scanChildren_skip children [] hnone
  rw [List.append_nil] at this
  rw [this]
  rfl

/-- The loop over the children ends at the `break` with the first capabilities
element when that element can be decoded. -/
theorem scanChildren_broke (before rest : List Child) (start : StartElement)
    (content : List Content) (caps : Caps)
    (hbefore : ∀ x ∈ before, x.passed = true)
    (hc : start.Name.Local = "c" ∧ start.Name.Space = NSCaps)
    (hdec : Decode start content = Except.ok caps) :
    scanChildren (before ++ Child.element start content :: rest) = Scan.broke caps := by
  rw [scanChildren_skip before _ hbefore]
  simp [scanChildren, hc.1, hc.2, hdec]

/-- The loop over the children ends with the error of the first capabilities
element when that element cannot be decoded. -/
theorem scanChildren_failed (before rest : List Child) (start : StartElement)
    (content : List Content) (err : Error)
    (hbefore : ∀ x ∈ before, x.passed = true)
    (hc : start.Name.Local = "c" ∧ start.Name.Space = NSCaps)
    (hdec : Decode start content = Except.error err) :
    scanChildren (before ++ Child.element start content :: rest) = Scan.failed err := by
  rw [scanChildren_skip before _ hbefore]
  simp [scanChildren, hc.1, hc.2, hdec]

/-- The loop over the children panics at the first child that is not an
element when no capabilities element comes before it. -/
theorem scanChildren_nil_start (before rest : List Child) (text : String)
    (hbefore : ∀ x ∈ before, x.passed = true) :
    scanChildren (before ++ Child.nonElement text :: rest) = Scan.panicked := by
  rw [scanChildren_skip before _ hbefore]
  rfl

/-- An element without a child element cannot be decoded: the decoder meets
its end element first. -/
theorem Decode_without_child (start : StartElement) (content : List Content)
    (hplain : ∀ t ∈ content, ∃ text, t = Content.other text) :
    Decode start content
      = Except.error (syntaxError ("unexpected end element </" ++ start.Name.Local ++ ">")) := by
  have hfirst : firstChild content = none := by
    induction content with
    | nil => rfl
    | cons t ts ih =>
      obtain ⟨text, ht⟩ := hplain t (List.mem_cons_self t ts)
      subst ht
      exact ih (fun u hu => hplain u (List.mem_cons_of_mem _ hu))
  simp only [Decode, hfirst]

/-- A presence without a capabilities element whose payload ends cleanly is
resolved with the zero value of `Caps`. -/
theorem HandlePresence_without_caps (GetInfo : String → JID → Except Error Info)
    (h : CapsHandler) (p : Presence) (children : List Child)
    (hnone : ∀ x ∈ children, x.passed = true) :
    h.HandlePresence GetInfo p { children := children, err := none }
      = resolve GetInfo h p { Hash := 0, Node := "", Ver := "" } := by
  simp only [CapsHandler.HandlePresence, scanChildren_finished children hnone]

/-- A presence whose first capabilities element can be decoded is resolved
with the decoded value. -/
theorem HandlePresence_with_caps (GetInfo : String → JID → Except Error Info)
    (h : CapsHandler) (p : Presence) (before rest : List Child) (start : StartElement)
    (content : List Content) (caps : Caps) (perr : Option Error)
    (hbefore : ∀ x ∈ before, x.passed = true)
    (hc : start.Name.Local = "c" ∧ start.Name.Space = NSCaps)
    (hdec : Decode start content = Except.ok caps) :
    h.HandlePresence GetInfo p
        { children := before ++ Child.element start content :: rest, err := perr }
      = resolve GetInfo h p caps := by
  simp only [CapsHandler.HandlePresence,
    scanChildren_broke before rest start content caps hbefore hc hdec]

/-- C9 fails on the code for a presence without a capabilities element, on a
made cache without entries and with a peer that answers: the variable `c`
keeps the zero value, the key is "#", `HandlePresence` sends a service
discovery request for the node "#" to the sender and stores the answer under
"#", where the claim has it do nothing. -/
theorem C9_presence_without_caps_is_resolved :
    ∃ cache, emptyCache.HandlePresence answerPingBot julietPresence
        { children := [showElement], err := none }
        = Outcome.returned none { cache := cache } [{ node := "#", dest := juliet }] ∧
      cache.lookup "#" = some pingBot ∧ emptyCache.cache.lookup "#" = none :=
  ⟨_, rfl, rfl, rfl⟩

/-- C10, as stated, fails: for a presence whose capabilities element cannot be
decoded `HandlePresence` returns the error of the decoder, not nil; and when
character data stands before that element the call returns nothing, it
panics. -/
theorem C10_decode_error_is_returned :
    emptyCache.HandlePresence answerPingBot julietPresence
        { children := [showElement, plainCaps], err := none }
      = Outcome.returned (some unexpectedEnd) emptyCache [] ∧
    emptyCache.HandlePresence answerPingBot julietPresence
        { children := [showElement, plainCaps], err := none }
      ≠ Outcome.returned none emptyCache [] ∧
    emptyCache.HandlePresence answerPingBot julietPresence
        { children := [lineBreak, plainCaps], err := none }
      = Outcome.panicked [] := by
  refine ⟨rfl, ?_, rfl⟩
  intro h
  have h2 : Outcome.returned (some unexpectedEnd) emptyCache []
      = Outcome.returned none emptyCache [] := h
  simp at h2

/-- C10, amended: for every presence whose first capabilities element cannot
be decoded and in which every child before that element is an element,
whatever follows it, every cache and every peer, `HandlePresence` returns the
error of the decoder, sends no service discovery request and leaves the
handler with its cache as it was. -/
theorem C10_decode_error_leaves_cache (GetInfo : String → JID → Except Error Info)
    (h : CapsHandler) (p : Presence) (before rest : List Child) (start : StartElement)
    (content : List Content) (err : Error) (perr : Option Error)
    (hbefore : ∀ x ∈ before, x.passed = true)
    (hc : start.Name.Local = "c" ∧ start.Name.Space = NSCaps)
    (hdec : Decode start content = Except.error err) :
    h.HandlePresence GetInfo p
        { children := before ++ Child.element start content :: rest, err := perr }
      = Outcome.returned (some err) h [] := by
  simp only [CapsHandler.HandlePresence,
    scanChildren_failed before rest start content err hbefore hc hdec]

/-- C10, amended, at an input: a presence with a child that is not a
capabilities element, then a capabilities element whose hash attribute is no
number inside a capabilities element, then character data. -/
theorem C10_decode_error_leaves_cache_witness :
    Decode { Name := { Space := NSCaps, Local := "c" }, Attr := [] }
        [Content.child
          { Name := { Space := NSCaps, Local := "c" }, Attr := [plainAttr "hash" "sha-1"] }]
      = Except.error (invalidHash "sha-1") ∧
      emptyCache.HandlePresence answerPingBot julietPresence
          { children := [showElement] ++
              Child.element { Name := { Space := NSCaps, Local := "c" }, Attr := [] }
                [Content.child
                  { Name := { Space := NSCaps, Local := "c" },
                    Attr := [plainAttr "hash" "sha-1"] }] :: [lineBreak],
            err := none }
        = Outcome.returned (some (invalidHash "sha-1")) emptyCache [] :=
  ⟨rfl, C10_decode_error_leaves_cache answerPingBot emptyCache julietPresence [showElement]
    [lineBreak] _ _ (invalidHash "sha-1") none (by decide) (by decide) rfl⟩

/-! ## The cache of the presence handler -/

theorem resolve_key (GetInfo : String → JID → Except Error Info) (h : CapsHandler)
    (p : Presence) (c : Caps) :
    resolve GetInfo h p c
      = match h.cache.lookup c.key with
        | some _ => Outcome.returned none h []
        | none =>
          match GetInfo c.key p.From with
          | Except.error err => Outcome.returned (some err) h [{ node := c.key, dest := p.From }]
          | Except.ok info =>
            match h.cache.store c.key info with
            | none => Outcome.panicked [{ node := c.key, dest := p.From }]
            | some cache =>
              Outcome.returned none { cache := cache } [{ node := c.key, dest := p.From }] :=
  rfl

/-- A presence that advertises `caps` is resolved with `caps`. -/
theorem HandlePresence_advertised (GetInfo : String → JID → Except Error Info)
    (h : CapsHandler) (p : Presence) (e : Payload) (caps : Caps) (hadv : e.advertises caps) :
    h.HandlePresence GetInfo p e = resolve GetInfo h p caps := by
  obtain ⟨before, start, content, rest, hch, hbefore, hc, hdec⟩ := hadv
  cases e with
  | mk children perr =>
    simp only at hch
    subst hch
    exact HandlePresence_with_caps GetInfo h p before rest start content caps perr hbefore hc hdec

theorem examplePayload_advertises : examplePayload.advertises exampleCaps :=
  ⟨[showElement], _, _, [], rfl, by decide, by decide, rfl⟩

/-- The lookup of a key that has an entry: nothing is requested and the
handler stays as it is. -/
theorem resolve_hit (GetInfo : String → JID → Except Error Info) (h : CapsHandler)
    (p : Presence) (c : Caps) (x : Info) (hhit : h.cache.lookup (c.Node ++ "#" ++ c.Ver) = some x) :
    resolve GetInfo h p c = Outcome.returned none h [] := by
  simp only [resolve, hhit]

/-- When the cache has an entry under the key Node + "#" + Ver, every call of
`HandlePresence` with a presence from which the decoder fills this Node and
Ver returns nil without a call of `GetInfo` and leaves the handler as it was;
and so does every sequence of such calls. -/
theorem HandleAll_hits (h : CapsHandler) (node ver : String) (x : Info)
    (calls : List Call)
    (hhit : h.cache.lookup (node ++ "#" ++ ver) = some x)
    (hcalls : ∀ call ∈ calls, ∃ c, call.e.advertises c ∧ c.Node = node ∧ c.Ver = ver) :
    (∀ call ∈ calls,
        h.HandlePresence call.GetInfo call.p call.e = Outcome.returned none h []) ∧
      h.HandleAll calls = Outcome.returned none h [] ∧
      (h.HandleAll calls).requests = [] ∧
      ((h.HandleAll calls).handler h).cache.lookup (node ++ "#" ++ ver) = some x := by
  have one : ∀ call ∈ calls,
      h.HandlePresence call.GetInfo call.p call.e = Outcome.returned none h [] := by
    intro call hcall
    obtain ⟨c, hadv, hn, hv⟩ := hcalls call hcall
    rw [HandlePresence_advertised call.GetInfo h call.p call.e c hadv]
    exact resolve_hit _ h _ c x (by rw [hn, hv]; exact hhit)
  have all : h.HandleAll calls = Outcome.returned none h [] := by
    induction calls with
    | nil => rfl
    | cons call rest ih =>
      have h1 := one call (List.mem_cons_self call rest)
      have h2 := ih (fun c hc => hcalls c (List.mem_cons_of_mem _ hc))
        (fun c hc => one c (List.mem_cons_of_mem _ hc))
      simp only [CapsHandler.HandleAll, h1, h2, List.append_nil]
  refine ⟨one, all, ?_, ?_⟩
  · rw [all]; rfl
  · rw [all]; exact hhit

/-- C11 fails on the code at the advertisement of the end-to-end scenario, an
empty element c with the attributes hash, node and ver, on a cache that has
an entry under the key "https://example/client#ABC123==": the decoder is
handed a pointer to the start element, passes over it and meets the end of the
element, and `HandlePresence` returns this decode error where the claim has it
return nil. Nothing is requested and the cache stays as it was. -/
theorem C11_cache_hit_returns_decode_error :
    knownCache.cache.lookup ("https://example/client" ++ "#" ++ "ABC123==") = some pingBot ∧
      knownCache.HandlePresence answerPingBot julietPresence plainPayload
        = Outcome.returned (some unexpectedEnd) knownCache [] ∧
      knownCache.HandlePresence answerPingBot julietPresence plainPayload
        ≠ Outcome.returned none knownCache [] := by
  refine ⟨rfl, rfl, ?_⟩
  intro h
  have h2 : Outcome.returned (some unexpectedEnd) knownCache []
      = Outcome.returned none knownCache [] := h
  simp at h2

/-- The lookup of a key without an entry when the request fails: the error is
returned and the handler stays as it is. -/
theorem resolve_miss_error (GetInfo : String → JID → Except Error Info) (h : CapsHandler)
    (p : Presence) (c : Caps) (err : Error)
    (hmiss : h.cache.lookup (c.Node ++ "#" ++ c.Ver) = none)
    (hfail : GetInfo (c.Node ++ "#" ++ c.Ver) p.From = Except.error err) :
    resolve GetInfo h p c
      = Outcome.returned (some err) h [{ node := c.Node ++ "#" ++ c.Ver, dest := p.From }] := by
  simp only [resolve, hmiss, hfail]

/-- The lookup of a key without an entry always sends one request for that
key to the sender. -/
theorem resolve_miss_requests (GetInfo : String → JID → Except Error Info) (h : CapsHandler)
    (p : Presence) (c : Caps) (hmiss : h.cache.lookup (c.Node ++ "#" ++ c.Ver) = none) :
    (resolve GetInfo h p c).requests = [{ node := c.Node ++ "#" ++ c.Ver, dest := p.From }] := by
  cases hg : GetInfo (c.Node ++ "#" ++ c.Ver) p.From with
  | error err => simp only [resolve, hmiss, hg, Outcome.requests]
  | ok info =>
    cases hs : h.cache.store (c.Node ++ "#" ++ c.Ver) info with
    | none => simp only [resolve, hmiss, hg, hs, Outcome.requests]
    | some cache => simp only [resolve, hmiss, hg, hs, Outcome.requests]

/-- When the decoder fills `caps` from the presence, the key of `caps` is not
in the cache and `GetInfo` returns an error, `HandlePresence` returns exactly
this error and leaves the handler as it was; and a later call for the same
Node and Ver, with any such presence and any reply of the peer, calls
`GetInfo` again. -/
theorem HandlePresence_miss_error (GetInfo : String → JID → Except Error Info)
    (h : CapsHandler) (p : Presence) (e : Payload) (caps : Caps) (err : Error)
    (hadv : e.advertises caps)
    (hmiss : h.cache.lookup (caps.Node ++ "#" ++ caps.Ver) = none)
    (hfail : GetInfo (caps.Node ++ "#" ++ caps.Ver) p.From = Except.error err) :
    h.HandlePresence GetInfo p e
        = Outcome.returned (some err) h [{ node := caps.Node ++ "#" ++ caps.Ver, dest := p.From }] ∧
      ((h.HandlePresence GetInfo p e).handler h).cache.lookup (caps.Node ++ "#" ++ caps.Ver)
        = none ∧
      ∀ (later : Call) (c : Caps), later.e.advertises c → c.Node = caps.Node → c.Ver = caps.Ver →
        (((h.HandlePresence GetInfo p e).handler h).HandlePresence
            later.GetInfo later.p later.e).requests
          = [{ node := caps.Node ++ "#" ++ caps.Ver, dest := later.p.From }] ∧
        (h.HandleAll [{ GetInfo := GetInfo, p := p, e := e }, later]).requests
          = [{ node := caps.Node ++ "#" ++ caps.Ver, dest := p.From },
             { node := caps.Node ++ "#" ++ caps.Ver, dest := later.p.From }] := by
  have first : h.HandlePresence GetInfo p e
      = Outcome.returned (some err) h
          [{ node := caps.Node ++ "#" ++ caps.Ver, dest := p.From }] := by
    rw [HandlePresence_advertised GetInfo h p e caps hadv]
    exact resolve_miss_error GetInfo h p caps err hmiss hfail
  refine ⟨first, ?_, ?_⟩
  · rw [first]; exact hmiss
  · intro later c hadv2 hn hv
    have second : (h.HandlePresence later.GetInfo later.p later.e).requests
        = [{ node := caps.Node ++ "#" ++ caps.Ver, dest := later.p.From }] := by
      rw [HandlePresence_advertised later.GetInfo h later.p later.e c hadv2]
      have := resolve_miss_requests later.GetInfo h later.p c (by rw [hn, hv]; exact hmiss)
      rw [hn, hv] at this
      exact this
    refine ⟨by rw [first]; exact second, ?_⟩
    simp only [CapsHandler.HandleAll, first]
    cases hlat : h.HandlePresence later.GetInfo later.p later.e with
    | panicked requests =>
      rw [hlat] at second
      simp only [Outcome.requests] at second ⊢
      rw [second]
      rfl
    | returned err2 h2 requests =>
      rw [hlat] at second
      simp only [Outcome.requests] at second ⊢
      rw [second]
      rfl

/-- C12 fails on the code at the advertisement of the end-to-end scenario, an
empty element c with the attributes hash, node and ver, on a made cache
without entries and with a peer that fails every request with the error
"context deadline exceeded": `HandlePresence` returns the error of the
decoder, which is another error than that of the peer, and it never calls
`GetInfo`, neither in this call nor in a second call with the same presence,
where the claim has it return the error of the fetch and fetch again. -/
theorem C12_fetch_is_never_reached :
    emptyCache.cache.lookup "https://example/client#ABC123==" = none ∧
      answerTimeout "https://example/client#ABC123==" juliet
        = Except.error { msg := "context deadline exceeded" } ∧
      emptyCache.HandlePresence answerTimeout julietPresence plainPayload
        = Outcome.returned (some unexpectedEnd) emptyCache [] ∧
      unexpectedEnd ≠ { msg := "context deadline exceeded" } ∧
      (emptyCache.HandleAll
          [{ GetInfo := answerTimeout, p := julietPresence, e := plainPayload },
           { GetInfo := answerTimeout, p := julietPresence, e := plainPayload }]).requests
        = [] := by
  refine ⟨rfl, rfl, rfl, ?_, rfl⟩
  decide

/-- The lookup of a key without an entry in a made cache when the request
succeeds: one request, nil is returned, and the cache has the reply under the
key and is otherwise as it was. -/
theorem resolve_miss_ok_made (GetInfo : String → JID → Except Error Info)
    (entries : String → Option Info) (p : Presence) (c : Caps) (x : Info)
    (hmiss : entries (c.Node ++ "#" ++ c.Ver) = none)
    (hok : GetInfo (c.Node ++ "#" ++ c.Ver) p.From = Except.ok x) :
    resolve GetInfo { cache := InfoMap.made entries } p c
      = Outcome.returned none
          { cache := InfoMap.made
              (fun k => if k = c.Node ++ "#" ++ c.Ver then some x else entries k) }
          [{ node := c.Node ++ "#" ++ c.Ver, dest := p.From }] := by
  simp only [resolve, InfoMap.lookup, hmiss, hok, InfoMap.store]

/-- On a made cache, when the decoder fills `caps` from the presence, a miss
with a successful request stores the reply under the key, after one request,
and a later call for the same Node and Ver is a hit. -/
theorem HandlePresence_miss_ok_made (GetInfo : String → JID → Except Error Info)
    (entries : String → Option Info) (p : Presence) (e : Payload) (caps : Caps) (x : Info)
    (hadv : e.advertises caps)
    (hmiss : entries (caps.Node ++ "#" ++ caps.Ver) = none)
    (hok : GetInfo (caps.Node ++ "#" ++ caps.Ver) p.From = Except.ok x) (later : Call)
    (hlater : later.e.advertises caps) :
    ∃ h1, CapsHandler.HandlePresence GetInfo { cache := InfoMap.made entries } p e
          = Outcome.returned none h1 [{ node := caps.Node ++ "#" ++ caps.Ver, dest := p.From }] ∧
      h1.cache.lookup (caps.Node ++ "#" ++ caps.Ver) = some x ∧
      h1.HandlePresence later.GetInfo later.p later.e = Outcome.returned none h1 [] := by
  refine ⟨CapsHandler.mk (InfoMap.made
      (fun k => if k = caps.Node ++ "#" ++ caps.Ver then some x else entries k)), ?_, ?_, ?_⟩
  · rw [HandlePresence_advertised GetInfo _ p e caps hadv]
    exact resolve_miss_ok_made GetInfo entries p caps x hmiss hok
  · simp [InfoMap.lookup]
  · rw [HandlePresence_advertised later.GetInfo _ later.p later.e caps hlater]
    exact resolve_hit _ _ _ caps x (by simp [InfoMap.lookup])

/-- C13 fails on the code at the advertisement of the end-to-end scenario, an
empty element c with the attributes hash, node and ver, on a made cache
without entries and with a peer that answers: the decoder is handed a pointer
to the start element and fails, `HandlePresence` returns the decode error,
calls `GetInfo` not once and stores nothing, and a second call with the same
presence does the same, where the claim has one fetch, nil and the reply in
the cache. And where the decoder does fill the Node and Ver, from a
capabilities element inside a capabilities element, a handler whose cache is
the nil map, which is what `CapsHandler{Session: s}` has, panics at the
assignment `h.cache[key] = info` after the request has been sent. -/
theorem C13_miss_is_not_stored :
    emptyCache.cache.lookup "https://example/client#ABC123==" = none ∧
      answerPingBot "https://example/client#ABC123==" juliet = Except.ok pingBot ∧
      emptyCache.HandlePresence answerPingBot julietPresence plainPayload
        = Outcome.returned (some unexpectedEnd) emptyCache [] ∧
      (emptyCache.HandleAll
          [{ GetInfo := answerPingBot, p := julietPresence, e := plainPayload },
           { GetInfo := answerPingBot, p := julietPresence, e := plainPayload }]).requests
        = [] ∧
      zeroHandler.cache.lookup "https://example/client#ABC123==" = none ∧
      zeroHandler.HandlePresence answerPingBot julietPresence examplePayload
        = Outcome.panicked [{ node := "https://example/client#ABC123==", dest := juliet }] :=
  ⟨rfl, rfl, rfl, rfl, rfl, rfl⟩

theorem store_lookup (m m1 : InfoMap) (key : String) (info : Info)
    (hstore : m.store key info = some m1) :
    m1.lookup key = some info ∧ ∀ k, k ≠ key → m1.lookup k = m.lookup k := by
  cases m with
  | nilMap => simp [InfoMap.store] at hstore
  | made entries =>
    simp only [InfoMap.store, Option.some.injEq] at hstore
    subst hstore
    constructor
    · simp [InfoMap.lookup]
    · intro k hk
      simp [InfoMap.lookup, hk]

/-- The step from the lookup on keeps every entry and changes the cache at
most at the key of `c`, and there only when the key had no entry. -/
theorem resolve_keeps_entries (GetInfo : String → JID → Except Error Info) (h : CapsHandler)
    (p : Presence) (c : Caps) :
    (∀ k x, h.cache.lookup k = some x →
        ((resolve GetInfo h p c).handler h).cache.lookup k = some x) ∧
      (∀ k, k ≠ c.Node ++ "#" ++ c.Ver →
        ((resolve GetInfo h p c).handler h).cache.lookup k = h.cache.lookup k) := by
  cases hl : h.cache.lookup (c.Node ++ "#" ++ c.Ver) with
  | some y =>
    rw [resolve_hit GetInfo h p c y hl]
    exact ⟨fun _ _ hk => hk, fun _ _ => rfl⟩
  | none =>
    cases hg : GetInfo (c.Node ++ "#" ++ c.Ver) p.From with
    | error err =>
      rw [resolve_miss_error GetInfo h p c err hl hg]
      exact ⟨fun _ _ hk => hk, fun _ _ => rfl⟩
    | ok info =>
      cases hs : h.cache.store (c.Node ++ "#" ++ c.Ver) info with
      | none =>
        have hr : resolve GetInfo h p c
            = Outcome.panicked [{ node := c.Node ++ "#" ++ c.Ver, dest := p.From }] := by
          simp only [resolve, hl, hg, hs]
        rw [hr]
        exact ⟨fun _ _ hk => hk, fun _ _ => rfl⟩
      | some cache =>
        have hr : resolve GetInfo h p c
            = Outcome.returned none { cache := cache }
                [{ node := c.Node ++ "#" ++ c.Ver, dest := p.From }] := by
          simp only [resolve, hl, hg, hs]
        rw [hr]
        have hsl := store_lookup h.cache cache _ info hs
        refine ⟨?_, fun k hk => hsl.2 k hk⟩
        intro k x hk
        by_cases hkey : k = c.Node ++ "#" ++ c.Ver
        · rw [hkey, hl] at hk
          exact absurd hk (by simp)
        · show cache.lookup k = some x
          rw [hsl.2 k hkey]
          exact hk

/-- C14: for every call of `HandlePresence`, whatever the presence, its
payload and the reply of the peer, every key that has an entry in the cache
before the call has the same entry after it, and there is a key such that the
cache is unchanged at every other key and had no entry at this key if it
changed there. -/
theorem C14_entries_are_kept (GetInfo : String → JID → Except Error Info) (h : CapsHandler)
    (p : Presence) (e : Payload) :
    (∀ k x, h.cache.lookup k = some x →
        ((h.HandlePresence GetInfo p e).handler h).cache.lookup k = some x) ∧
      ∃ key, (∀ k, k ≠ key →
          ((h.HandlePresence GetInfo p e).handler h).cache.lookup k = h.cache.lookup k) ∧
        (((h.HandlePresence GetInfo p e).handler h).cache.lookup key = h.cache.lookup key ∨
          h.cache.lookup key = none) := by
  have same : (∀ k x, h.cache.lookup k = some x →
        ((Outcome.returned (none : Option Error) h []).handler h).cache.lookup k = some x) :=
    fun _ _ hk => hk
  have viaResolve : ∀ c, h.HandlePresence GetInfo p e = resolve GetInfo h p c →
      (∀ k x, h.cache.lookup k = some x →
        ((h.HandlePresence GetInfo p e).handler h).cache.lookup k = some x) ∧
      ∃ key, (∀ k, k ≠ key →
          ((h.HandlePresence GetInfo p e).handler h).cache.lookup k = h.cache.lookup k) ∧
        (((h.HandlePresence GetInfo p e).handler h).cache.lookup key = h.cache.lookup key ∨
          h.cache.lookup key = none) := by
    intro c hc
    rw [hc]
    have hr := resolve_keeps_entries GetInfo h p c
    refine ⟨hr.1, c.Node ++ "#" ++ c.Ver, hr.2, ?_⟩
    cases hl : h.cache.lookup (c.Node ++ "#" ++ c.Ver) with
    | none => exact Or.inr rfl
    | some y => exact Or.inl (hr.1 _ y hl)
  unfold CapsHandler.HandlePresence at viaResolve ⊢
  cases hscan : scanChildren e.children with
  | panicked => exact ⟨fun _ _ hk => hk, "", fun _ _ => rfl, Or.inl rfl⟩
  | failed err => exact ⟨fun _ _ hk => hk, "", fun _ _ => rfl, Or.inl rfl⟩
  | broke c =>
    simp only [hscan] at viaResolve
    exact viaResolve c rfl
  | finished =>
    simp only [hscan] at viaResolve ⊢
    cases herr : e.err with
    | some err => exact ⟨fun _ _ hk => hk, "", fun _ _ => rfl, Or.inl rfl⟩
    | none =>
      simp only [herr] at viaResolve
      exact viaResolve _ rfl

/-! ## Sorting in place -/

theorem foldl_insertLeft_sorted {α : Type} (less : α → α → Bool) (x acc : List α)
    (hx : x.Pairwise (fun a b => less b a = false))
    (hacc : ∀ a ∈ acc, ∀ b ∈ x, less b a = false) :
    x.foldl (fun sorted e => sort.insertLeft less e sorted) acc = x.reverse ++ acc := by
  induction x generalizing acc with
  | nil => rfl
  | cons e es ih =>
    rw [List.pairwise_cons] at hx
    have hins : sort.insertLeft less e acc = e :: acc := by
      cases acc with
      | nil => rfl
      | cons p ps =>
        have hp : less e p = false :=
          hacc p (List.mem_cons_self p ps) e (List.mem_cons_self e es)
        simp [sort.insertLeft, hp]
    rw [List.foldl_cons, hins, ih (e :: acc) hx.2]
    · simp
    · intro a ha b hb
      rcases List.mem_cons.mp ha with h1 | h1
      · rw [h1]; exact hx.1 b hb
      · exact hacc a h1 b (List.mem_cons_of_mem _ hb)

/-- The function `sort.Slice` leaves a slice that is sorted as it is. -/
theorem Slice_of_sorted {α : Type} (less : α → α → Bool) (x : List α)
    (hx : x.Pairwise (fun a b => less b a = false)) : sort.Slice less x = x := by
  unfold sort.Slice
  rw [foldl_insertLeft_sorted less x [] hx (fun _ ha => absurd ha (List.not_mem_nil _))]
  simp

/-- Sorting a second time changes nothing. -/
theorem Slice_idem {α : Type} {less : α → α → Bool} (hw : StrictWeak less) (x : List α) :
    sort.Slice less (sort.Slice less x) = sort.Slice less x :=
  Slice_of_sorted less _ (Slice_sorted hw x)

theorem reordered_refl (d : form.Data) : d.reordered d := by
  unfold form.Data.reordered
  induction d.fields with
  | nil => exact List.Forall₂.nil
  | cons f fs ih => exact List.Forall₂.cons ⟨rfl, List.Perm.refl _, fun _ => rfl⟩ ih

theorem reordered_sortedValues (d : form.Data) : d.reordered d.sortedValues := by
  unfold form.Data.reordered form.Data.sortedValues
  induction d.fields with
  | nil => exact List.Forall₂.nil
  | cons f fs ih =>
    refine List.Forall₂.cons ?_ ih
    by_cases hf : f.Var = "FORM_TYPE"
    · simp only [hf, if_true]
      exact ⟨hf.symm ▸ rfl, List.Perm.refl _, fun _ => rfl⟩
    · simp only [hf, if_false]
      exact ⟨rfl, Slice_perm strLess f.Raw, fun h => absurd h hf⟩

theorem reordered_fieldNames (l l1 : List form.FieldData)
    (h : List.Forall₂ form.FieldData.reordered l l1) : fieldNames l1 = fieldNames l := by
  induction h with
  | nil => rfl
  | @cons f f1 fs fs1 hf _ ih =>
    have hv : f1.Var = f.Var := hf.1
    unfold fieldNames at ih ⊢
    by_cases hft : f.Var = "FORM_TYPE"
    · simp [List.filter_cons, hv, hft, ih]
    · simp [List.filter_cons, hv, hft, ih]

theorem reordered_find (id : String) (l l1 : List form.FieldData)
    (h : List.Forall₂ form.FieldData.reordered l l1) :
    (l.find? (fun f => f.Var == id) = none ∧ l1.find? (fun f => f.Var == id) = none) ∨
      ∃ f f1, l.find? (fun f => f.Var == id) = some f ∧
        l1.find? (fun f => f.Var == id) = some f1 ∧ f.reordered f1 ∧ f.Var = id := by
  induction h with
  | nil => exact Or.inl ⟨rfl, rfl⟩
  | @cons f f1 fs fs1 hf _ ih =>
    have hv : f1.Var = f.Var := hf.1
    by_cases hid : f.Var = id
    · right
      refine ⟨f, f1, ?_, ?_, hf, hid⟩
      · simp [List.find?_cons, hid]
      · simp [List.find?_cons, hv, hid]
    · have hid1 : ¬ f1.Var = id := by rw [hv]; exact hid
      rcases ih with ⟨h1, h2⟩ | ⟨g, g1, h1, h2, h3, h4⟩
      · left
        exact ⟨by simp [List.find?_cons, hid, h1], by simp [List.find?_cons, hid1, h2]⟩
      · right
        exact ⟨g, g1, by simp [List.find?_cons, hid, h1], by simp [List.find?_cons, hid1, h2],
          h3, h4⟩

theorem reordered_Raw (d d1 : form.Data) (h : d.reordered d1) (id : String) :
    (d1.Raw id).1.Perm (d.Raw id).1 ∧ (id = "FORM_TYPE" → (d1.Raw id).1 = (d.Raw id).1) := by
  unfold form.Data.Raw
  rcases reordered_find id d.fields d1.fields h with ⟨h1, h2⟩ | ⟨f, f1, h1, h2, h3, h4⟩
  · rw [h1, h2]
    exact ⟨List.Perm.refl _, fun _ => rfl⟩
  · rw [h1, h2]
    exact ⟨h3.2.1, fun hid => h3.2.2 (h4.trans hid)⟩

theorem reordered_formText (d d1 : form.Data) (h : d.reordered d1) :
    formText d1 = formText d := by
  have hnames := reordered_fieldNames d.fields d1.fields h
  have hraw := reordered_Raw d d1 h
  have hget : (d1.GetString "FORM_TYPE").1 = (d.GetString "FORM_TYPE").1 := by
    simp only [form.Data.GetString, (hraw "FORM_TYPE").2 rfl]
  have htext : fieldText d1 = fieldText d := by
    funext n
    simp only [fieldText, Strings_eq_of_perm _ _ (hraw n).1]
  simp only [formText, hnames, hget, htext]

theorem reordered_forms (forms forms1 : List form.Data)
    (h : List.Forall₂ form.Data.reordered forms forms1) :
    forms1.map formText = forms.map formText ∧
      ((∀ f ∈ forms, f.fields ≠ []) → ∀ f ∈ forms1, f.fields ≠ []) := by
  induction h with
  | nil => exact ⟨rfl, fun _ f hf => absurd hf (List.not_mem_nil f)⟩
  | @cons d d1 ds ds1 hd _ ih =>
    refine ⟨by simp [reordered_formText d d1 hd, ih.1], ?_⟩
    intro hall f hf
    rcases List.mem_cons.mp hf with h1 | h1
    · rw [h1]
      intro hempty
      have hlen := List.Forall₂.length_eq hd
      rw [hempty] at hlen
      exact hall d (List.mem_cons_self d ds) (List.length_eq_zero.mp hlen)
    · exact ih.2 (fun g hg => hall g (List.mem_cons_of_mem _ hg)) f h1

theorem not_tripleLess_iff (a b : Identity) : ¬ tripleLess b a ↔ identityLess b a = false := by
  rw [← identityLess_iff_tripleLess]
  cases identityLess b a <;> simp

/-- C16, as stated, fails: `AppendHash` on a record whose identities are not
in sorted order leaves the identity list of the caller in sorted order, which
is another order than before the call; likewise for the feature list. -/
theorem C16_appendHash_reorders_the_caller :
    (∃ r, pingBotIdentityReversed.AppendHash [] (Digest.fresh echoDigest) = some r ∧
        r.Identity ≠ pingBotIdentityReversed.Identity ∧ r.Identity = pingBot.Identity) ∧
      (∃ r, pingBot.AppendHash [] (Digest.fresh echoDigest) = some r ∧
        r.Features ≠ pingBot.Features ∧ r.Features = pingBotFeaturesReversed.Features) := by
  refine ⟨⟨_, AppendHash_no_forms pingBotIdentityReversed [] (Digest.fresh echoDigest) rfl, ?_, ?_⟩,
    ⟨_, AppendHash_no_forms pingBot [] (Digest.fresh echoDigest) rfl, ?_, ?_⟩⟩
  · show sort.Slice identityLess pingBotIdentityReversed.Identity
      ≠ pingBotIdentityReversed.Identity
    decide
  · show sort.Slice identityLess pingBotIdentityReversed.Identity = pingBot.Identity
    decide
  · show sort.Slice featureLess pingBot.Features ≠ pingBot.Features
    decide
  · show sort.Slice featureLess pingBot.Features = pingBotFeaturesReversed.Features
    decide

/-- C16, amended: a call of `AppendHash` on a record in which every form has
a field returns and leaves the caller with an identity list and a feature
list that hold the same elements as before the call, the identities
non-decreasing in (Category, Type, Lang) and the features non-decreasing in
Var; a list that was in that order before the call is unchanged. -/
theorem C16_caller_lists_end_sorted (i : Info) (dst : List Nat) (h : Digest)
    (hall : ∀ f ∈ i.Form, f.fields ≠ []) :
    ∃ r, i.AppendHash dst h = some r ∧
      r.Identity.Perm i.Identity ∧ r.Identity.Pairwise (fun a b => ¬ tripleLess b a) ∧
      r.Features.Perm i.Features ∧
      r.Features.Pairwise (fun a b => strLess b.Var a.Var = false) ∧
      (i.Identity.Pairwise (fun a b => ¬ tripleLess b a) → r.Identity = i.Identity) ∧
      (i.Features.Pairwise (fun a b => strLess b.Var a.Var = false) →
        r.Features = i.Features) := by
  refine ⟨{ out := base64.StdEncoding.Encode (dst ++ h.digest (h.written ++ canonicalText i)),
            h := h.Write (canonicalText i),
            Identity := sort.Slice identityLess i.Identity,
            Features := sort.Slice featureLess i.Features },
    by rw [AppendHash_eq, if_pos hall], Slice_perm _ _, ?_, Slice_perm _ _,
    Slice_sorted featureLess_strictWeak _, ?_, ?_⟩
  · exact (Slice_sorted identityLess_strictWeak i.Identity).imp
      (fun hab => (not_tripleLess_iff _ _).mpr hab)
  · intro hs
    exact Slice_of_sorted identityLess i.Identity
      (hs.imp (fun hab => (not_tripleLess_iff _ _).mp hab))
  · intro hs
    exact Slice_of_sorted featureLess i.Features hs

/-- C16, amended, at an input: the record `softwareInfo`, whose feature list
is sorted and stays as it is. -/
theorem C16_caller_lists_end_sorted_witness :
    (∀ f ∈ softwareInfo.Form, f.fields ≠ []) ∧
      ∃ r, softwareInfo.AppendHash [] (Digest.fresh echoDigest) = some r ∧
        r.Identity.Perm softwareInfo.Identity ∧
        r.Identity.Pairwise (fun a b => ¬ tripleLess b a) ∧
        r.Features.Perm softwareInfo.Features ∧
        r.Features.Pairwise (fun a b => strLess b.Var a.Var = false) ∧
        (softwareInfo.Identity.Pairwise (fun a b => ¬ tripleLess b a) →
          r.Identity = softwareInfo.Identity) ∧
        (softwareInfo.Features.Pairwise (fun a b => strLess b.Var a.Var = false) →
          r.Features = softwareInfo.Features) :=
  ⟨by decide, C16_caller_lists_end_sorted softwareInfo [] (Digest.fresh echoDigest) (by decide)⟩

theorem AppendHash_some_all (i : Info) (dst : List Nat) (h : Digest) (r : AppendHashResult)
    (hret : i.AppendHash dst h = some r) : ∀ f ∈ i.Form, f.fields ≠ [] := by
  by_contra hall
  rw [AppendHash_eq, if_neg hall] at hret
  exact absurd hret (by simp)

/-- C20: when `AppendHash` on a record `i` with a fresh digest returns, then
on every record that has the identity list and the feature list in the order
this call left them, and the forms of `i` with the values of their fields in
any order (as they were, or sorted where the call sorted them), `AppendHash`
with a fresh digest of the same algorithm returns as well, writes the same
bytes to the digest and returns the same bytes, and `Hash` returns the same
fingerprint as `Hash` on `i`. -/
theorem C20_hash_is_repeatable (i i1 : Info) (dst : List Nat) (d : String → List Nat)
    (r : AppendHashResult)
    (hret : i.AppendHash dst (Digest.fresh d) = some r)
    (hident : i1.Identity = r.Identity) (hfeat : i1.Features = r.Features)
    (hform : List.Forall₂ form.Data.reordered i.Form i1.Form) :
    ∃ r1, i1.AppendHash dst (Digest.fresh d) = some r1 ∧
      r1.h.written = r.h.written ∧ r1.out = r.out ∧
      i1.written (Digest.fresh d) = i.written (Digest.fresh d) ∧
      i1.Hash (Digest.fresh d) = i.Hash (Digest.fresh d) ∧
      (i.Hash (Digest.fresh d)).isSome = true := by
  have hall := AppendHash_some_all i dst (Digest.fresh d) r hret
  have hforms := reordered_forms i.Form i1.Form hform
  have hall1 := hforms.2 hall
  rw [AppendHash_eq, if_pos hall, Option.some.injEq] at hret
  subst hret
  simp only at hident hfeat
  have htext : canonicalText i1 = canonicalText i := by
    simp only [canonicalText, hident, hfeat, hforms.1, Slice_idem identityLess_strictWeak,
      Slice_idem featureLess_strictWeak]
  refine ⟨{ out := base64.StdEncoding.Encode
              (dst ++ d ((Digest.fresh d).written ++ canonicalText i1)),
            h := (Digest.fresh d).Write (canonicalText i1),
            Identity := sort.Slice identityLess i1.Identity,
            Features := sort.Slice featureLess i1.Features },
    by rw [AppendHash_eq, if_pos hall1]; rfl, ?_, ?_, ?_, ?_, ?_⟩
  · simp only [htext]
  · simp only [htext]
    rfl
  · rw [written_eq i1 _ hall1, written_eq i _ hall, htext]
  · rw [Hash_eq i1 _ hall1, Hash_eq i _ hall, htext]
  · rw [Hash_eq i _ hall]
    rfl

/-- C20 at an input: the record `softwareInfo` and what a first call leaves
of it when also the form values are sorted in place. -/
theorem C20_hash_is_repeatable_witness :
    softwareInfoAfter.Form ≠ softwareInfo.Form ∧
      softwareInfo.Hash (Digest.fresh echoDigest) ≠ none ∧
      ∃ r1, softwareInfoAfter.AppendHash [] (Digest.fresh echoDigest) = some r1 ∧
        r1.h.written
          = "urn:xmpp:ping<urn:xmpp:dataforms:softwareinfo<ip_version<os<Linux<Mac<" ∧
        softwareInfoAfter.Hash (Digest.fresh echoDigest)
          = softwareInfo.Hash (Digest.fresh echoDigest) := by
  obtain ⟨r1, h1, h2, _, _, h5, _⟩ := C20_hash_is_repeatable softwareInfo softwareInfoAfter []
    echoDigest _ (by rw [AppendHash_eq, if_pos (by decide)]) rfl rfl
    (List.Forall₂.cons (reordered_sortedValues _) List.Forall₂.nil)
  refine ⟨by decide, by decide, r1, h1, ?_, h5⟩
  rw [h2]
  decide

/-! ## Concurrent calls: one request at a time -/

/-- C15, as stated, fails: two concurrent calls for the same key that is not
in the cache, the first of which gets an error from the peer, send two
requests, and the two calls return different values. -/
theorem C15_failed_fetch_is_repeated :
    ((World.start emptyCache.cache
        [exampleTask (Except.error { msg := "context deadline exceeded" }),
         exampleTask (Except.ok pingBot)]).run [0, 1, 0, 1, 0, 1, 1, 1]).requests
      = [{ node := "https://example/client#ABC123==", dest := juliet },
         { node := "https://example/client#ABC123==", dest := juliet }] ∧
    (((World.start emptyCache.cache
        [exampleTask (Except.error { msg := "context deadline exceeded" }),
         exampleTask (Except.ok pingBot)]).run [0, 1, 0, 1, 0, 1, 1, 1]).tasks.map (fun t => t.pc))
      = [Pc.returned (some { msg := "context deadline exceeded" }), Pc.returned none] := by
  constructor <;> rfl

theorem set_lookup (l : List Task) (i j : Nat) (t t1 tj : Task) (hi : l[i]? = some t)
    (hj : (l.set i t1)[j]? = some tj) : (j = i ∧ tj = t1) ∨ (j ≠ i ∧ l[j]? = some tj) := by
  rw [List.getElem?_set] at hj
  by_cases hij : i = j
  · left
    have hlt : i < l.length := by
      by_contra hc
      rw [List.getElem?_eq_none (by omega)] at hi
      cases hi
    simp only [hij, if_true] at hj
    rw [← hij] at hj
    simp only [hlt, if_true, Option.some.injEq] at hj
    exact ⟨hij.symm, hj.symm⟩
  · right
    simp only [hij, if_false] at hj
    exact ⟨fun e => hij e.symm, hj⟩

theorem set_lookup_self (l : List Task) (i : Nat) (t t1 : Task) (hi : l[i]? = some t) :
    (l.set i t1)[i]? = some t1 := by
  have hlt : i < l.length := by
    by_contra hc
    rw [List.getElem?_eq_none (by omega)] at hi
    cases hi
  rw [List.getElem?_set]
  simp [hlt]

theorem set_lookup_other (l : List Task) (i j : Nat) (t1 : Task) (hij : j ≠ i) :
    (l.set i t1)[j]? = l[j]? :=
  List.getElem?_set_ne (fun e => hij e.symm)

/-- The call number `i` takes the mutex. -/
theorem Safe.acquire {k : String} {w : World} (hs : Safe k w) (i : Nat) (t : Task) (c : Caps)
    (hi : w.tasks[i]? = some t) (hpc : t.pc = Pc.waiting c) (hm : w.mutex = false) :
    Safe k { w with mutex := true, tasks := w.tasks.set i { t with pc := Pc.locked c } } := by
  have nocrit : ∀ (j : Nat) (tj : Task), w.tasks[j]? = some tj → tj.pc.critical = false := by
    intro j tj hj
    cases hc : tj.pc.critical with
    | false => rfl
    | true =>
      have := hs.held j tj hj hc
      rw [hm] at this
      exact absurd this (by simp)
  have hgood := hs.good i t hi
  refine ⟨?_, ?_, ?_, hs.made, ?_, hs.atMost, ?_, ?_, ?_⟩
  · intro a b ta tb ha hb hca hcb
    rcases set_lookup _ _ _ _ _ _ hi ha with ⟨ea, _⟩ | ⟨_, ha2⟩
    · rcases set_lookup _ _ _ _ _ _ hi hb with ⟨eb, _⟩ | ⟨_, hb2⟩
      · rw [ea, eb]
      · rw [nocrit b tb hb2] at hcb
        exact absurd hcb (by simp)
    · rw [nocrit a ta ha2] at hca
      exact absurd hca (by simp)
  · intro _ _ _ _
    rfl
  · intro _
    exact ⟨i, _, set_lookup_self _ _ _ _ hi, rfl⟩
  · intro j tj hj
    rcases set_lookup _ _ _ _ _ _ hi hj with ⟨_, e⟩ | ⟨_, hj2⟩
    · rw [e]
      refine ⟨hgood.1, ?_⟩
      have := hgood.2
      rw [hpc] at this
      exact this
    · exact hs.good j tj hj2
  · intro hreq
    refine ⟨(hs.early hreq).1, ?_⟩
    intro j tj hj
    rcases set_lookup _ _ _ _ _ _ hi hj with ⟨_, e⟩ | ⟨_, hj2⟩
    · rw [e]; rfl
    · exact (hs.early hreq).2 j tj hj2
  · intro hl j tj hj
    rcases set_lookup _ _ _ _ _ _ hi hj with ⟨_, e⟩ | ⟨_, hj2⟩
    · rw [e]; rfl
    · exact hs.notYet hl j tj hj2
  · intro hreq hl
    obtain ⟨f, tf, hf, hfpc⟩ := hs.inFlight hreq hl
    have hfi : f ≠ i := by
      intro e
      rw [e, hi] at hf
      cases hf
      rw [hpc] at hfpc
      cases hfpc
    exact ⟨f, tf, by rw [set_lookup_other _ _ _ _ hfi]; exact hf, hfpc⟩

/-- The call number `i`, which holds the mutex, leaves with its mutex
released, having returned nil. -/
theorem Safe.release {k : String} {w : World} (hs : Safe k w) (i : Nat) (t : Task)
    (cache : InfoMap)
    (hi : w.tasks[i]? = some t) (hcrit : t.pc.critical = true)
    (hmade : ∃ entries, cache = InfoMap.made entries)
    (hentry : cache.lookup k ≠ none) (hnotEarly : t.pc.early = true → w.requests ≠ []) :
    Safe k { w with cache := cache, mutex := false,
                    tasks := w.tasks.set i { t with pc := Pc.returned none } } := by
  have hgood := hs.good i t hi
  refine ⟨?_, ?_, ?_, hmade, ?_, hs.atMost, ?_, ?_, ?_⟩
  · intro a b ta tb ha hb hca hcb
    rcases set_lookup _ _ _ _ _ _ hi ha with ⟨_, e⟩ | ⟨_, ha2⟩
    · rw [e] at hca
      exact absurd hca (by simp [Pc.critical])
    · rcases set_lookup _ _ _ _ _ _ hi hb with ⟨_, e⟩ | ⟨_, hb2⟩
      · rw [e] at hcb
        exact absurd hcb (by simp [Pc.critical])
      · exact hs.excl a b ta tb ha2 hb2 hca hcb
  · intro j tj hj hc
    rcases set_lookup _ _ _ _ _ _ hi hj with ⟨_, e⟩ | ⟨hne, hj2⟩
    · rw [e] at hc
      exact absurd hc (by simp [Pc.critical])
    · exact absurd (hs.excl j i tj t hj2 hi hc hcrit) hne
  · intro hm
    exact absurd hm (by simp)
  · intro j tj hj
    rcases set_lookup _ _ _ _ _ _ hi hj with ⟨_, e⟩ | ⟨_, hj2⟩
    · rw [e]
      exact ⟨hgood.1, rfl⟩
    · exact hs.good j tj hj2
  · intro hreq
    show cache.lookup k = none ∧ _
    by_cases he : t.pc.early = true
    · exact absurd hreq (hnotEarly he)
    · have := (hs.early hreq).2 i t hi
      exact absurd this he
  · intro hl
    exact absurd hl hentry
  · intro _ hl
    exact absurd hl hentry

/-- The call number `i`, which holds the mutex and has found no entry, sends
its request. -/
theorem Safe.request {k : String} {w : World} (hs : Safe k w) (i : Nat) (t : Task) (c : Caps)
    (hi : w.tasks[i]? = some t) (hpc : t.pc = Pc.locked c)
    (hmiss : w.cache.lookup (c.Node ++ "#" ++ c.Ver) = none) :
    Safe k { w with
      tasks := w.tasks.set i { t with pc := Pc.fetching (c.Node ++ "#" ++ c.Ver) },
      requests := w.requests ++ [{ node := c.Node ++ "#" ++ c.Ver, dest := t.p.From }] } := by
  have hgood := hs.good i t hi
  have hkey : c.Node ++ "#" ++ c.Ver = k := by
    have := hgood.2
    rw [hpc] at this
    simpa [Pc.good] using this
  have hcrit : t.pc.critical = true := by rw [hpc]; rfl
  have hnone : w.requests = [] := by
    by_contra hreq
    obtain ⟨f, tf, hf, hfpc⟩ := hs.inFlight hreq (hkey ▸ hmiss)
    have hfi : f = i := hs.excl f i tf t hf hi (by rw [hfpc]; rfl) hcrit
    rw [hfi, hi] at hf
    cases hf
    rw [hpc] at hfpc
    cases hfpc
  refine ⟨?_, ?_, ?_, hs.made, ?_, ?_, ?_, ?_, ?_⟩
  · intro a b ta tb ha hb hca hcb
    rcases set_lookup _ _ _ _ _ _ hi ha with ⟨ea, _⟩ | ⟨hna, ha2⟩
    · rcases set_lookup _ _ _ _ _ _ hi hb with ⟨eb, _⟩ | ⟨hnb, hb2⟩
      · rw [ea, eb]
      · exact absurd (hs.excl b i tb t hb2 hi hcb hcrit) hnb
    · exact absurd (hs.excl a i ta t ha2 hi hca hcrit) hna
  · intro _ _ _ _
    exact hs.held i t hi hcrit
  · intro _
    exact ⟨i, _, set_lookup_self _ _ _ _ hi, rfl⟩
  · intro j tj hj
    rcases set_lookup _ _ _ _ _ _ hi hj with ⟨_, e⟩ | ⟨_, hj2⟩
    · rw [e]
      exact ⟨hgood.1, by simp [Pc.good, hkey]⟩
    · exact hs.good j tj hj2
  · show (w.requests ++ [_]).length ≤ 1
    rw [hnone]
    simp
  · intro hreq
    exact absurd hreq (by simp)
  · intro hl j tj hj
    rcases set_lookup _ _ _ _ _ _ hi hj with ⟨_, e⟩ | ⟨_, hj2⟩
    · rw [e]; rfl
    · exact hs.notYet hl j tj hj2
  · intro _ _
    exact ⟨i, _, set_lookup_self _ _ _ _ hi, by rw [hkey]⟩

theorem step_absent (w : World) (i : Nat) (hi : w.tasks[i]? = none) : w.step i = w := by
  simp only [World.step, hi]

theorem step_blocked (w : World) (i : Nat) (t : Task) (c : Caps) (hi : w.tasks[i]? = some t)
    (hpc : t.pc = Pc.waiting c) (hm : w.mutex = true) : w.step i = w := by
  simp only [World.step, hi, hpc, hm, if_true]

theorem step_acquire (w : World) (i : Nat) (t : Task) (c : Caps) (hi : w.tasks[i]? = some t)
    (hpc : t.pc = Pc.waiting c) (hm : w.mutex = false) :
    w.step i = { w with mutex := true, tasks := w.tasks.set i { t with pc := Pc.locked c } } := by
  simp only [World.step, hi, hpc, hm, Bool.false_eq_true, if_false]

theorem step_hit (w : World) (i : Nat) (t : Task) (c : Caps) (x : Info)
    (hi : w.tasks[i]? = some t) (hpc : t.pc = Pc.locked c)
    (hl : w.cache.lookup (c.Node ++ "#" ++ c.Ver) = some x) :
    w.step i
      = { w with mutex := false, tasks := w.tasks.set i { t with pc := Pc.returned none } } := by
  simp only [World.step, hi, hpc, hl]

theorem step_miss (w : World) (i : Nat) (t : Task) (c : Caps)
    (hi : w.tasks[i]? = some t) (hpc : t.pc = Pc.locked c)
    (hl : w.cache.lookup (c.Node ++ "#" ++ c.Ver) = none) :
    w.step i
      = { w with
          tasks := w.tasks.set i { t with pc := Pc.fetching (c.Node ++ "#" ++ c.Ver) },
          requests := w.requests ++ [{ node := c.Node ++ "#" ++ c.Ver, dest := t.p.From }] } := by
  simp only [World.step, hi, hpc, hl]

theorem step_error (w : World) (i : Nat) (t : Task) (key : String) (err : Error)
    (hi : w.tasks[i]? = some t) (hpc : t.pc = Pc.fetching key)
    (hr : t.reply = Except.error err) :
    w.step i
      = { w with mutex := false,
                 tasks := w.tasks.set i { t with pc := Pc.returned (some err) } } := by
  simp only [World.step, hi, hpc, hr]

theorem step_store (w : World) (i : Nat) (t : Task) (key : String) (x : Info)
    (entries : String → Option Info)
    (hi : w.tasks[i]? = some t) (hpc : t.pc = Pc.fetching key)
    (hr : t.reply = Except.ok x) (hc : w.cache = InfoMap.made entries) :
    w.step i
      = { w with cache := InfoMap.made (fun k1 => if k1 = key then some x else entries k1),
                 mutex := false,
                 tasks := w.tasks.set i { t with pc := Pc.returned none } } := by
  simp only [World.step, hi, hpc, hr, hc, InfoMap.store]

theorem step_nil_store (w : World) (i : Nat) (t : Task) (key : String) (x : Info)
    (hi : w.tasks[i]? = some t) (hpc : t.pc = Pc.fetching key)
    (hr : t.reply = Except.ok x) (hc : w.cache = InfoMap.nilMap) :
    w.step i
      = { w with mutex := false, tasks := w.tasks.set i { t with pc := Pc.panicked } } := by
  simp only [World.step, hi, hpc, hr, hc, InfoMap.store]

theorem step_finished (w : World) (i : Nat) (t : Task) (hi : w.tasks[i]? = some t)
    (hpc : t.pc.finished = true) : w.step i = w := by
  cases h : t.pc with
  | returned err => simp only [World.step, hi, h]
  | panicked => simp only [World.step, hi, h]
  | waiting c => rw [h] at hpc; cases hpc
  | locked c => rw [h] at hpc; cases hpc
  | fetching key => rw [h] at hpc; cases hpc

/-- Every action of a call keeps what `Safe` says. -/
theorem safe_step {k : String} {w : World} (hs : Safe k w) (i : Nat) : Safe k (w.step i) := by
  cases hi : w.tasks[i]? with
  | none =>
    rw [step_absent w i hi]
    exact hs
  | some t =>
    have hgood := hs.good i t hi
    cases hpc : t.pc with
    | waiting c =>
      cases hm : w.mutex with
      | true =>
        rw [step_blocked w i t c hi hpc hm]
        exact hs
      | false =>
        rw [step_acquire w i t c hi hpc hm]
        exact Safe.acquire hs i t c hi hpc hm
    | locked c =>
      have hkey : c.Node ++ "#" ++ c.Ver = k := by
        have := hgood.2
        rw [hpc] at this
        simpa [Pc.good] using this
      cases hl : w.cache.lookup (c.Node ++ "#" ++ c.Ver) with
      | some x =>
        rw [step_hit w i t c x hi hpc hl]
        exact Safe.release hs i t w.cache hi (by rw [hpc]; rfl) hs.made
          (by rw [← hkey, hl]; simp)
          (by
            intro _ hreq
            have := (hs.early hreq).1
            rw [← hkey, hl] at this
            cases this)
      | none =>
        rw [step_miss w i t c hi hpc hl]
        exact Safe.request hs i t c hi hpc hl
    | fetching key =>
      have hkey : key = k := by
        have := hgood.2
        rw [hpc] at this
        simpa [Pc.good] using this
      obtain ⟨x, hx⟩ := hgood.1
      obtain ⟨entries, he⟩ := hs.made
      rw [step_store w i t key x entries hi hpc hx he]
      exact Safe.release hs i t
        (InfoMap.made (fun k1 => if k1 = key then some x else entries k1)) hi
        (by rw [hpc]; rfl) ⟨_, rfl⟩ (by simp [InfoMap.lookup, hkey])
        (by
          intro hearly
          rw [hpc] at hearly
          cases hearly)
    | returned err =>
      rw [step_finished w i t hi (by rw [hpc]; rfl)]
      exact hs
    | panicked =>
      rw [step_finished w i t hi (by rw [hpc]; rfl)]
      exact hs

/-- Every schedule keeps what `Safe` says. -/
theorem safe_run {k : String} (schedule : List Nat) :
    ∀ {w : World}, Safe k w → Safe k (w.run schedule) := by
  induction schedule with
  | nil => exact fun hs => hs
  | cons i rest ih => exact fun hs => ih (safe_step hs i)

/-- The handler with a made cache that has no entry for `k` and calls that all
advertise `k` and will get a reply starts in a state of which `Safe` holds. -/
theorem safe_start (k : String) (entries : String → Option Info) (tasks : List Task)
    (hmiss : entries k = none)
    (htasks : ∀ t ∈ tasks,
      (∃ c, t.pc = Pc.waiting c ∧ c.Node ++ "#" ++ c.Ver = k) ∧ ∃ x, t.reply = Except.ok x) :
    Safe k (World.start (InfoMap.made entries) tasks) := by
  have hmem : ∀ (j : Nat) (t : Task), tasks[j]? = some t → t ∈ tasks :=
    fun j t hj => List.mem_iff_getElem?.mpr ⟨j, hj⟩
  have hwait : ∀ (j : Nat) (t : Task), tasks[j]? = some t → ∃ c, t.pc = Pc.waiting c :=
    fun j t hj => by
      obtain ⟨⟨c, hc, _⟩, _⟩ := htasks t (hmem j t hj)
      exact ⟨c, hc⟩
  refine ⟨?_, ?_, ?_, ⟨entries, rfl⟩, ?_, ?_, ?_, ?_, ?_⟩
  · intro i j ti tj hi _ hci _
    obtain ⟨c, hc⟩ := hwait i ti hi
    rw [hc] at hci
    cases hci
  · intro i t hi hc
    obtain ⟨c, hc2⟩ := hwait i t hi
    rw [hc2] at hc
    cases hc
  · intro hm
    cases hm
  · intro j t hj
    obtain ⟨⟨c, hc, hk⟩, hx⟩ := htasks t (hmem j t hj)
    refine ⟨hx, ?_⟩
    rw [hc]
    simp [Pc.good, hk]
  · exact Nat.zero_le 1
  · intro _
    refine ⟨hmiss, ?_⟩
    intro j t hj
    obtain ⟨c, hc⟩ := hwait j t hj
    rw [hc]
    rfl
  · intro _ j t hj
    obtain ⟨c, hc⟩ := hwait j t hj
    rw [hc]
    rfl
  · intro hreq
    exact absurd rfl hreq

theorem step_others (w : World) (i j : Nat) (hij : j ≠ i) :
    (w.step i).tasks[j]? = w.tasks[j]? := by
  cases hi : w.tasks[i]? with
  | none => rw [step_absent w i hi]
  | some t =>
    cases hpc : t.pc with
    | waiting c =>
      cases hm : w.mutex with
      | true => rw [step_blocked w i t c hi hpc hm]
      | false =>
        rw [step_acquire w i t c hi hpc hm]
        exact set_lookup_other _ _ _ _ hij
    | locked c =>
      cases hl : w.cache.lookup (c.Node ++ "#" ++ c.Ver) with
      | some x =>
        rw [step_hit w i t c x hi hpc hl]
        exact set_lookup_other _ _ _ _ hij
      | none =>
        rw [step_miss w i t c hi hpc hl]
        exact set_lookup_other _ _ _ _ hij
    | fetching key =>
      cases hr : t.reply with
      | error err =>
        rw [step_error w i t key err hi hpc hr]
        exact set_lookup_other _ _ _ _ hij
      | ok x =>
        cases hc : w.cache with
        | nilMap =>
          rw [step_nil_store w i t key x hi hpc hr hc]
          exact set_lookup_other _ _ _ _ hij
        | made entries =>
          rw [step_store w i t key x entries hi hpc hr hc]
          exact set_lookup_other _ _ _ _ hij
    | returned err => rw [step_finished w i t hi (by rw [hpc]; rfl)]
    | panicked => rw [step_finished w i t hi (by rw [hpc]; rfl)]

/-- A call that has returned or panicked stays as it is, whoever acts. -/
theorem step_keeps_finished (w : World) (i j : Nat) (t : Task) (hj : w.tasks[j]? = some t)
    (hf : t.pc.finished = true) : (w.step i).tasks[j]? = some t := by
  by_cases hij : j = i
  · subst hij
    rw [step_finished w j t hj hf]
    exact hj
  · rw [step_others w i j hij]
    exact hj

theorem run_keeps_finished (schedule : List Nat) : ∀ (w : World) (j : Nat) (t : Task),
    w.tasks[j]? = some t → t.pc.finished = true → (w.run schedule).tasks[j]? = some t := by
  induction schedule with
  | nil => exact fun _ _ _ hj _ => hj
  | cons i rest ih =>
    exact fun w j t hj hf => ih (w.step i) j t (step_keeps_finished w i j t hj hf) hf

/-- A call that can act, because the mutex is free or its own, comes one
action closer to its return. -/
theorem step_progress {k : String} {w : World} (hs : Safe k w) (i : Nat) (t : Task)
    (hi : w.tasks[i]? = some t) (hfree : w.mutex = false ∨ t.pc.critical = true) :
    ∃ t1, (w.step i).tasks[i]? = some t1 ∧ t1.pc.rank ≤ t.pc.rank - 1 ∧
      ((w.step i).mutex = false ∨ t1.pc.critical = true) := by
  have hgood := hs.good i t hi
  cases hpc : t.pc with
  | waiting c =>
    have hm : w.mutex = false := by
      rcases hfree with h | h
      · exact h
      · rw [hpc] at h
        cases h
    rw [step_acquire w i t c hi hpc hm]
    exact ⟨_, set_lookup_self _ _ _ _ hi, by simp [Pc.rank], Or.inr rfl⟩
  | locked c =>
    cases hl : w.cache.lookup (c.Node ++ "#" ++ c.Ver) with
    | some x =>
      rw [step_hit w i t c x hi hpc hl]
      exact ⟨_, set_lookup_self _ _ _ _ hi, by simp [Pc.rank], Or.inl rfl⟩
    | none =>
      rw [step_miss w i t c hi hpc hl]
      exact ⟨_, set_lookup_self _ _ _ _ hi, by simp [Pc.rank], Or.inr rfl⟩
  | fetching key =>
    obtain ⟨x, hx⟩ := hgood.1
    obtain ⟨entries, he⟩ := hs.made
    rw [step_store w i t key x entries hi hpc hx he]
    exact ⟨_, set_lookup_self _ _ _ _ hi, by simp [Pc.rank], Or.inl rfl⟩
  | returned err =>
    rw [step_finished w i t hi (by rw [hpc]; rfl)]
    refine ⟨t, hi, by rw [hpc]; simp [Pc.rank], ?_⟩
    rcases hfree with h | h
    · exact Or.inl h
    · rw [hpc] at h
      cases h
  | panicked =>
    have := hgood.2
    rw [hpc] at this
    cases this

/-- Three actions bring a call that can act to its return, with the mutex
released. -/
theorem finish_task {k : String} {w : World} (hs : Safe k w) (i : Nat) (t : Task)
    (hi : w.tasks[i]? = some t) (hfree : w.mutex = false ∨ t.pc.critical = true) :
    (w.run [i, i, i]).mutex = false ∧
      ∃ t3, (w.run [i, i, i]).tasks[i]? = some t3 ∧ t3.pc.finished = true := by
  have hrank : t.pc.rank ≤ 3 := by cases t.pc <;> simp [Pc.rank]
  obtain ⟨t1, h1, r1, f1⟩ := step_progress hs i t hi hfree
  obtain ⟨t2, h2, r2, f2⟩ := step_progress (safe_step hs i) i t1 h1 f1
  obtain ⟨t3, h3, r3, f3⟩ := step_progress (safe_step (safe_step hs i) i) i t2 h2 f2
  have hzero : t3.pc.rank = 0 := by omega
  have hfin : t3.pc.finished = true := by
    cases hpc : t3.pc with
    | waiting c => rw [hpc] at hzero; simp [Pc.rank] at hzero
    | locked c => rw [hpc] at hzero; simp [Pc.rank] at hzero
    | fetching key => rw [hpc] at hzero; simp [Pc.rank] at hzero
    | returned err => rfl
    | panicked => rfl
  refine ⟨?_, t3, h3, hfin⟩
  rcases f3 with h | h
  · exact h
  · cases hpc : t3.pc with
    | waiting c => rw [hpc] at hzero; simp [Pc.rank] at hzero
    | locked c => rw [hpc] at hzero; simp [Pc.rank] at hzero
    | fetching key => rw [hpc] at hzero; simp [Pc.rank] at hzero
    | returned err => rw [hpc] at h; cases h
    | panicked => rw [hpc] at h; cases h

theorem run_append (a b : List Nat) : ∀ (w : World), w.run (a ++ b) = (w.run a).run b := by
  induction a with
  | nil => exact fun _ => rfl
  | cons i rest ih => exact fun w => ih (w.step i)

/-- Whatever the cache and the tasks, a change of one call that takes the
mutex when it is free, keeps it, or gives it back keeps `Exclusive`. -/
theorem Exclusive.update {w : World} (hs : Exclusive w) (i : Nat) (t : Task) (pc1 : Pc)
    (cache : InfoMap) (mutex : Bool) (requests : List Request)
    (hi : w.tasks[i]? = some t)
    (henter : pc1.critical = true → mutex = true ∧ (t.pc.critical = true ∨ w.mutex = false))
    (hleave : pc1.critical = false → t.pc.critical = true) :
    Exclusive { cache := cache, mutex := mutex,
                tasks := w.tasks.set i { t with pc := pc1 }, requests := requests } := by
  have alone : pc1.critical = true → ∀ (j : Nat) (tj : Task), j ≠ i → w.tasks[j]? = some tj →
      tj.pc.critical = true → False := by
    intro hc j tj hji hj hcj
    rcases (henter hc).2 with h | h
    · exact hji (hs.excl j i tj t hj hi hcj h)
    · have := hs.held j tj hj hcj
      rw [h] at this
      cases this
  constructor
  · intro a b ta tb ha hb hca hcb
    rcases set_lookup _ _ _ _ _ _ hi ha with ⟨ea, ea2⟩ | ⟨hna, ha2⟩
    · rcases set_lookup _ _ _ _ _ _ hi hb with ⟨eb, _⟩ | ⟨hnb, hb2⟩
      · rw [ea, eb]
      · rw [ea2] at hca
        exact (alone hca b tb hnb hb2 hcb).elim
    · rcases set_lookup _ _ _ _ _ _ hi hb with ⟨_, eb2⟩ | ⟨_, hb2⟩
      · rw [eb2] at hcb
        exact (alone hcb a ta hna ha2 hca).elim
      · exact hs.excl a b ta tb ha2 hb2 hca hcb
  · intro j tj hj hc
    rcases set_lookup _ _ _ _ _ _ hi hj with ⟨_, e⟩ | ⟨hne, hj2⟩
    · rw [e] at hc
      exact (henter hc).1
    · cases hc1 : pc1.critical with
      | true => exact (alone hc1 j tj hne hj2 hc).elim
      | false => exact absurd (hs.excl j i tj t hj2 hi hc (hleave hc1)) hne

/-- Every action of a call keeps `Exclusive`. -/
theorem exclusive_step {w : World} (hs : Exclusive w) (i : Nat) : Exclusive (w.step i) := by
  cases hi : w.tasks[i]? with
  | none =>
    rw [step_absent w i hi]
    exact hs
  | some t =>
    cases hpc : t.pc with
    | waiting c =>
      cases hm : w.mutex with
      | true =>
        rw [step_blocked w i t c hi hpc hm]
        exact hs
      | false =>
        rw [step_acquire w i t c hi hpc hm]
        exact Exclusive.update hs i t (Pc.locked c) w.cache true w.requests hi
          (fun _ => ⟨rfl, Or.inr hm⟩) (fun h => by cases h)
    | locked c =>
      have hcrit : t.pc.critical = true := by rw [hpc]; rfl
      cases hl : w.cache.lookup (c.Node ++ "#" ++ c.Ver) with
      | some x =>
        rw [step_hit w i t c x hi hpc hl]
        exact Exclusive.update hs i t (Pc.returned none) w.cache false w.requests hi
          (fun h => by cases h) (fun _ => hcrit)
      | none =>
        rw [step_miss w i t c hi hpc hl]
        exact Exclusive.update hs i t (Pc.fetching (c.Node ++ "#" ++ c.Ver)) w.cache w.mutex _ hi
          (fun _ => ⟨hs.held i t hi hcrit, Or.inl hcrit⟩) (fun h => by cases h)
    | fetching key =>
      have hcrit : t.pc.critical = true := by rw [hpc]; rfl
      cases hr : t.reply with
      | error err =>
        rw [step_error w i t key err hi hpc hr]
        exact Exclusive.update hs i t _ w.cache false w.requests hi
          (fun h => by cases h) (fun _ => hcrit)
      | ok x =>
        cases hc : w.cache with
        | nilMap =>
          rw [step_nil_store w i t key x hi hpc hr hc]
          exact Exclusive.update hs i t Pc.panicked w.cache false w.requests hi
            (fun h => by cases h) (fun _ => hcrit)
        | made entries =>
          rw [step_store w i t key x entries hi hpc hr hc]
          exact Exclusive.update hs i t (Pc.returned none) _ false w.requests hi
            (fun h => by cases h) (fun _ => hcrit)
    | returned err =>
      rw [step_finished w i t hi (by rw [hpc]; rfl)]
      exact hs
    | panicked =>
      rw [step_finished w i t hi (by rw [hpc]; rfl)]
      exact hs

theorem exclusive_run (schedule : List Nat) :
    ∀ {w : World}, Exclusive w → Exclusive (w.run schedule) := by
  induction schedule with
  | nil => exact fun hs => hs
  | cons i rest ih => exact fun hs => ih (exclusive_step hs i)

theorem exclusive_start (cache : InfoMap) (tasks : List Task)
    (hwait : ∀ t ∈ tasks, ∃ c, t.pc = Pc.waiting c) :
    Exclusive (World.start cache tasks) := by
  have none : ∀ (j : Nat) (t : Task), tasks[j]? = some t → t.pc.critical = true → False := by
    intro j t hj hc
    obtain ⟨c, hpc⟩ := hwait t (List.mem_iff_getElem?.mpr ⟨j, hj⟩)
    rw [hpc] at hc
    cases hc
  exact ⟨fun i _ ti _ hi _ hci _ => (none i ti hi hci).elim,
    fun i t hi hc => (none i t hi hc).elim⟩

theorem step_length (w : World) (i : Nat) : (w.step i).tasks.length = w.tasks.length := by
  cases hi : w.tasks[i]? with
  | none => rw [step_absent w i hi]
  | some t =>
    cases hpc : t.pc with
    | waiting c =>
      cases hm : w.mutex with
      | true => rw [step_blocked w i t c hi hpc hm]
      | false =>
        rw [step_acquire w i t c hi hpc hm]
        exact List.length_set _ _ _
    | locked c =>
      cases hl : w.cache.lookup (c.Node ++ "#" ++ c.Ver) with
      | some x =>
        rw [step_hit w i t c x hi hpc hl]
        exact List.length_set _ _ _
      | none =>
        rw [step_miss w i t c hi hpc hl]
        exact List.length_set _ _ _
    | fetching key =>
      cases hr : t.reply with
      | error err =>
        rw [step_error w i t key err hi hpc hr]
        exact List.length_set _ _ _
      | ok x =>
        cases hc : w.cache with
        | nilMap =>
          rw [step_nil_store w i t key x hi hpc hr hc]
          exact List.length_set _ _ _
        | made entries =>
          rw [step_store w i t key x entries hi hpc hr hc]
          exact List.length_set _ _ _
    | returned err => rw [step_finished w i t hi (by rw [hpc]; rfl)]
    | panicked => rw [step_finished w i t hi (by rw [hpc]; rfl)]

theorem run_length (schedule : List Nat) :
    ∀ (w : World), (w.run schedule).tasks.length = w.tasks.length := by
  induction schedule with
  | nil => exact fun _ => rfl
  | cons i rest ih => exact fun w => (ih (w.step i)).trans (step_length w i)

/-- Letting the listed calls act one after the other, three actions each,
from a moment at which the mutex is free, brings each of them to its return
and leaves the mutex free. -/
theorem serial_finishes {k : String} : ∀ (order : List Nat) (w : World), Safe k w →
    w.mutex = false →
    (w.run (serial order)).mutex = false ∧
      ∀ i ∈ order, ∀ (t : Task), (w.run (serial order)).tasks[i]? = some t →
        t.pc.finished = true := by
  intro order
  induction order with
  | nil => exact fun w _ hm => ⟨hm, fun i hi => absurd hi (List.not_mem_nil i)⟩
  | cons i rest ih =>
    intro w hs hm
    have hsplit : w.run (serial (i :: rest)) = (w.run [i, i, i]).run (serial rest) := rfl
    have hs3 : Safe k (w.run [i, i, i]) := safe_run [i, i, i] hs
    rw [hsplit]
    cases hi : w.tasks[i]? with
    | none =>
      have hsame : w.run [i, i, i] = w := by
        show ((w.step i).step i).step i = w
        rw [step_absent w i hi, step_absent w i hi, step_absent w i hi]
      rw [hsame]
      obtain ⟨h1, h2⟩ := ih w hs hm
      refine ⟨h1, ?_⟩
      intro j hj t hjt
      rcases List.mem_cons.mp hj with e | e
      · have hlen := run_length (serial rest) w
        have hlt : i < w.tasks.length := by
          rw [e] at hjt
          have := (List.getElem?_eq_some.mp hjt).1
          omega
        rw [List.getElem?_eq_none_iff] at hi
        omega
      · exact h2 j e t hjt
    | some t0 =>
      obtain ⟨hm3, t3, ht3, hf3⟩ := finish_task hs i t0 hi (Or.inl hm)
      obtain ⟨h1, h2⟩ := ih (w.run [i, i, i]) hs3 hm3
      refine ⟨h1, ?_⟩
      intro j hj t hjt
      rcases List.mem_cons.mp hj with e | e
      · have := run_keeps_finished (serial rest) (w.run [i, i, i]) i t3 ht3 hf3
        rw [e, this] at hjt
        cases hjt
        exact hf3
      · exact h2 j e t hjt

/-- From every moment the calls can be brought to their return: no call is
blocked for good. -/
theorem Safe.completes {k : String} {w : World} (hs : Safe k w) :
    ∃ more, ∀ t ∈ (w.run more).tasks, t.pc = Pc.returned none := by
  have fromFree : ∀ (v : World), Safe k v → v.mutex = false →
      ∀ t ∈ (v.run (serial (List.range v.tasks.length))).tasks, t.pc = Pc.returned none := by
    intro v hv hm t ht
    obtain ⟨j, hj⟩ := List.mem_iff_getElem?.mp ht
    have hlt : j < v.tasks.length := by
      have := (List.getElem?_eq_some.mp hj).1
      rw [run_length] at this
      exact this
    have hfin := (serial_finishes (List.range v.tasks.length) v hv hm).2 j
      (List.mem_range.mpr hlt) t hj
    have hgood := ((safe_run (serial (List.range v.tasks.length)) hv).good j t hj).2
    cases hpc : t.pc with
    | waiting c => rw [hpc] at hfin; cases hfin
    | locked c => rw [hpc] at hfin; cases hfin
    | fetching key => rw [hpc] at hfin; cases hfin
    | panicked => rw [hpc] at hgood; cases hgood
    | returned err =>
      rw [hpc] at hgood
      cases err with
      | none => rfl
      | some e => cases hgood
  cases hm : w.mutex with
  | false => exact ⟨_, fromFree w hs hm⟩
  | true =>
    obtain ⟨f, tf, hf, hcrit⟩ := hs.owner hm
    obtain ⟨hm3, _⟩ := finish_task hs f tf hf (Or.inr hcrit)
    refine ⟨[f, f, f] ++ serial (List.range (w.run [f, f, f]).tasks.length), ?_⟩
    rw [run_append]
    exact fromFree (w.run [f, f, f]) (safe_run [f, f, f] hs) hm3

/-- A call that acts alone takes three actions to do what `resolve` does: the
same requests, the same cache, the same returned value or panic. -/
theorem run_alone_eq_resolve (cache : InfoMap) (p : Presence) (reply : Except Error Info)
    (c : Caps) :
    ((World.start cache [{ p := p, reply := reply, pc := Pc.waiting c }]).run [0, 0, 0]).requests
        = (resolve (fun _ _ => reply) { cache := cache } p c).requests ∧
      ((World.start cache [{ p := p, reply := reply, pc := Pc.waiting c }]).run [0, 0, 0]).cache
        = ((resolve (fun _ _ => reply) { cache := cache } p c).handler { cache := cache }).cache ∧
      ((World.start cache [{ p := p, reply := reply, pc := Pc.waiting c }]).run [0, 0, 0]).mutex
        = false ∧
      (((World.start cache [{ p := p, reply := reply, pc := Pc.waiting c }]).run
          [0, 0, 0]).tasks.map (fun t => t.pc))
        = [match resolve (fun _ _ => reply) { cache := cache } p c with
           | Outcome.returned err _ _ => Pc.returned err
           | Outcome.panicked _ => Pc.panicked] := by
  cases hl : cache.lookup (c.Node ++ "#" ++ c.Ver) with
  | some x =>
    simp [World.run, World.step, World.start, resolve, hl, Outcome.requests, Outcome.handler]
  | none =>
    cases reply with
    | error err =>
      simp [World.run, World.step, World.start, resolve, hl, Outcome.requests, Outcome.handler]
    | ok info =>
      cases cache with
      | nilMap =>
        simp [World.run, World.step, World.start, resolve, InfoMap.lookup, InfoMap.store,
          Outcome.requests, Outcome.handler]
      | made entries =>
        have hl2 : entries (c.Node ++ "#" ++ c.Ver) = none := hl
        simp [World.run, World.step, World.start, resolve, InfoMap.lookup, InfoMap.store, hl2,
          Outcome.requests, Outcome.handler]

theorem early_not_finished (pc : Pc) (h1 : pc.early = true) (h2 : pc.finished = true) :
    False := by
  cases pc <;> simp [Pc.early, Pc.finished] at h1 h2

/-- C15, amended: whatever the cache, the calls and the replies of the peer,
at every moment of every schedule at most one call has a request in flight.
When the cache has been made and has no entry for the key `k`, all calls
advertise `k` and the peer answers every request, then at every moment of
every schedule at most one request has been sent, no call has panicked and
every call that has returned has returned nil; when all calls have returned,
exactly one request has been sent and the key has its entry; and from every
moment the calls can all be brought to their return. -/
theorem C15_one_fetch_under_the_mutex (cache : InfoMap) (tasks : List Task)
    (schedule : List Nat) (hwait : ∀ t ∈ tasks, ∃ c, t.pc = Pc.waiting c) :
    (∀ (i j : Nat) (ti tj : Task) (ki kj : String),
        ((World.start cache tasks).run schedule).tasks[i]? = some ti →
        ((World.start cache tasks).run schedule).tasks[j]? = some tj →
        ti.pc = Pc.fetching ki → tj.pc = Pc.fetching kj → i = j) ∧
      ∀ (k : String) (entries : String → Option Info),
        cache = InfoMap.made entries → entries k = none →
        (∀ t ∈ tasks, (∀ c, t.pc = Pc.waiting c → c.Node ++ "#" ++ c.Ver = k) ∧
          ∃ x, t.reply = Except.ok x) →
        ((World.start cache tasks).run schedule).requests.length ≤ 1 ∧
        (∀ t ∈ ((World.start cache tasks).run schedule).tasks, t.pc ≠ Pc.panicked ∧
          ∀ err, t.pc = Pc.returned err → err = none) ∧
        ((∀ t ∈ ((World.start cache tasks).run schedule).tasks, t.pc.finished = true) →
          tasks ≠ [] →
          ((World.start cache tasks).run schedule).requests.length = 1 ∧
          ∃ x, ((World.start cache tasks).run schedule).cache.lookup k = some x) ∧
        ∃ more, ∀ t ∈ (((World.start cache tasks).run schedule).run more).tasks,
          t.pc = Pc.returned none := by
  constructor
  · intro i j ti tj ki kj hi hj hpi hpj
    have hex := exclusive_run schedule (exclusive_start cache tasks hwait)
    exact hex.excl i j ti tj hi hj (by rw [hpi]; rfl) (by rw [hpj]; rfl)
  · intro k entries hc hmiss hkeys
    subst hc
    have hstart : Safe k (World.start (InfoMap.made entries) tasks) := by
      apply safe_start k entries tasks hmiss
      intro t ht
      obtain ⟨c, hpc⟩ := hwait t ht
      exact ⟨⟨c, hpc, (hkeys t ht).1 c hpc⟩, (hkeys t ht).2⟩
    have hs := safe_run schedule hstart
    refine ⟨hs.atMost, ?_, ?_, hs.completes⟩
    · intro t ht
      obtain ⟨j, hj⟩ := List.mem_iff_getElem?.mp ht
      have hgood := (hs.good j t hj).2
      constructor
      · intro hp
        rw [hp] at hgood
        cases hgood
      · intro err hp
        rw [hp] at hgood
        cases err with
        | none => rfl
        | some e => cases hgood
    · intro hall hne
      have hlen := run_length schedule (World.start (InfoMap.made entries) tasks)
      have hpos : 0 < ((World.start (InfoMap.made entries) tasks).run schedule).tasks.length := by
        rw [hlen]
        exact List.length_pos.mpr hne
      have h0 : ((World.start (InfoMap.made entries) tasks).run schedule).tasks[0]?
          = some (((World.start (InfoMap.made entries) tasks).run schedule).tasks[0]) :=
        List.getElem?_eq_getElem hpos
      have hfin := hall _ (List.getElem_mem hpos)
      constructor
      · have hreq : ((World.start (InfoMap.made entries) tasks).run schedule).requests ≠ [] := by
          intro hempty
          have hearly := (hs.early hempty).2 0 _ h0
          exact early_not_finished _ hearly hfin
        have hle := hs.atMost
        have hp := List.length_pos.mpr hreq
        omega
      · cases hl : ((World.start (InfoMap.made entries) tasks).run schedule).cache.lookup k with
        | some x => exact ⟨x, rfl⟩
        | none =>
          have := hs.notYet hl 0 _ h0
          rw [hfin] at this
          cases this

/-- C15, amended, at an input: three concurrent calls that advertise the
example capabilities, on a made cache without entries, with a peer that
answers, in an interleaved schedule. -/
theorem C15_one_fetch_under_the_mutex_witness :
    (∀ t ∈ [exampleTask (Except.ok pingBot), exampleTask (Except.ok pingBot),
        exampleTask (Except.ok softwareInfo)], ∃ c, t.pc = Pc.waiting c) ∧
      ((World.start emptyCache.cache
          [exampleTask (Except.ok pingBot), exampleTask (Except.ok pingBot),
           exampleTask (Except.ok softwareInfo)]).run
          [2, 0, 1, 2, 1, 0, 2, 2, 0, 1, 0, 0, 1, 1, 1]).requests.length ≤ 1 ∧
      ((World.start emptyCache.cache
          [exampleTask (Except.ok pingBot), exampleTask (Except.ok pingBot),
           exampleTask (Except.ok softwareInfo)]).run
          [2, 0, 1, 2, 1, 0, 2, 2, 0, 1, 0, 0, 1, 1, 1]).requests
        = [{ node := "https://example/client#ABC123==", dest := juliet }] ∧
      (((World.start emptyCache.cache
          [exampleTask (Except.ok pingBot), exampleTask (Except.ok pingBot),
           exampleTask (Except.ok softwareInfo)]).run
          [2, 0, 1, 2, 1, 0, 2, 2, 0, 1, 0, 0, 1, 1, 1]).tasks.map (fun t => t.pc))
        = [Pc.returned none, Pc.returned none, Pc.returned none] := by
  have hwait : ∀ t ∈ [exampleTask (Except.ok pingBot), exampleTask (Except.ok pingBot),
      exampleTask (Except.ok softwareInfo)], ∃ c, t.pc = Pc.waiting c := by
    intro t ht
    simp only [List.mem_cons, List.mem_singleton, List.not_mem_nil, or_false] at ht
    rcases ht with h | h | h <;> exact ⟨exampleCaps, by rw [h]; rfl⟩
  refine ⟨hwait, ?_, rfl, rfl⟩
  refine ((C15_one_fetch_under_the_mutex emptyCache.cache _
    [2, 0, 1, 2, 1, 0, 2, 2, 0, 1, 0, 0, 1, 1, 1] hwait).2
    "https://example/client#ABC123==" (fun _ => none) rfl rfl ?_).1
  intro t ht
  simp only [List.mem_cons, List.mem_singleton, List.not_mem_nil, or_false] at ht
  rcases ht with h | h | h
  · rw [h]
    refine ⟨?_, pingBot, rfl⟩
    intro c hc
    cases hc
    rfl
  · rw [h]
    refine ⟨?_, pingBot, rfl⟩
    intro c hc
    cases hc
    rfl
  · rw [h]
    refine ⟨?_, softwareInfo, rfl⟩
    intro c hc
    cases hc
    rfl

/-! ## The archive query -/

/-- C17: whatever type the IQ has, `FetchIQ` hands the same request to the
session and returns the same; the request has type "set" and the other
attributes of the IQ as they were given; and `Fetch` is `FetchIQ` with the IQ
whose only set field is `To`. -/
theorem C17_fetchIQ_ignores_the_type {PagingSet : Type} (RandomID : String)
    (UnmarshalIQ : Sent → PagingSet × Option Error) (filter : Query) (iq : IQ) (typ : String)
    (dest : JID) :
    FetchIQ RandomID UnmarshalIQ filter { iq with Type_ := typ }
        = FetchIQ RandomID UnmarshalIQ filter iq ∧
      (FetchIQ RandomID UnmarshalIQ filter iq).1.iq.Type_ = "set" ∧
      (FetchIQ RandomID UnmarshalIQ filter iq).1.iq.To = iq.To ∧
      (FetchIQ RandomID UnmarshalIQ filter iq).1.iq.ID = iq.ID ∧
      (FetchIQ RandomID UnmarshalIQ filter iq).1.iq.From = iq.From ∧
      (FetchIQ RandomID UnmarshalIQ filter iq).1.iq.Lang = iq.Lang ∧
      (FetchIQ RandomID UnmarshalIQ filter iq).2
        = UnmarshalIQ (FetchIQ RandomID UnmarshalIQ filter iq).1 ∧
      Fetch RandomID UnmarshalIQ filter dest
        = FetchIQ RandomID UnmarshalIQ filter
            { ID := "", To := dest, From := zeroJID, Lang := "", Type_ := "" } ∧
      (Fetch RandomID UnmarshalIQ filter dest).1.iq
        = { ID := "", To := dest, From := zeroJID, Lang := "", Type_ := "set" } :=
  ⟨rfl, rfl, rfl, rfl, rfl, rfl, rfl, rfl, rfl⟩

/-! ## The session configuration -/

/-- C18: `NewClientConfig(origin)` gives a configuration with S2S false, the
given origin, the location `origin.Domain()` and the connection type
"xmpp-client"; `NewServerConfig(location, origin)` gives one with S2S true,
the given location and origin and the connection type "xmpp-server"; both
have the default version and a feature map that is made and empty. -/
theorem C18_new_configurations {StreamFeature TLS : Type} (Domain : Option JID → Option JID)
    (DefaultVersion : Version) (location origin : Option JID) :
    ((NewClientConfig Domain DefaultVersion origin : Config StreamFeature TLS).S2S = false ∧
      (NewClientConfig Domain DefaultVersion origin : Config StreamFeature TLS).Origin = origin ∧
      (NewClientConfig Domain DefaultVersion origin : Config StreamFeature TLS).Location
        = Domain origin ∧
      (NewClientConfig Domain DefaultVersion origin : Config StreamFeature TLS).connType
        = "xmpp-client" ∧
      (NewClientConfig Domain DefaultVersion origin : Config StreamFeature TLS).Version
        = DefaultVersion ∧
      (NewClientConfig Domain DefaultVersion origin : Config StreamFeature TLS).Features
        = some []) ∧
    ((NewServerConfig DefaultVersion location origin : Config StreamFeature TLS).S2S = true ∧
      (NewServerConfig DefaultVersion location origin : Config StreamFeature TLS).Location
        = location ∧
      (NewServerConfig DefaultVersion location origin : Config StreamFeature TLS).Origin
        = origin ∧
      (NewServerConfig DefaultVersion location origin : Config StreamFeature TLS).connType
        = "xmpp-server" ∧
      (NewServerConfig DefaultVersion location origin : Config StreamFeature TLS).Version
        = DefaultVersion ∧
      (NewServerConfig DefaultVersion location origin : Config StreamFeature TLS).Features
        = some []) :=
  ⟨⟨rfl, rfl, rfl, rfl, rfl, rfl⟩, ⟨rfl, rfl, rfl, rfl, rfl, rfl⟩⟩

/-! ## The cache key -/

theorem key_data (c : Caps) : c.key.data = c.Node.data ++ keySeparator :: c.Ver.data := by
  simp only [Caps.key, String.data_append, List.append_assoc]
  rfl

/-- C19: two advertisements whose Ver is free of the character `#` have the
same cache key only if they have the same Node and the same Ver, also when a
Node holds a `#`. -/
theorem C19_key_separates_advertisements (c1 c2 : Caps)
    (h1 : free keySeparator c1.Ver = true) (h2 : free keySeparator c2.Ver = true)
    (hkey : c1.Node ++ "#" ++ c1.Ver = c2.Node ++ "#" ++ c2.Ver) :
    c1.key = c2.key ∧ c1.Node = c2.Node ∧ c1.Ver = c2.Ver := by
  have hk : c1.key = c2.key := hkey
  have hd := congrArg String.data hk
  rw [key_data, key_data] at hd
  have hr := congrArg List.reverse hd
  simp only [List.reverse_append, List.reverse_cons, List.append_assoc,
    List.singleton_append] at hr
  have f1 : keySeparator ∉ c1.Ver.data.reverse := by
    rw [List.mem_reverse]
    exact (free_iff _ _).mp h1
  have f2 : keySeparator ∉ c2.Ver.data.reverse := by
    rw [List.mem_reverse]
    exact (free_iff _ _).mp h2
  have hsplit := split_at_char keySeparator _ _ _ _ f1 f2 hr
  exact ⟨hk, String.ext (List.reverse_injective hsplit.2),
    String.ext (List.reverse_injective hsplit.1)⟩

/-- C19 at an input: two advertisements with a `#` in their Node that differ
in the hash algorithm only. -/
theorem C19_key_separates_advertisements_witness :
    free keySeparator fragmentCaps.Ver = true ∧
      fragmentCaps.key = "https://example/client#beta#ABC123==" ∧
      fragmentCaps.Node = fragmentCapsOther.Node ∧ fragmentCaps.Ver = fragmentCapsOther.Ver :=
  ⟨by decide, by decide,
    (C19_key_separates_advertisements fragmentCaps fragmentCapsOther (by decide) (by decide)
      (by decide)).2⟩

/-- Without the condition on Ver the key does not separate: a `#` can move
from the Node into the Ver. -/
theorem key_collides_when_ver_has_separator :
    (Caps.mk 5 "a" "b#c").key = (Caps.mk 5 "a#b" "c").key := by
  decide

/-- No byte of a standard base64 encoding is the character `#`. -/
theorem base64.Encode_no_separator (x : List Nat) :
    free keySeparator (stringOf (base64.StdEncoding.Encode x)) = true := by
  rw [free_iff]
  intro hmem
  simp only [stringOf, List.mem_map] at hmem
  obtain ⟨b, hb, hc⟩ := hmem
  have key : ∀ v < 64, base64.encode v ≠ 35 := by decide
  have hof : ∀ n, n < 128 → Char.ofNat n = keySeparator → n = 35 := by decide
  have hb35 : b = 35 := hof b (base64.Encode_ascii x b hb) hc
  subst hb35
  have hpad : base64.StdPadding ≠ 35 := by decide
  have hall : ∀ (y : List Nat), 35 ∉ base64.StdEncoding.Encode y := by
    intro y
    induction y using base64.StdEncoding.Encode.induct with
    | case1 => simp [base64.StdEncoding.Encode]
    | case2 a =>
      simp only [base64.StdEncoding.Encode, List.mem_cons, List.mem_singleton,
        List.not_mem_nil, or_false, not_or]
      exact ⟨fun h => key _ (Nat.mod_lt _ (by decide)) h.symm,
        fun h => key _ (Nat.mod_lt _ (by decide)) h.symm,
        fun h => hpad h.symm, fun h => hpad h.symm⟩
    | case3 a c =>
      simp only [base64.StdEncoding.Encode, List.mem_cons, List.mem_singleton,
        List.not_mem_nil, or_false, not_or]
      exact ⟨fun h => key _ (Nat.mod_lt _ (by decide)) h.symm,
        fun h => key _ (Nat.mod_lt _ (by decide)) h.symm,
        fun h => key _ (Nat.mod_lt _ (by decide)) h.symm, fun h => hpad h.symm⟩
    | case4 a c e rest ih =>
      simp only [base64.StdEncoding.Encode, List.mem_cons, not_or]
      exact ⟨fun h => key _ (Nat.mod_lt _ (by decide)) h.symm,
        fun h => key _ (Nat.mod_lt _ (by decide)) h.symm,
        fun h => key _ (Nat.mod_lt _ (by decide)) h.symm,
        fun h => key _ (Nat.mod_lt _ (by decide)) h.symm, ih⟩
  exact hall x hb

/-- Every fingerprint that `Hash` returns is free of the character `#`. -/
theorem Hash_no_separator (i : Info) (h : Digest) (s : String) (hs : i.Hash h = some s) :
    free keySeparator s = true := by
  simp only [Info.Hash, Option.map_eq_some'] at hs
  obtain ⟨r, hr, rfl⟩ := hs
  have hall := AppendHash_some_all i [] h r hr
  rw [AppendHash_eq, if_pos hall, Option.some.injEq] at hr
  subst hr
  exact base64.Encode_no_separator _

end Xmpp
